import Mathlib

/-!
Verification of the mmd2pptx layout engine specification against its source.

The TypeScript source (src/compiler/layout.ts, src/compiler/geometry.ts,
src/quality/readability.ts) is shallowly embedded below.  JavaScript numbers
are modelled by an arbitrary linear ordered field `α` (instantiated at `ℚ`
for executable witnesses and at `ℝ` where the source uses `Math.sqrt`,
`Math.log10` or fractional powers).  `Math.hypot` appearing only inside
comparisons is modelled by comparing squared distances, which is equivalent
over an ordered field.  Fallible lookups (`Map.get`) return `Option`.
-/

set_option linter.unusedSectionVars false

namespace Mmd2Pptx

/-- The four layout flow directions plus the parser's `TD` alias
(types.ts `DiagramDirection`). -/
inductive DiagramDirection where
  | TD | TB | BT | LR | RL
deriving DecidableEq, Repr

/-- An edge anchor side (types.ts `EdgeSide`): top, bottom, left or right. -/
inductive EdgeSide where
  | T | B | L | R
deriving DecidableEq, Repr

/-- A 2-D point (types.ts `Point`). -/
structure Pt (α : Type) where
  x : α
  y : α
deriving DecidableEq, Repr

instance {α : Type} [LinearOrderedField α] : Inhabited (Pt α) := ⟨⟨0, 0⟩⟩

/-- Node visual style (types.ts `NodeStyle`); only the fields the layout and
readability code reads are kept. -/
structure NodeStyle (α : Type) where
  fill : String
  stroke : String
  text : String
  fontSize : α
deriving DecidableEq, Repr

/-- Edge style fields read by layout and readability (types.ts `EdgeStyle`):
the per-endpoint side hints and the label font size. -/
structure EdgeStyle (α : Type) where
  startSide : Option EdgeSide
  endSide : Option EdgeSide
  fontSize : α
deriving DecidableEq, Repr

/-- Subgraph style fields read by layout (types.ts `SubgraphStyle`). -/
structure SubgraphStyle (α : Type) where
  fill : String
  text : String
  padding : α
deriving DecidableEq, Repr

/-- A diagram node (types.ts `IrNode`). -/
structure IrNode (α : Type) where
  id : String
  label : String
  isJunction : Bool
  subgraphId : Option String
  width : α
  height : α
  x : α
  y : α
  style : NodeStyle α
deriving DecidableEq, Repr

/-- A diagram edge (types.ts `IrEdge`).  `from`/`to` are keywords in Lean and
are rendered `fromId`/`toId`. -/
structure IrEdge (α : Type) where
  id : String
  fromId : String
  toId : String
  label : Option String
  points : List (Pt α)
  labelPosition : Option (Pt α)
  style : EdgeStyle α
deriving DecidableEq, Repr

/-- A subgraph (types.ts `IrSubgraph`). -/
structure IrSubgraph (α : Type) where
  id : String
  title : String
  parentId : Option String
  nodeIds : List String
  x : α
  y : α
  width : α
  height : α
  style : SubgraphStyle α
deriving DecidableEq, Repr

/-- The derived overall bounds (types.ts `DiagramIr.bounds`). -/
structure IrBounds (α : Type) where
  minX : α
  minY : α
  maxX : α
  maxY : α
  width : α
  height : α
deriving DecidableEq, Repr

/-- Dagre-facing layout configuration (types.ts `LayoutConfig`). -/
structure LayoutConfig (α : Type) where
  ranksep : α
  nodesep : α
  edgesep : α
  marginx : α
  marginy : α
deriving DecidableEq, Repr

/-- The diagram intermediate representation (types.ts `DiagramIr`), with the
fields the layout and readability subsystems read and write. -/
structure DiagramIr (α : Type) where
  direction : DiagramDirection
  layout : LayoutConfig α
  nodes : List (IrNode α)
  edges : List (IrEdge α)
  subgraphs : List (IrSubgraph α)
  bounds : IrBounds α
deriving DecidableEq, Repr

variable {α : Type} [LinearOrderedField α]

/-- layout.ts `clamp`: `Math.min(max, Math.max(min, value))`. -/
def clamp (value lo hi : α) : α := min hi (max lo value)

/-- layout.ts `MIN_LAYOUT_ASPECT = 4 / 3`. -/
def MIN_LAYOUT_ASPECT : α := 4 / 3

/-- layout.ts `MAX_LAYOUT_ASPECT = 16 / 9`. -/
def MAX_LAYOUT_ASPECT : α := 16 / 9

/-- layout.ts `clampAspect`.  The argument is `number | undefined`; `none`
models every input for which `Number.isFinite` is false (undefined, NaN and
the infinities), which over a field have no finite counterpart. -/
def clampAspect (value : Option α) : α :=
  match value with
  | none => MAX_LAYOUT_ASPECT
  | some v => clamp v MIN_LAYOUT_ASPECT MAX_LAYOUT_ASPECT

/-! ### geometry.ts -/

/-- The character class of the JavaScript regex `/\s/u` (also the set removed
by `String.prototype.trim`): ASCII whitespace, NEL-free Unicode space
separators, the line/paragraph separators and the BOM. -/
def isJsWhitespace (c : Char) : Bool :=
  let n := c.toNat
  n == 9 || n == 10 || n == 11 || n == 12 || n == 13 || n == 32 ||
  n == 160 || n == 0x1680 || (0x2000 ≤ n && n ≤ 0x200A) ||
  n == 0x2028 || n == 0x2029 || n == 0x202F || n == 0x205F ||
  n == 0x3000 || n == 0xFEFF

/-- The character class `/[　-鿿豈-﫿]/u` used by
geometry.ts `titleTextUnits` to detect wide (CJK) characters. -/
def isWideScript (c : Char) : Bool :=
  let n := c.toNat
  (0x3000 ≤ n && n ≤ 0x9FFF) || (0xF900 ≤ n && n ≤ 0xFAFF)

/-- geometry.ts `titleTextUnits`: whitespace counts 0.35 units, wide-script
characters 1.75 units, anything else 1 unit.  Whitespace is tested first,
exactly as in the source (U+3000 is in both classes). -/
def titleTextUnits (line : List Char) : α :=
  line.foldl
    (fun units ch =>
      units +
        (if isJsWhitespace ch then 35 / 100
         else if isWideScript ch then 175 / 100
         else 1))
    0

/-- The `.replace(/\r\n/g, "\n")` step of geometry.ts `titleBandHeight`. -/
def replaceCrlf : List Char → List Char
  | [] => []
  | '\r' :: '\n' :: rest => '\n' :: replaceCrlf rest
  | c :: rest => c :: replaceCrlf rest

/-- The `.split("\n")` step of geometry.ts `titleBandHeight`. -/
def splitOnNewline (cs : List Char) : List (List Char) :=
  cs.foldr
    (fun c acc =>
      match acc with
      | [] => if c = '\n' then [[], []] else [[c]]
      | line :: rest => if c = '\n' then [] :: (line :: rest) else (c :: line) :: rest)
    [[]]

/-- The `.trim()` step of geometry.ts `titleBandHeight` (JS trim removes the
same character class as `/\s/u`). -/
def trimChars (cs : List Char) : List Char :=
  ((cs.dropWhile isJsWhitespace).reverse.dropWhile isJsWhitespace).reverse

section WithFloor
variable [FloorRing α]

/-- geometry.ts `titleBandHeight`: zero for a blank title, otherwise a band of
height `max(92, 18 + wrappedLines * 24)` where each non-blank trimmed line
wraps into `max(1, ceil(units / 26))` rows. -/
def titleBandHeight (title : String) : α :=
  let ls := ((splitOnNewline (replaceCrlf title.toList)).map trimChars).filter
    (fun l => !l.isEmpty)
  if ls.length = 0 then 0
  else
    let wrappedLines : ℤ :=
      ls.foldl (fun sum line => sum + max 1 ⌈(titleTextUnits line : α) / 26⌉) 0
    max 92 (18 + (wrappedLines : α) * 24)

end WithFloor

/-- An axis-aligned rectangle tracked as min/max extents, as in the
`resolveSubgraphBounds` accumulator of geometry.ts. -/
structure Rect4 (α : Type) where
  minX : α
  minY : α
  maxX : α
  maxY : α
deriving DecidableEq, Repr

/-- The rectangle spanned by a node (`x .. x + width`, `y .. y + height`). -/
def nodeRect (n : IrNode α) : Rect4 α :=
  ⟨n.x, n.y, n.x + n.width, n.y + n.height⟩

/-- The rectangle currently stored on a subgraph. -/
def subRect (s : IrSubgraph α) : Rect4 α :=
  ⟨s.x, s.y, s.x + s.width, s.y + s.height⟩

/-- Componentwise min/max union of two extent rectangles, the effect of one
`Math.min`/`Math.max` accumulation step in geometry.ts. -/
def rectUnion (a b : Rect4 α) : Rect4 α :=
  ⟨min a.minX b.minX, min a.minY b.minY, max a.maxX b.maxX, max a.maxY b.maxY⟩

/-- `a` lies inside `b`. -/
def rectInside (a b : Rect4 α) : Prop :=
  b.minX ≤ a.minX ∧ b.minY ≤ a.minY ∧ a.maxX ≤ b.maxX ∧ a.maxY ≤ b.maxY

instance (a b : Rect4 α) : Decidable (rectInside a b) := by
  unfold rectInside; infer_instance

/-- The `minX/minY/maxX/maxY` accumulation of geometry.ts, which starts from
infinities and tracks a `hasContent` flag: `none` models the untouched
infinite accumulator. -/
def bboxOf : List (Rect4 α) → Option (Rect4 α)
  | [] => none
  | r :: rs => some (rs.foldl rectUnion r)

/-- JavaScript `Map.get` over an insertion list: later insertions win, as in
`new Map(list)` built by geometry.ts. -/
def mapGetNode (nodes : List (IrNode α)) (id : String) : Option (IrNode α) :=
  nodes.foldl (fun acc n => if n.id = id then some n else acc) none

/-- JavaScript `Map.get` for the subgraph map of geometry.ts. -/
def mapGetSub (subs : List (IrSubgraph α)) (id : String) : Option (IrSubgraph α) :=
  subs.foldl (fun acc s => if s.id = id then some s else acc) none

/-- JavaScript truthiness of `subgraph.parentId`: `undefined` and the empty
string are both falsy, so geometry.ts skips them when building
`childrenByParent`. -/
def parentKey : Option String → Option String
  | none => none
  | some "" => none
  | some p => some p

/-- geometry.ts `childrenByParent` lookup: the ids of subgraphs whose (truthy)
`parentId` is `pid`, in source order. -/
def childrenOf (subs : List (IrSubgraph α)) (pid : String) : List String :=
  (subs.filter (fun s => parentKey s.parentId = some pid)).map (·.id)

/-- The `computedBounds` memo of geometry.ts `recomputeSubgraphBounds`:
entries are written once and never overwritten, so a front-insertion
association list with first-match lookup is faithful. -/
abbrev SubMemo (α : Type) := List (String × Option (Rect4 α))

section WithFloor
variable [FloorRing α]

/-- geometry.ts `resolveSubgraphBounds`: memoised, cycle-guarded post-order
resolution of one subgraph rectangle.  The `fuel` argument only bounds the
recursion for Lean; with `fuel = subs.length + 1` it can never run out,
because each recursive call pushes a fresh subgraph id onto `visiting` and
`visiting` keeps only distinct ids of existing subgraphs (so the depth never
exceeds `subs.length`).  The unreachable out-of-fuel branch behaves like the
no-content branch. -/
def resolveSubgraphBounds (nodes : List (IrNode α)) (subs : List (IrSubgraph α)) :
    Nat → SubMemo α → List String → String → SubMemo α × Option (Rect4 α)
  | fuel, computed, visiting, sid =>
    match computed.lookup sid with
    | some v => (computed, v)
    | none =>
      if sid ∈ visiting then (computed, none)
      else
        match mapGetSub subs sid with
        | none => ((sid, none) :: computed, none)
        | some sg =>
          match fuel with
          | 0 => ((sid, none) :: computed, none)
          | fuel' + 1 =>
            let members := sg.nodeIds.filterMap (mapGetNode nodes)
            let folded :=
              (childrenOf subs sid).foldl
                (fun (acc : SubMemo α × List (Rect4 α)) cid =>
                  let next := resolveSubgraphBounds nodes subs fuel' acc.1 (sid :: visiting) cid
                  (next.1, acc.2 ++ next.2.toList))
                (computed, [])
            match bboxOf (members.map nodeRect ++ folded.2) with
            | none => ((sid, none) :: folded.1, none)
            | some bb =>
              let padding := sg.style.padding
              let titleBand := titleBandHeight sg.title
              let r : Rect4 α :=
                ⟨bb.minX - padding, bb.minY - padding - titleBand,
                 bb.maxX + padding, bb.maxY + padding⟩
              ((sid, some r) :: folded.1, some r)

/-- The top-level loop of geometry.ts `recomputeSubgraphBounds`: resolve every
subgraph, threading the memo. -/
def runSubgraphBounds (nodes : List (IrNode α)) (subs : List (IrSubgraph α)) : SubMemo α :=
  subs.foldl
    (fun acc sg => (resolveSubgraphBounds nodes subs (subs.length + 1) acc [] sg.id).1)
    []

/-- The field update `subgraph.x = minX; ...` performed by geometry.ts once a
subgraph resolves to a rectangle; a `null` resolution leaves the subgraph
untouched. -/
def subgraphWithBounds (computed : SubMemo α) (s : IrSubgraph α) : IrSubgraph α :=
  match (computed.lookup s.id).join with
  | some r =>
    { s with x := r.minX, y := r.minY,
             width := r.maxX - r.minX, height := r.maxY - r.minY }
  | none => s

/-- Write the resolved rectangles back onto the subgraph records.  The source
mutates the object found through `subgraphMap`, which for duplicate ids is
the last occurrence, so only the last subgraph with a given id is updated. -/
def applyComputedBounds : List (IrSubgraph α) → SubMemo α → List (IrSubgraph α)
  | [], _ => []
  | s :: rest, computed =>
    (if ∀ t ∈ rest, t.id ≠ s.id then subgraphWithBounds computed s else s) ::
      applyComputedBounds rest computed

/-- geometry.ts `recomputeSubgraphBounds` as a pure transformation of the
diagram. -/
def recomputeSubgraphBounds (ir : DiagramIr α) : DiagramIr α :=
  { ir with subgraphs := applyComputedBounds ir.subgraphs (runSubgraphBounds ir.nodes ir.subgraphs) }

end WithFloor

/-- One accumulation step of geometry.ts `recomputeBounds`; `none` models the
untouched `±Infinity` accumulator. -/
def mergeRect (acc : Option (Rect4 α)) (r : Rect4 α) : Option (Rect4 α) :=
  match acc with
  | none => some r
  | some q => some (rectUnion q r)

/-- geometry.ts `recomputeBounds`: min/max over all node rectangles, all
subgraph rectangles and all edge route points; a non-finite extent (which
over a field means no contribution at all) collapses to the canonical
all-zero bounds. -/
def recomputeBounds (ir : DiagramIr α) : DiagramIr α :=
  let acc1 := ir.nodes.foldl (fun a n => mergeRect a (nodeRect n)) none
  let acc2 := ir.subgraphs.foldl (fun a s => mergeRect a (subRect s)) acc1
  let acc3 := ir.edges.foldl
    (fun a e => e.points.foldl (fun a' p => mergeRect a' ⟨p.x, p.y, p.x, p.y⟩) a) acc2
  match acc3 with
  | none => { ir with bounds := ⟨0, 0, 0, 0, 0, 0⟩ }
  | some r =>
    { ir with bounds := ⟨r.minX, r.minY, r.maxX, r.maxY, r.maxX - r.minX, r.maxY - r.minY⟩ }

/-! ### Basic lemmas about the geometry embedding -/

theorem rectInside_refl (a : Rect4 α) : rectInside a a :=
  ⟨le_refl _, le_refl _, le_refl _, le_refl _⟩

theorem rectInside_trans {a b c : Rect4 α} (h1 : rectInside a b) (h2 : rectInside b c) :
    rectInside a c :=
  ⟨le_trans h2.1 h1.1, le_trans h2.2.1 h1.2.1,
   le_trans h1.2.2.1 h2.2.2.1, le_trans h1.2.2.2 h2.2.2.2⟩

theorem rectInside_union_left (a b : Rect4 α) : rectInside a (rectUnion a b) :=
  ⟨min_le_left _ _, min_le_left _ _, le_max_left _ _, le_max_left _ _⟩

theorem rectInside_union_right (a b : Rect4 α) : rectInside b (rectUnion a b) :=
  ⟨min_le_right _ _, min_le_right _ _, le_max_right _ _, le_max_right _ _⟩

theorem foldl_rectUnion_inside (l : List (Rect4 α)) :
    ∀ init : Rect4 α, rectInside init (l.foldl rectUnion init) ∧
      ∀ r ∈ l, rectInside r (l.foldl rectUnion init) := by
  induction l with
  | nil => exact fun init => ⟨rectInside_refl init, by simp⟩
  | cons x xs ih =>
    intro init
    have h := ih (rectUnion init x)
    refine ⟨rectInside_trans (rectInside_union_left init x) h.1, ?_⟩
    intro r hr
    rcases List.mem_cons.mp hr with h1 | h1
    · subst h1
      exact rectInside_trans (rectInside_union_right init r) h.1
    · exact h.2 r h1

theorem bboxOf_some_inside {l : List (Rect4 α)} {bb : Rect4 α}
    (h : bboxOf l = some bb) : ∀ r ∈ l, rectInside r bb := by
  cases l with
  | nil => simp [bboxOf] at h
  | cons x xs =>
    simp only [bboxOf, Option.some_inj] at h
    subst h
    intro r hr
    rcases List.mem_cons.mp hr with h1 | h1
    · subst h1
      exact (foldl_rectUnion_inside xs r).1
    · exact (foldl_rectUnion_inside xs x).2 r h1

theorem bboxOf_eq_none {l : List (Rect4 α)} : bboxOf l = none ↔ l = [] := by
  cases l <;> simp [bboxOf]

section WithFloor
variable [FloorRing α]

theorem titleBandHeight_nonneg (t : String) : 0 ≤ (titleBandHeight t : α) := by
  unfold titleBandHeight
  dsimp only
  split
  · exact le_refl 0
  · exact le_trans (by norm_num : (0 : α) ≤ 92) (le_max_left _ _)

end WithFloor

/-! Lemmas about JavaScript-`Map` style lookups. -/

theorem mapGetSub_eq_some {subs : List (IrSubgraph α)} {id : String} {sg : IrSubgraph α}
    (h : mapGetSub subs id = some sg) : sg ∈ subs ∧ sg.id = id := by
  unfold mapGetSub at h
  suffices H : ∀ (l : List (IrSubgraph α)) (acc : Option (IrSubgraph α)),
      (∀ t, acc = some t → t ∈ subs ∧ t.id = id) → (∀ s ∈ l, s ∈ subs) →
      ∀ t, (l.foldl (fun acc s => if s.id = id then some s else acc) acc) = some t →
        t ∈ subs ∧ t.id = id by
    exact H subs none (by simp) (fun s hs => hs) sg h
  intro l
  induction l with
  | nil => intro acc hacc _ t ht; exact hacc t ht
  | cons x xs ih =>
    intro acc hacc hmem t ht
    simp only [List.foldl_cons] at ht
    refine ih _ ?_ (fun s hs => hmem s (List.mem_cons_of_mem x hs)) t ht
    intro u hu
    by_cases hx : x.id = id
    · simp [hx] at hu
      subst hu
      exact ⟨hmem x (List.mem_cons_self x xs), hx⟩
    · simp [hx] at hu
      exact hacc u hu

theorem mapGet_isSome_mono {β : Type} {f : β → String} {id : String}
    (l : List β) (acc : Option β) (h : acc.isSome) :
    (l.foldl (fun acc s => if f s = id then some s else acc) acc).isSome := by
  induction l generalizing acc with
  | nil => exact h
  | cons x xs ih =>
    simp only [List.foldl_cons]
    by_cases hx : f x = id
    · exact ih _ (by simp [hx])
    · exact ih _ (by simpa [hx] using h)

theorem mapGetSub_isSome_of_mem {subs : List (IrSubgraph α)} {s : IrSubgraph α}
    (hs : s ∈ subs) : (mapGetSub subs s.id).isSome := by
  unfold mapGetSub
  suffices H : ∀ (l : List (IrSubgraph α)) (acc : Option (IrSubgraph α)),
      s ∈ l ∨ acc.isSome →
      (l.foldl (fun acc t => if t.id = s.id then some t else acc) acc).isSome by
    exact H subs none (Or.inl hs)
  intro l
  induction l with
  | nil =>
    rintro acc (h | h)
    · cases h
    · exact h
  | cons x xs ih =>
    rintro acc (h | h)
    · rcases List.mem_cons.mp h with h1 | h1
      · subst h1
        simp only [List.foldl_cons, if_pos rfl]
        exact mapGet_isSome_mono (f := fun t : IrSubgraph α => t.id) xs _ rfl
      · exact ih _ (Or.inl h1)
    · simp only [List.foldl_cons]
      by_cases hx : x.id = s.id
      · exact ih _ (Or.inr (by simp [hx]))
      · exact ih _ (Or.inr (by simpa [hx] using h))

theorem childrenOf_spec {subs : List (IrSubgraph α)} {pid cid : String} :
    cid ∈ childrenOf subs pid ↔ ∃ s ∈ subs, s.id = cid ∧ parentKey s.parentId = some pid := by
  unfold childrenOf
  simp only [List.mem_map, List.mem_filter]
  constructor
  · rintro ⟨s, ⟨hs, hp⟩, hid⟩
    exact ⟨s, hs, hid, of_decide_eq_true hp⟩
  · rintro ⟨s, hs, hid, hp⟩
    exact ⟨s, ⟨hs, decide_eq_true hp⟩, hid⟩

/-! Association-list lookup lemmas for the write-once memo. -/

theorem lookup_cons_self {β : Type} (k : String) (v : β) (m : List (String × β)) :
    ((k, v) :: m).lookup k = some v := by
  simp [List.lookup]

theorem lookup_cons_ne {β : Type} {k k' : String} (v : β) (m : List (String × β))
    (h : k' ≠ k) : ((k, v) :: m).lookup k' = m.lookup k' := by
  have hb : (k' == k) = false := beq_eq_false_iff_ne.mpr h
  simp [List.lookup, hb]

/-- Memo extension: every existing entry survives (geometry.ts never
overwrites a `computedBounds` entry thanks to the leading `has` check). -/
def MemoLe (m m' : SubMemo α) : Prop :=
  ∀ k v, m.lookup k = some v → m'.lookup k = some v

theorem MemoLe.refl (m : SubMemo α) : MemoLe m m := fun _ _ h => h

theorem MemoLe.trans {m1 m2 m3 : SubMemo α} (h1 : MemoLe m1 m2) (h2 : MemoLe m2 m3) :
    MemoLe m1 m3 := fun k v h => h2 k v (h1 k v h)

theorem MemoLe.cons_fresh {m : SubMemo α} {k : String} (v : Option (Rect4 α))
    (h : m.lookup k = none) : MemoLe m ((k, v) :: m) := by
  intro k' v' h'
  have hne : k' ≠ k := by
    intro he
    rw [he, h] at h'
    cases h'
  rw [lookup_cons_ne v m hne]
  exact h'

/-! ### The containment invariant of `recomputeSubgraphBounds` (claims C2, C9) -/

section SubgraphInv
variable [FloorRing α]
variable (nodes : List (IrNode α)) (subs : List (IrSubgraph α))

/-- Every rectangle recorded in the memo contains the rectangles of the
existing member nodes of its subgraph. -/
def MemberInv (m : SubMemo α) : Prop :=
  ∀ sid r, m.lookup sid = some (some r) →
    ∀ sg, mapGetSub subs sid = some sg →
      ∀ n ∈ sg.nodeIds.filterMap (mapGetNode nodes), rectInside (nodeRect n) r

/-- Whenever a parent and a child both have memo entries and the child
resolved to a rectangle, the parent resolved to an enclosing rectangle. -/
def ChildUpInv (m : SubMemo α) : Prop :=
  ∀ sid v, m.lookup sid = some v → ∀ cid ∈ childrenOf subs sid,
    ∀ rc, m.lookup cid = some (some rc) → ∃ rp, v = some rp ∧ rectInside rc rp

/-- Children are always resolved (and memoised) before their parent. -/
def ChildrenPresent (m : SubMemo α) : Prop :=
  ∀ sid v, m.lookup sid = some v → ∀ cid ∈ childrenOf subs sid, ∃ w, m.lookup cid = some w

/-- A subgraph with no existing member nodes and no non-empty child
subgraphs (every child recorded as `null`) is itself recorded as skipped
(`null`): the source's `hasContent` flag stays false when the members list
is empty and every child resolution returns `null`. -/
def EmptyNone (m : SubMemo α) : Prop :=
  ∀ sid v, m.lookup sid = some v →
    ∀ sg, mapGetSub subs sid = some sg →
      sg.nodeIds.filterMap (mapGetNode nodes) = [] →
      (∀ cid ∈ childrenOf subs sid, m.lookup cid = some none) → v = none

/-- The full memo invariant maintained by `resolveSubgraphBounds`. -/
def MemoInv (m : SubMemo α) : Prop :=
  MemberInv nodes subs m ∧ ChildUpInv subs m ∧ ChildrenPresent subs m ∧ EmptyNone nodes subs m

/-- Postcondition of one `resolveSubgraphBounds` call. -/
def ResolveOut (m : SubMemo α) (visiting : List String) (sid : String)
    (out : SubMemo α × Option (Rect4 α)) : Prop :=
  MemoLe m out.1 ∧ (∀ k ∈ visiting, out.1.lookup k = m.lookup k) ∧
    out.1.lookup sid = some out.2 ∧ MemoInv nodes subs out.1

/-- The `visiting` set always holds distinct ids of existing subgraphs, so it
is strictly smaller than the subgraph list whenever the current id is fresh:
this is why the recursion of geometry.ts terminates. -/
theorem visiting_length_lt {visiting : List String} {sid : String}
    (hvisN : visiting.Nodup)
    (hvisMem : ∀ v ∈ visiting, (mapGetSub subs v).isSome)
    (hsidvis : sid ∉ visiting)
    (hsidMem : (mapGetSub subs sid).isSome) :
    visiting.length < subs.length := by
  have hnd : (sid :: visiting).Nodup := List.nodup_cons.mpr ⟨hsidvis, hvisN⟩
  have hsub : ∀ v ∈ sid :: visiting, v ∈ subs.map (·.id) := by
    intro v hv
    have hsome : (mapGetSub subs v).isSome := by
      rcases List.mem_cons.mp hv with h | h
      · subst h; exact hsidMem
      · exact hvisMem v h
    rcases Option.isSome_iff_exists.mp hsome with ⟨sg, hsg⟩
    rcases mapGetSub_eq_some hsg with ⟨hmem, hid⟩
    exact List.mem_map.mpr ⟨sg, hmem, hid⟩
  have h1 : (sid :: visiting).toFinset.card = (sid :: visiting).length :=
    List.toFinset_card_of_nodup hnd
  have h2 : (sid :: visiting).toFinset ⊆ (subs.map (·.id)).toFinset := by
    intro x hx
    exact List.mem_toFinset.mpr (hsub x (List.mem_toFinset.mp hx))
  have h3 := Finset.card_le_card h2
  have h4 : (subs.map (·.id)).toFinset.card ≤ (subs.map (·.id)).length :=
    (subs.map (·.id)).toFinset_card_le
  have h5 : (subs.map (·.id)).length = subs.length := List.length_map _ _
  have h6 : (sid :: visiting).length = visiting.length + 1 := by simp
  omega

/-- Adding a freshly computed entry to the memo preserves the invariant,
provided the entry is self-consistent with its members and children. -/
theorem memoInv_cons {m' : SubMemo α} (hinv' : MemoInv nodes subs m')
    {sid : String} {sg : IrSubgraph α} (hsg : mapGetSub subs sid = some sg)
    (hfresh : m'.lookup sid = none)
    {v : Option (Rect4 α)}
    (hchild : ∀ c ∈ childrenOf subs sid, ∃ w, m'.lookup c = some w ∧
      ∀ rc, w = some rc → ∃ r, v = some r ∧ rectInside rc r)
    (hmember : ∀ n ∈ sg.nodeIds.filterMap (mapGetNode nodes),
      ∃ r, v = some r ∧ rectInside (nodeRect n) r)
    (hempty : sg.nodeIds.filterMap (mapGetNode nodes) = [] →
      (∀ cid ∈ childrenOf subs sid, m'.lookup cid = some none) → v = none) :
    MemoInv nodes subs ((sid, v) :: m') := by
  obtain ⟨hM, hC, hP, hE⟩ := hinv'
  refine ⟨?_, ?_, ?_, ?_⟩
  · -- MemberInv
    intro k r hk sg' hsg' n hn
    by_cases hks : k = sid
    · rw [hks] at hk hsg'
      rw [lookup_cons_self] at hk
      have hv : v = some r := by injection hk
      have hsg2 : sg' = sg := by rw [hsg'] at hsg; injection hsg
      rw [hsg2] at hn
      obtain ⟨r0, hr0, hins⟩ := hmember n hn
      rw [hv] at hr0
      injection hr0 with hr0
      rwa [← hr0] at hins
    · rw [lookup_cons_ne _ _ hks] at hk
      exact hM k r hk sg' hsg' n hn
  · -- ChildUpInv
    intro p vp hp c hc rc hrc
    by_cases hps : p = sid
    · rw [hps] at hp hc
      rw [lookup_cons_self] at hp
      have hvp : v = vp := by injection hp
      by_cases hcs : c = sid
      · rw [hcs] at hc
        obtain ⟨w, hw, _⟩ := hchild sid hc
        rw [hfresh] at hw
        cases hw
      · rw [lookup_cons_ne _ _ hcs] at hrc
        obtain ⟨w, hw, himp⟩ := hchild c hc
        rw [hrc] at hw
        have hwrc : w = some rc := by
          injection hw with h
          exact h.symm
        obtain ⟨r, hr, hins⟩ := himp rc hwrc
        exact ⟨r, by rw [← hvp]; exact hr, hins⟩
    · rw [lookup_cons_ne _ _ hps] at hp
      by_cases hcs : c = sid
      · rw [hcs] at hc hrc
        obtain ⟨w, hw⟩ := hP p vp hp sid hc
        rw [hfresh] at hw
        cases hw
      · rw [lookup_cons_ne _ _ hcs] at hrc
        exact hC p vp hp c hc rc hrc
  · -- ChildrenPresent
    intro p vp hp c hc
    by_cases hcs : c = sid
    · refine ⟨v, ?_⟩
      rw [hcs]
      exact lookup_cons_self _ _ _
    · rw [lookup_cons_ne _ _ hcs]
      by_cases hps : p = sid
      · rw [hps] at hc
        obtain ⟨w, hw, _⟩ := hchild c hc
        exact ⟨w, hw⟩
      · rw [lookup_cons_ne _ _ hps] at hp
        exact hP p vp hp c hc
  · -- EmptyNone
    intro k vk hk sg' hsg' hmem hch
    by_cases hks : k = sid
    · rw [hks] at hk hsg' hch
      rw [lookup_cons_self] at hk
      have hvk : v = vk := by injection hk
      have hsg2 : sg' = sg := by rw [hsg'] at hsg; injection hsg
      rw [hsg2] at hmem
      rw [← hvk]
      by_cases hself : sid ∈ childrenOf subs sid
      · have hs := hch sid hself
        rw [lookup_cons_self] at hs
        exact Option.some.inj hs
      · refine hempty hmem ?_
        intro cid hcid
        have hne : cid ≠ sid := fun he => hself (he ▸ hcid)
        have hs := hch cid hcid
        rwa [lookup_cons_ne _ _ hne] at hs
    · rw [lookup_cons_ne _ _ hks] at hk
      refine hE k vk hk sg' hsg' hmem ?_
      intro cid hcid
      by_cases hcs : cid = sid
      · obtain ⟨w, hw⟩ := hP k vk hk cid hcid
        rw [hcs, hfresh] at hw
        cases hw
      · have hs := hch cid hcid
        rwa [lookup_cons_ne _ _ hcs] at hs

/-- Specification of the children fold inside `resolveSubgraphBounds`: the
memo grows consistently, every child ends up memoised, and every child
rectangle lands in the collected list. -/
theorem resolveChildren_spec
    (depth : String → ℕ)
    (hdep : ∀ s ∈ subs, ∀ pid, parentKey s.parentId = some pid → depth pid < depth s.id)
    (fuel' : ℕ)
    (IH : ∀ (m : SubMemo α) (visiting : List String) (sid : String),
      subs.length ≤ fuel' + visiting.length →
      visiting.Nodup →
      (∀ v ∈ visiting, (mapGetSub subs v).isSome) →
      (∀ v ∈ visiting, depth v < depth sid) →
      (mapGetSub subs sid).isSome →
      MemoInv nodes subs m →
      ResolveOut nodes subs m visiting sid (resolveSubgraphBounds nodes subs fuel' m visiting sid))
    (sid : String) (visiting : List String)
    (hfuel : subs.length ≤ fuel' + (visiting.length + 1))
    (hvisN : visiting.Nodup)
    (hvisMem : ∀ v ∈ visiting, (mapGetSub subs v).isSome)
    (hvisDep : ∀ v ∈ visiting, depth v < depth sid)
    (hsidMem : (mapGetSub subs sid).isSome) :
    ∀ (cs : List String), (∀ c ∈ cs, c ∈ childrenOf subs sid) →
    ∀ (m : SubMemo α) (rects : List (Rect4 α)), MemoInv nodes subs m →
      MemoLe m (cs.foldl
          (fun acc cid =>
            ((resolveSubgraphBounds nodes subs fuel' acc.1 (sid :: visiting) cid).1,
             acc.2 ++ (resolveSubgraphBounds nodes subs fuel' acc.1 (sid :: visiting) cid).2.toList))
          (m, rects)).1 ∧
      (∀ k ∈ sid :: visiting,
        (cs.foldl
          (fun acc cid =>
            ((resolveSubgraphBounds nodes subs fuel' acc.1 (sid :: visiting) cid).1,
             acc.2 ++ (resolveSubgraphBounds nodes subs fuel' acc.1 (sid :: visiting) cid).2.toList))
          (m, rects)).1.lookup k = m.lookup k) ∧
      MemoInv nodes subs (cs.foldl
          (fun acc cid =>
            ((resolveSubgraphBounds nodes subs fuel' acc.1 (sid :: visiting) cid).1,
             acc.2 ++ (resolveSubgraphBounds nodes subs fuel' acc.1 (sid :: visiting) cid).2.toList))
          (m, rects)).1 ∧
      (∀ c ∈ cs, ∃ v,
        (cs.foldl
          (fun acc cid =>
            ((resolveSubgraphBounds nodes subs fuel' acc.1 (sid :: visiting) cid).1,
             acc.2 ++ (resolveSubgraphBounds nodes subs fuel' acc.1 (sid :: visiting) cid).2.toList))
          (m, rects)).1.lookup c = some v ∧
        ∀ rc, v = some rc → rc ∈ (cs.foldl
          (fun acc cid =>
            ((resolveSubgraphBounds nodes subs fuel' acc.1 (sid :: visiting) cid).1,
             acc.2 ++ (resolveSubgraphBounds nodes subs fuel' acc.1 (sid :: visiting) cid).2.toList))
          (m, rects)).2) ∧
      (∃ extra, (cs.foldl
          (fun acc cid =>
            ((resolveSubgraphBounds nodes subs fuel' acc.1 (sid :: visiting) cid).1,
             acc.2 ++ (resolveSubgraphBounds nodes subs fuel' acc.1 (sid :: visiting) cid).2.toList))
          (m, rects)).2 = rects ++ extra) ∧
      (∀ rc ∈ (cs.foldl
          (fun acc cid =>
            ((resolveSubgraphBounds nodes subs fuel' acc.1 (sid :: visiting) cid).1,
             acc.2 ++ (resolveSubgraphBounds nodes subs fuel' acc.1 (sid :: visiting) cid).2.toList))
          (m, rects)).2, rc ∈ rects ∨ ∃ c ∈ cs,
        (cs.foldl
          (fun acc cid =>
            ((resolveSubgraphBounds nodes subs fuel' acc.1 (sid :: visiting) cid).1,
             acc.2 ++ (resolveSubgraphBounds nodes subs fuel' acc.1 (sid :: visiting) cid).2.toList))
          (m, rects)).1.lookup c = some (some rc)) := by
  have hsidvis : sid ∉ visiting := fun h => lt_irrefl _ (hvisDep sid h)
  intro cs
  induction cs with
  | nil =>
    intro _ m rects hinv
    exact ⟨MemoLe.refl m, fun k _ => rfl, hinv, by simp, ⟨[], by simp⟩,
      fun rc hrc => Or.inl hrc⟩
  | cons c cs ihcs =>
    intro hcs m rects hinv
    obtain ⟨s, hsmem, hsideq, hpar⟩ := childrenOf_spec.mp (hcs c (List.mem_cons_self c cs))
    have hcMem : (mapGetSub subs c).isSome := hsideq ▸ mapGetSub_isSome_of_mem hsmem
    have hcd : depth sid < depth c := hsideq ▸ hdep s hsmem sid hpar
    have hcDep : ∀ v ∈ sid :: visiting, depth v < depth c := by
      intro v hv
      rcases List.mem_cons.mp hv with h | h
      · subst h; exact hcd
      · exact lt_trans (hvisDep v h) hcd
    have R := IH m (sid :: visiting) c
      (by simpa using hfuel)
      (List.nodup_cons.mpr ⟨hsidvis, hvisN⟩)
      (by
        intro v hv
        rcases List.mem_cons.mp hv with h | h
        · subst h; exact hsidMem
        · exact hvisMem v h)
      hcDep hcMem hinv
    obtain ⟨hle1, hstab1, hlook1, hinv1⟩ := R
    have Rest := ihcs (fun c' hc' => hcs c' (List.mem_cons_of_mem c hc'))
      (resolveSubgraphBounds nodes subs fuel' m (sid :: visiting) c).1
      (rects ++ (resolveSubgraphBounds nodes subs fuel' m (sid :: visiting) c).2.toList)
      hinv1
    obtain ⟨hle2, hstab2, hinv2, hchild2, ⟨extra2, hext2⟩, hrects2⟩ := Rest
    simp only [List.foldl_cons]
    refine ⟨hle1.trans hle2, ?_, hinv2, ?_, ?_, ?_⟩
    · intro k hk
      rw [hstab2 k hk, hstab1 k hk]
    · intro c' hc'
      rcases List.mem_cons.mp hc' with h | h
      · subst h
        refine ⟨(resolveSubgraphBounds nodes subs fuel' m (sid :: visiting) c').2,
          hle2 _ _ hlook1, ?_⟩
        intro rc hrc
        rw [hext2]
        refine List.mem_append_left _ (List.mem_append_right _ ?_)
        rw [hrc]
        simp
      · obtain ⟨v, hv, himp⟩ := hchild2 c' h
        exact ⟨v, hv, himp⟩
    · rw [hext2, List.append_assoc]
      exact ⟨_, rfl⟩
    · intro rc hrc
      rcases hrects2 rc hrc with h | ⟨c', hc', hlk⟩
      · rcases List.mem_append.mp h with h | h
        · exact Or.inl h
        · have hv1 : (resolveSubgraphBounds nodes subs fuel' m (sid :: visiting) c).2
              = some rc := by
            rcases hop : (resolveSubgraphBounds nodes subs fuel' m (sid :: visiting) c).2
              with _ | w
            · rw [hop] at h; cases h
            · rw [hop] at h
              simp only [Option.toList_some, List.mem_singleton] at h
              rw [h]
          refine Or.inr ⟨c, List.mem_cons_self c cs, ?_⟩
          exact hle2 _ _ (hv1 ▸ hlook1)
      · exact Or.inr ⟨c', List.mem_cons_of_mem c hc', hlk⟩

/-- Main invariant theorem for `resolveSubgraphBounds`: one call extends the
memo consistently and records the requested subgraph. -/
theorem resolve_spec
    (depth : String → ℕ)
    (hdep : ∀ s ∈ subs, ∀ pid, parentKey s.parentId = some pid → depth pid < depth s.id)
    (hpad : ∀ s ∈ subs, 0 ≤ s.style.padding) :
    ∀ (fuel : ℕ) (m : SubMemo α) (visiting : List String) (sid : String),
      subs.length ≤ fuel + visiting.length →
      visiting.Nodup →
      (∀ v ∈ visiting, (mapGetSub subs v).isSome) →
      (∀ v ∈ visiting, depth v < depth sid) →
      (mapGetSub subs sid).isSome →
      MemoInv nodes subs m →
      ResolveOut nodes subs m visiting sid
        (resolveSubgraphBounds nodes subs fuel m visiting sid) := by
  intro fuel
  induction fuel with
  | zero =>
    intro m visiting sid hfuel hvisN hvisMem hvisDep hsidMem hinv
    have hsidvis : sid ∉ visiting := fun h => lt_irrefl _ (hvisDep sid h)
    cases hm : m.lookup sid with
    | some v =>
      have heq : resolveSubgraphBounds nodes subs 0 m visiting sid = (m, v) := by
        unfold resolveSubgraphBounds
        rw [hm]
      rw [heq]
      exact ⟨MemoLe.refl m, fun k _ => rfl, hm, hinv⟩
    | none =>
      exfalso
      have := visiting_length_lt subs hvisN hvisMem hsidvis hsidMem
      omega
  | succ fuel' ih =>
    intro m visiting sid hfuel hvisN hvisMem hvisDep hsidMem hinv
    have hsidvis : sid ∉ visiting := fun h => lt_irrefl _ (hvisDep sid h)
    cases hm : m.lookup sid with
    | some v =>
      have heq : resolveSubgraphBounds nodes subs (fuel' + 1) m visiting sid = (m, v) := by
        unfold resolveSubgraphBounds
        rw [hm]
      rw [heq]
      exact ⟨MemoLe.refl m, fun k _ => rfl, hm, hinv⟩
    | none =>
      obtain ⟨sg, hsg⟩ := Option.isSome_iff_exists.mp hsidMem
      have hpadsg : 0 ≤ sg.style.padding := hpad sg (mapGetSub_eq_some hsg).1
      obtain ⟨hle, hstab, hinvF, hchildF, hextraF, hrectsF⟩ :=
        resolveChildren_spec nodes subs depth hdep fuel' ih sid visiting
          (by omega) hvisN hvisMem hvisDep hsidMem (childrenOf subs sid)
          (fun c hc => hc) m [] hinv
      set F := (childrenOf subs sid).foldl
          (fun acc cid =>
            ((resolveSubgraphBounds nodes subs fuel' acc.1 (sid :: visiting) cid).1,
             acc.2 ++ (resolveSubgraphBounds nodes subs fuel' acc.1 (sid :: visiting) cid).2.toList))
          (m, ([] : List (Rect4 α))) with hF
      have hfreshF : F.1.lookup sid = none := by
        rw [hstab sid (List.mem_cons_self _ _)]
        exact hm
      have heq : resolveSubgraphBounds nodes subs (fuel' + 1) m visiting sid =
          (match bboxOf (((sg.nodeIds.filterMap (mapGetNode nodes)).map nodeRect) ++ F.2) with
           | none => ((sid, none) :: F.1, none)
           | some bb =>
             ((sid, some (⟨bb.minX - sg.style.padding,
                bb.minY - sg.style.padding - titleBandHeight sg.title,
                bb.maxX + sg.style.padding,
                bb.maxY + sg.style.padding⟩ : Rect4 α)) :: F.1,
              some ⟨bb.minX - sg.style.padding,
                bb.minY - sg.style.padding - titleBandHeight sg.title,
                bb.maxX + sg.style.padding,
                bb.maxY + sg.style.padding⟩)) := by
        conv_lhs => rw [resolveSubgraphBounds]
        rw [hm]
        dsimp only
        rw [if_neg hsidvis, hsg]
      rw [heq]
      cases hbb : bboxOf (((sg.nodeIds.filterMap (mapGetNode nodes)).map nodeRect) ++ F.2) with
      | none =>
        have h0 : (sg.nodeIds.filterMap (mapGetNode nodes)).map nodeRect = [] ∧ F.2 = [] :=
          List.append_eq_nil.mp (bboxOf_eq_none.mp hbb)
        have hmembers : sg.nodeIds.filterMap (mapGetNode nodes) = [] :=
          List.map_eq_nil_iff.mp h0.1
        refine ⟨hle.trans (MemoLe.cons_fresh none hfreshF), ?_, lookup_cons_self _ _ _, ?_⟩
        · intro k hk
          have hkne : k ≠ sid := fun he => hsidvis (he ▸ hk)
          rw [lookup_cons_ne _ _ hkne]
          exact hstab k (List.mem_cons_of_mem _ hk)
        · refine memoInv_cons nodes subs hinvF hsg hfreshF ?_ ?_ (fun _ _ => rfl)
          · intro c hc
            obtain ⟨w, hw, himp⟩ := hchildF c hc
            refine ⟨w, hw, ?_⟩
            intro rc hrcw
            exfalso
            have := himp rc hrcw
            rw [h0.2] at this
            cases this
          · intro n hn
            rw [hmembers] at hn
            cases hn
      | some bb =>
        have hband : (0 : α) ≤ titleBandHeight sg.title := titleBandHeight_nonneg sg.title
        have hbbr : rectInside bb
            (⟨bb.minX - sg.style.padding,
              bb.minY - sg.style.padding - titleBandHeight sg.title,
              bb.maxX + sg.style.padding,
              bb.maxY + sg.style.padding⟩ : Rect4 α) := by
          refine ⟨?_, ?_, ?_, ?_⟩
          · exact sub_le_self _ hpadsg
          · have : bb.minY - sg.style.padding ≤ bb.minY := sub_le_self _ hpadsg
            have h2 : bb.minY - sg.style.padding - titleBandHeight sg.title ≤
                bb.minY - sg.style.padding := sub_le_self _ hband
            exact le_trans h2 this
          · exact le_add_of_nonneg_right hpadsg
          · exact le_add_of_nonneg_right hpadsg
        refine ⟨hle.trans (MemoLe.cons_fresh _ hfreshF), ?_, lookup_cons_self _ _ _, ?_⟩
        · intro k hk
          have hkne : k ≠ sid := fun he => hsidvis (he ▸ hk)
          rw [lookup_cons_ne _ _ hkne]
          exact hstab k (List.mem_cons_of_mem _ hk)
        · refine memoInv_cons nodes subs hinvF hsg hfreshF ?_ ?_ ?_
          · intro c hc
            obtain ⟨w, hw, himp⟩ := hchildF c hc
            refine ⟨w, hw, ?_⟩
            intro rc hrcw
            exact ⟨_, rfl,
              rectInside_trans
                (bboxOf_some_inside hbb rc (List.mem_append_right _ (himp rc hrcw))) hbbr⟩
          · intro n hn
            have hmem : nodeRect n ∈
                ((sg.nodeIds.filterMap (mapGetNode nodes)).map nodeRect) ++ F.2 :=
              List.mem_append_left _ (List.mem_map_of_mem nodeRect hn)
            exact ⟨_, rfl, rectInside_trans (bboxOf_some_inside hbb _ hmem) hbbr⟩
          · intro hmem hch
            exfalso
            rw [hmem] at hbb
            simp only [List.map_nil, List.nil_append] at hbb
            cases hF2 : F.2 with
            | nil =>
              rw [hF2] at hbb
              simp [bboxOf] at hbb
            | cons rc rest =>
              have hrc : rc ∈ F.2 := by
                rw [hF2]; exact List.mem_cons_self _ _
              rcases hrectsF rc hrc with h | ⟨c, hc, hlk⟩
              · cases h
              · have hcontra := hch c hc
                rw [hlk] at hcontra
                exact Option.noConfusion (Option.some.inj hcontra)

/-- The memo built by the top-level loop of `recomputeSubgraphBounds`
satisfies the invariant, and every subgraph of the diagram has an entry. -/
theorem runSubgraphBounds_spec
    (depth : String → ℕ)
    (hdep : ∀ s ∈ subs, ∀ pid, parentKey s.parentId = some pid → depth pid < depth s.id)
    (hpad : ∀ s ∈ subs, 0 ≤ s.style.padding) :
    MemoInv nodes subs (runSubgraphBounds nodes subs) ∧
      ∀ s ∈ subs, ∃ v, (runSubgraphBounds nodes subs).lookup s.id = some v := by
  have hinvnil : MemoInv nodes subs ([] : SubMemo α) := by
    refine ⟨?_, ?_, ?_, ?_⟩ <;> intro sid v h <;> simp [List.lookup] at h
  suffices H : ∀ (l : List (IrSubgraph α)) (m : SubMemo α),
      (∀ s ∈ l, s ∈ subs) → MemoInv nodes subs m →
      MemoInv nodes subs
        (l.foldl (fun acc sg =>
          (resolveSubgraphBounds nodes subs (subs.length + 1) acc [] sg.id).1) m) ∧
      MemoLe m
        (l.foldl (fun acc sg =>
          (resolveSubgraphBounds nodes subs (subs.length + 1) acc [] sg.id).1) m) ∧
      ∀ s ∈ l, ∃ v,
        (l.foldl (fun acc sg =>
          (resolveSubgraphBounds nodes subs (subs.length + 1) acc [] sg.id).1) m).lookup s.id
          = some v by
    have h := H subs [] (fun s hs => hs) hinvnil
    exact ⟨h.1, h.2.2⟩
  intro l
  induction l with
  | nil =>
    intro m _ hinv
    exact ⟨hinv, MemoLe.refl m, by simp⟩
  | cons s rest ihl =>
    intro m hmem hinv
    have hsMem : (mapGetSub subs s.id).isSome :=
      mapGetSub_isSome_of_mem (hmem s (List.mem_cons_self s rest))
    obtain ⟨hle1, _, hlook1, hinv1⟩ :=
      resolve_spec nodes subs depth hdep hpad (subs.length + 1) m [] s.id
        (by simp) List.nodup_nil (by simp) (by simp) hsMem hinv
    obtain ⟨hinv2, hle2, hrest⟩ :=
      ihl (resolveSubgraphBounds nodes subs (subs.length + 1) m [] s.id).1
        (fun t ht => hmem t (List.mem_cons_of_mem s ht)) hinv1
    simp only [List.foldl_cons]
    refine ⟨hinv2, hle1.trans hle2, ?_⟩
    intro t ht
    rcases List.mem_cons.mp ht with h | h
    · subst h
      exact ⟨_, hle2 _ _ hlook1⟩
    · exact hrest t h

/-- Under unique subgraph ids, the write-back step is plain per-subgraph
updating. -/
theorem applyComputedBounds_eq_map (computed : SubMemo α) :
    ∀ (l : List (IrSubgraph α)), (l.map (·.id)).Nodup →
      applyComputedBounds l computed = l.map (subgraphWithBounds computed) := by
  intro l
  induction l with
  | nil => intro _; rfl
  | cons s rest ihl =>
    intro hnd
    rw [List.map_cons] at hnd
    have hhead : s.id ∉ rest.map (·.id) := (List.nodup_cons.mp hnd).1
    have hcond : ∀ t ∈ rest, t.id ≠ s.id := by
      intro t ht he
      exact hhead (he ▸ List.mem_map_of_mem (·.id) ht)
    show (if ∀ t ∈ rest, t.id ≠ s.id then subgraphWithBounds computed s else s) ::
        applyComputedBounds rest computed = _
    rw [if_pos hcond, List.map_cons, ihl (List.nodup_cons.mp hnd).2]

end SubgraphInv

/-- The resolved rectangle recorded for a subgraph id by one full run of
`recomputeSubgraphBounds` (`null`, i.e. `none`, when the subgraph was skipped
for having no content). -/
def subgraphComputedRect [FloorRing α] (ir : DiagramIr α) (sid : String) :
    Option (Rect4 α) :=
  ((runSubgraphBounds ir.nodes ir.subgraphs).lookup sid).join

theorem subgraphWithBounds_id (computed : SubMemo α) (s : IrSubgraph α) :
    (subgraphWithBounds computed s).id = s.id := by
  unfold subgraphWithBounds
  cases h : (computed.lookup s.id).join <;> simp

theorem subgraphWithBounds_parentId (computed : SubMemo α) (s : IrSubgraph α) :
    (subgraphWithBounds computed s).parentId = s.parentId := by
  unfold subgraphWithBounds
  cases h : (computed.lookup s.id).join <;> simp

theorem subgraphWithBounds_nodeIds (computed : SubMemo α) (s : IrSubgraph α) :
    (subgraphWithBounds computed s).nodeIds = s.nodeIds := by
  unfold subgraphWithBounds
  cases h : (computed.lookup s.id).join <;> simp

theorem subRect_withBounds {computed : SubMemo α} {s : IrSubgraph α} {r : Rect4 α}
    (h : (computed.lookup s.id).join = some r) :
    subRect (subgraphWithBounds computed s) = r := by
  unfold subgraphWithBounds
  rw [h]
  cases r with
  | mk a b c d =>
    simp only [subRect, Rect4.mk.injEq, true_and]
    constructor <;> ring

theorem subgraphWithBounds_of_none {computed : SubMemo α} {s : IrSubgraph α}
    (h : (computed.lookup s.id).join = none) : subgraphWithBounds computed s = s := by
  unfold subgraphWithBounds
  rw [h]

/-- **C2**.  After `recomputeSubgraphBounds`, every subgraph that resolved to
a rectangle (equivalently: that has at least one existing member node or a
non-empty descendant subgraph) carries exactly the resolved rectangle; that
rectangle contains the rectangle of every existing member node (the source
additionally expands it by the padding and the title band, so a fortiori the
node lies in the padded rectangle with the title band reserved above); and
every resolved subgraph's rectangle lies inside its parent's rectangle.
Children are resolved before parents by the post-order recursion, and since
`recomputeSubgraphBounds` is a pure function of the diagram this holds at
every point the pipeline recomputes subgraph bounds.  Hypotheses: `depth`
witnesses acyclicity of subgraph nesting (the data model forbids cycles),
paddings are non-negative, and subgraph ids are unique. -/
theorem c2_subgraph_containment {α : Type} [LinearOrderedField α] [FloorRing α]
    (ir : DiagramIr α) (depth : String → ℕ)
    (hdep : ∀ s ∈ ir.subgraphs, ∀ pid, parentKey s.parentId = some pid →
      depth pid < depth s.id)
    (hpad : ∀ s ∈ ir.subgraphs, 0 ≤ s.style.padding)
    (hnd : (ir.subgraphs.map (·.id)).Nodup) :
    ∀ s' ∈ (recomputeSubgraphBounds ir).subgraphs,
      ∀ r, subgraphComputedRect ir s'.id = some r →
        subRect s' = r ∧
        (∀ sg, mapGetSub ir.subgraphs s'.id = some sg →
          ∀ n ∈ sg.nodeIds.filterMap (mapGetNode ir.nodes),
            rectInside (nodeRect n) (subRect s')) ∧
        (∀ p' ∈ (recomputeSubgraphBounds ir).subgraphs,
          parentKey s'.parentId = some p'.id →
            rectInside (subRect s') (subRect p')) := by
  obtain ⟨hinv, hall⟩ := runSubgraphBounds_spec ir.nodes ir.subgraphs depth hdep hpad
  have hsubs : (recomputeSubgraphBounds ir).subgraphs =
      ir.subgraphs.map (subgraphWithBounds (runSubgraphBounds ir.nodes ir.subgraphs)) := by
    show applyComputedBounds ir.subgraphs (runSubgraphBounds ir.nodes ir.subgraphs) = _
    exact applyComputedBounds_eq_map _ ir.subgraphs hnd
  intro s' hs' r hr
  rw [hsubs] at hs'
  obtain ⟨s, hsmem, hs'eq⟩ := List.mem_map.mp hs'
  have hid : s'.id = s.id := by rw [← hs'eq]; exact subgraphWithBounds_id _ s
  have hjoin : ((runSubgraphBounds ir.nodes ir.subgraphs).lookup s.id).join = some r := by
    rw [← hid]
    exact hr
  have hlook : (runSubgraphBounds ir.nodes ir.subgraphs).lookup s.id = some (some r) :=
    Option.join_eq_some.mp hjoin
  have hsr : subRect s' = r := by rw [← hs'eq]; exact subRect_withBounds hjoin
  refine ⟨hsr, ?_, ?_⟩
  · intro sg hsg n hn
    rw [hsr, hid] at *
    exact hinv.1 s.id r hlook sg hsg n hn
  · intro p' hp' hpk
    rw [hsubs] at hp'
    obtain ⟨p, hpmem, hp'eq⟩ := List.mem_map.mp hp'
    have hpid : p'.id = p.id := by rw [← hp'eq]; exact subgraphWithBounds_id _ p
    have hpk2 : parentKey s.parentId = some p.id := by
      rw [← hpid]
      rw [← hs'eq] at hpk
      rwa [subgraphWithBounds_parentId] at hpk
    have hchild : s.id ∈ childrenOf ir.subgraphs p.id :=
      childrenOf_spec.mpr ⟨s, hsmem, rfl, hpk2⟩
    obtain ⟨vp, hvp⟩ := hall p hpmem
    obtain ⟨rp, hvpr, hins⟩ := hinv.2.1 p.id vp hvp s.id hchild r hlook
    have hpj : ((runSubgraphBounds ir.nodes ir.subgraphs).lookup p.id).join = some rp := by
      rw [hvp, hvpr]
      rfl
    have hpr : subRect p' = rp := by rw [← hp'eq]; exact subRect_withBounds hpj
    rw [hsr, hpr]
    exact hins

/-! Concrete inputs used by the witnesses. -/

/-- Default-ish node style used by witness diagrams. -/
def wNodeStyle : NodeStyle ℚ := ⟨"F8FAFC", "0F172A", "0F172A", 14⟩

/-- Default-ish subgraph style used by witness diagrams (padding 24 as in
normalize.ts). -/
def wSubStyle : SubgraphStyle ℚ := ⟨"FFFFFF", "0F172A", 24⟩

/-- Default layout configuration (normalize.ts `DEFAULT_LAYOUT_CONFIG`). -/
def wLayout : LayoutConfig ℚ := ⟨90, 60, 30, 30, 30⟩

def c2wNodeA : IrNode ℚ := ⟨"a", "A", false, some "g", 100, 50, 10, 20, wNodeStyle⟩

def c2wNodeB : IrNode ℚ := ⟨"b", "B", false, some "h", 80, 40, 200, 300, wNodeStyle⟩

def c2wSubG : IrSubgraph ℚ := ⟨"g", "G", none, ["a"], 0, 0, 0, 0, wSubStyle⟩

def c2wSubH : IrSubgraph ℚ := ⟨"h", "H", some "g", ["b"], 0, 0, 0, 0, wSubStyle⟩

/-- A two-level nested diagram: node `a` in subgraph `g`, node `b` in
subgraph `h`, and `h` nested inside `g`. -/
def c2wIr : DiagramIr ℚ :=
  ⟨.TB, wLayout, [c2wNodeA, c2wNodeB], [], [c2wSubG, c2wSubH], ⟨0, 0, 0, 0, 0, 0⟩⟩

/-- Nesting depth witnessing the acyclicity of `c2wIr`. -/
def c2wDepth : String → ℕ := fun sid => if sid = "h" then 1 else 0

/-- Witness for C2: on the concrete nested diagram, subgraph `h` resolves to
a rectangle and the containment theorem applies. -/
theorem c2_witness :
    subgraphComputedRect c2wIr "h" = some ⟨176, 184, 304, 364⟩ ∧
    ∀ s' ∈ (recomputeSubgraphBounds c2wIr).subgraphs,
      ∀ r, subgraphComputedRect c2wIr s'.id = some r →
        subRect s' = r ∧
        (∀ sg, mapGetSub c2wIr.subgraphs s'.id = some sg →
          ∀ n ∈ sg.nodeIds.filterMap (mapGetNode c2wIr.nodes),
            rectInside (nodeRect n) (subRect s')) ∧
        (∀ p' ∈ (recomputeSubgraphBounds c2wIr).subgraphs,
          parentKey s'.parentId = some p'.id →
            rectInside (subRect s') (subRect p')) := by
  constructor
  · have h1 : (⌈(1 : ℚ) / 26⌉ : ℤ) = 1 := by
      rw [Int.ceil_eq_iff]
      norm_num
    have h2 : (("h" : String) == "g") = false := by decide
    norm_num +decide [subgraphComputedRect, runSubgraphBounds, resolveSubgraphBounds,
      c2wIr, c2wSubG, c2wSubH, c2wNodeA, c2wNodeB, wSubStyle, wNodeStyle, childrenOf,
      parentKey, mapGetSub, mapGetNode, bboxOf, rectUnion, nodeRect, titleBandHeight,
      titleTextUnits, replaceCrlf, splitOnNewline, trimChars, isJsWhitespace,
      isWideScript, List.lookup, List.foldl, List.filterMap, List.filter, List.map,
      List.dropWhile, min_def, max_def, h1, h2]
  · refine c2_subgraph_containment c2wIr c2wDepth ?_ ?_ (by decide)
    · intro s hs pid h
      fin_cases hs
      · simp [c2wSubG, parentKey] at h
      · simp only [c2wSubH] at h
        simp only [parentKey] at h
        injection h with h
        subst h
        decide
    · intro s hs
      fin_cases hs <;> norm_num [c2wSubG, c2wSubH, wSubStyle]

theorem mapGet_foldl_no_match {id : String} :
    ∀ (l : List (IrSubgraph α)) (acc : Option (IrSubgraph α)),
      (∀ u ∈ l, u.id ≠ id) →
      l.foldl (fun acc s => if s.id = id then some s else acc) acc = acc := by
  intro l
  induction l with
  | nil => intro acc _; rfl
  | cons t rest ih =>
    intro acc hne
    simp only [List.foldl_cons]
    rw [if_neg (hne t (List.mem_cons_self t rest))]
    exact ih acc (fun u hu => hne u (List.mem_cons_of_mem t hu))

/-- With unique ids, the JavaScript `Map` lookup finds each subgraph itself. -/
theorem mapGetSub_of_nodup :
    ∀ (subs : List (IrSubgraph α)), (subs.map (·.id)).Nodup →
      ∀ s ∈ subs, mapGetSub subs s.id = some s := by
  intro subs
  induction subs with
  | nil => intro _ s hs; cases hs
  | cons t rest ih =>
    intro hnd s hs
    rw [List.map_cons] at hnd
    have hhead : t.id ∉ rest.map (·.id) := (List.nodup_cons.mp hnd).1
    rcases List.mem_cons.mp hs with h | h
    · subst h
      unfold mapGetSub
      simp only [List.foldl_cons, if_pos rfl]
      exact mapGet_foldl_no_match rest (some s)
        (fun u hu he => hhead (he ▸ List.mem_map_of_mem (·.id) hu))
    · have hne : t.id ≠ s.id := by
        intro he
        exact hhead (he ▸ List.mem_map_of_mem (·.id) h)
      unfold mapGetSub
      simp only [List.foldl_cons, if_neg hne]
      exact ih (List.nodup_cons.mp hnd).2 s h

/-- The edge fold of `recomputeBounds` contributes nothing when every route
is empty. -/
theorem recomputeBounds_edges_nil :
    ∀ (l : List (IrEdge α)) (a : Option (Rect4 α)), (∀ e ∈ l, e.points = []) →
      l.foldl (fun a e => e.points.foldl
        (fun a' p => mergeRect a' ⟨p.x, p.y, p.x, p.y⟩) a) a = a := by
  intro l
  induction l with
  | nil => intro a _; rfl
  | cons e rest ih =>
    intro a hpts
    simp only [List.foldl_cons]
    rw [hpts e (List.mem_cons_self e rest)]
    exact ih a (fun e' he' => hpts e' (List.mem_cons_of_mem e he'))

/-- **C9**.  Bounds recomputation never produces degenerate rectangles from
missing content: a subgraph with no existing member nodes and no child
subgraph contributing a rectangle (each child itself resolved to `null`,
which covers both absent children and children that are in turn empty) is
skipped — its record is returned unchanged, never set from infinities — and
an overall extent with no contribution at all (no nodes, no subgraphs, no
edge route points — the only way the accumulator stays non-finite over a
field) collapses to the canonical all-zero bounds. -/
theorem c9_degenerate_bounds_guard {α : Type} [LinearOrderedField α] [FloorRing α] :
    (∀ (ir : DiagramIr α) (depth : String → ℕ),
      (∀ s ∈ ir.subgraphs, ∀ pid, parentKey s.parentId = some pid →
        depth pid < depth s.id) →
      (∀ s ∈ ir.subgraphs, 0 ≤ s.style.padding) →
      (ir.subgraphs.map (·.id)).Nodup →
      ∀ s ∈ ir.subgraphs,
        s.nodeIds.filterMap (mapGetNode ir.nodes) = [] →
        (∀ c ∈ childrenOf ir.subgraphs s.id, subgraphComputedRect ir c = none) →
          subgraphComputedRect ir s.id = none ∧
          subgraphWithBounds (runSubgraphBounds ir.nodes ir.subgraphs) s = s) ∧
    (∀ ir : DiagramIr α, ir.nodes = [] → ir.subgraphs = [] →
      (∀ e ∈ ir.edges, e.points = []) →
      (recomputeBounds ir).bounds = ⟨0, 0, 0, 0, 0, 0⟩) := by
  constructor
  · intro ir depth hdep hpad hnd s hs hmem hch
    obtain ⟨hinv, hall⟩ := runSubgraphBounds_spec ir.nodes ir.subgraphs depth hdep hpad
    obtain ⟨v, hv⟩ := hall s hs
    have hsg : mapGetSub ir.subgraphs s.id = some s := mapGetSub_of_nodup ir.subgraphs hnd s hs
    have hch' : ∀ cid ∈ childrenOf ir.subgraphs s.id,
        (runSubgraphBounds ir.nodes ir.subgraphs).lookup cid = some none := by
      intro cid hcid
      obtain ⟨t, htmem, htid, _⟩ := childrenOf_spec.mp hcid
      obtain ⟨w, hw⟩ := hall t htmem
      rw [htid] at hw
      have hcr := hch cid hcid
      unfold subgraphComputedRect at hcr
      rw [hw] at hcr
      have hw2 : w = none := hcr
      rw [hw, hw2]
    have hvnone : v = none := hinv.2.2.2 s.id v hv s hsg hmem hch'
    have hjoin : ((runSubgraphBounds ir.nodes ir.subgraphs).lookup s.id).join = none := by
      rw [hv, hvnone]
      rfl
    exact ⟨hjoin, subgraphWithBounds_of_none hjoin⟩
  · intro ir hn hs hpts
    unfold recomputeBounds
    rw [hn, hs]
    simp only [List.foldl_nil]
    rw [recomputeBounds_edges_nil ir.edges none hpts]

/-- A memberless parent subgraph whose only child is itself empty, used by
the C9 witness. -/
def c9wSubParent : IrSubgraph ℚ := ⟨"p", "Parent", none, [], 0, 0, 0, 0, wSubStyle⟩

/-- A subgraph with no members and no children, nested inside `c9wSubParent`,
used by the C9 witness. -/
def c9wSubEmpty : IrSubgraph ℚ := ⟨"e", "Empty", some "p", [], 0, 0, 0, 0, wSubStyle⟩

/-- Diagram with one node and a content-free nested subgraph pair: the
parent has no member nodes and its only child is itself empty. -/
def c9wIr : DiagramIr ℚ :=
  ⟨.TB, wLayout, [c2wNodeA], [], [c9wSubParent, c9wSubEmpty], ⟨0, 0, 0, 0, 0, 0⟩⟩

/-- A completely empty diagram (no nodes, subgraphs or edges). -/
def c9wEmptyIr : DiagramIr ℚ :=
  ⟨.TB, wLayout, [], [], [], ⟨1, 2, 3, 4, 5, 6⟩⟩

/-- Witness for C9: the memberless parent subgraph of `c9wIr`, whose only
child "e" exists but is itself empty (so resolves to `null`), is skipped,
and the empty diagram collapses to all-zero bounds. -/
theorem c9_witness :
    (childrenOf c9wIr.subgraphs "p" = ["e"] ∧
      subgraphComputedRect c9wIr "e" = none ∧
      subgraphComputedRect c9wIr "p" = none ∧
      subgraphWithBounds (runSubgraphBounds c9wIr.nodes c9wIr.subgraphs) c9wSubParent
        = c9wSubParent) ∧
    (recomputeBounds c9wEmptyIr).bounds = ⟨0, 0, 0, 0, 0, 0⟩ := by
  have h := (c9_degenerate_bounds_guard (α := ℚ)).1 c9wIr
      (fun sid => if sid = "e" then 1 else 0)
      (by
        intro s hs pid h
        fin_cases hs
        · simp [c9wSubParent, parentKey] at h
        · simp [c9wSubEmpty, parentKey] at h
          subst h
          decide)
      (by
        intro s hs
        fin_cases hs
        · norm_num [c9wSubParent, wSubStyle]
        · norm_num [c9wSubEmpty, wSubStyle])
      (by decide)
      c9wSubParent (by decide)
      (by decide)
      (by
        intro c hc
        have he : childrenOf c9wIr.subgraphs c9wSubParent.id = ["e"] := by decide
        rw [he] at hc
        simp only [List.mem_singleton] at hc
        subst hc
        rfl)
  exact ⟨⟨by decide, by rfl, h.1, h.2⟩,
    (c9_degenerate_bounds_guard (α := ℚ)).2 c9wEmptyIr rfl rfl (by decide)⟩

/-- **C10**.  The target aspect ratio is clamped before use: any requested
ratio at or below 4/3 is treated as 4/3, any ratio at or above 16/9 is
treated as 16/9, every non-finite request (modelled by `none`) becomes 16/9,
and the clamped target always lies in `[4/3, 16/9]`.  Both
`fitLayoutToTargetAspect` (layout.ts:1978) and `tuneLayoutForAspect`
(layout.ts:2514) pass the caller's ratio through `clampAspect` before any
fitting step, so aspect fitting never targets a ratio outside this band. -/
theorem c10_clamp_aspect {α : Type} [LinearOrderedField α] :
    (∀ v : α, v ≤ 4 / 3 → clampAspect (some v) = 4 / 3) ∧
    (∀ v : α, 16 / 9 ≤ v → clampAspect (some v) = 16 / 9) ∧
    clampAspect (none : Option α) = 16 / 9 ∧
    (∀ v : Option α, 4 / 3 ≤ clampAspect v ∧ clampAspect v ≤ 16 / 9) := by
  have h43 : (4 : α) / 3 ≤ 16 / 9 := by norm_num
  refine ⟨?_, ?_, rfl, ?_⟩
  · intro v hv
    show clamp v MIN_LAYOUT_ASPECT MAX_LAYOUT_ASPECT = 4 / 3
    unfold clamp MIN_LAYOUT_ASPECT MAX_LAYOUT_ASPECT
    rw [max_eq_left hv, min_eq_right h43]
  · intro v hv
    show clamp v MIN_LAYOUT_ASPECT MAX_LAYOUT_ASPECT = 16 / 9
    unfold clamp MIN_LAYOUT_ASPECT MAX_LAYOUT_ASPECT
    rw [min_eq_left]
    exact le_trans hv (le_max_right _ _)
  · intro v
    cases v with
    | none =>
      constructor
      · exact h43
      · exact le_refl _
    | some q =>
      constructor
      · show (4 : α) / 3 ≤ min (16 / 9) (max (4 / 3) q)
        exact le_min h43 (le_max_left _ _)
      · exact min_le_left _ _

/-- Witness for C10 at concrete requests 1 (too flat), 3 (too wide), a
non-finite request, and 1.5 (inside the band). -/
theorem c10_witness :
    ((1 : ℚ) ≤ 4 / 3 ∧ clampAspect (some (1 : ℚ)) = 4 / 3) ∧
    ((16 : ℚ) / 9 ≤ 3 ∧ clampAspect (some (3 : ℚ)) = 16 / 9) ∧
    clampAspect (none : Option ℚ) = 16 / 9 ∧
    (4 / 3 ≤ clampAspect (some (3 / 2 : ℚ)) ∧ clampAspect (some (3 / 2 : ℚ)) ≤ 16 / 9) :=
  ⟨⟨by norm_num, (c10_clamp_aspect (α := ℚ)).1 1 (by norm_num)⟩,
   ⟨by norm_num, (c10_clamp_aspect (α := ℚ)).2.1 3 (by norm_num)⟩,
   (c10_clamp_aspect (α := ℚ)).2.2.1,
   (c10_clamp_aspect (α := ℚ)).2.2.2 (some (3 / 2))⟩

/-! ### layout.ts: deterministic noise and jittered restarts (claim C1) -/

/-- layout.ts `Rankdir`. -/
inductive Rankdir where
  | TB | BT | LR | RL
deriving DecidableEq, Repr

/-- layout.ts `toRankdir`: the parser alias `TD` maps to `TB`. -/
def toRankdir (direction : DiagramDirection) : Rankdir :=
  match direction with
  | .BT => .BT
  | .LR => .LR
  | .RL => .RL
  | _ => .TB

/-- UTF-16 code units of a string as read by `charCodeAt` (identical to code
points on the BMP, which covers every id the parser produces). -/
def stringCodeUnits (s : String) : List ℕ :=
  s.toList.map Char.toNat

/-- layout.ts `hashString32`: the FNV-1a loop over 32-bit integers.  JS
`hash ^= c` followed by `Math.imul(hash, 16777619)` keeps exactly the low 32
bits of the product, so the running value is maintained modulo `2^32`; the
final `>>> 0` reinterprets the pattern as the unsigned value modelled here. -/
def hashString32 (codes : List ℕ) : ℕ :=
  codes.foldl (fun hash c => ((hash ^^^ c) * 16777619) % 2 ^ 32) 2166136261

/-- The code units of the template string `` `${seed}:${salt}:${nodeId}` ``
hashed by `deterministicNoise` (58 is the colon). -/
def noiseKeyCodes (nodeId : String) (seed salt : ℕ) : List ℕ :=
  (Nat.toDigits 10 seed).map Char.toNat ++ [58] ++
    (Nat.toDigits 10 salt).map Char.toNat ++ [58] ++ stringCodeUnits nodeId

/-- layout.ts `deterministicNoise`: a pure function of
`(nodeId, seed, salt)` through the stable string hash, scaled into the
interval `[-1, 1]`. -/
def deterministicNoise (nodeId : String) (seed salt : ℕ) : α :=
  ((hashString32 (noiseKeyCodes nodeId seed salt) % 20001 : ℕ) : α) / 10000 - 1

/-- layout.ts `applyDeterministicJitter`: every movable (non-junction,
non-pinned) node is offset by the two deterministic noise samples scaled by
the clamped amplitudes; the source's early return for an empty movable set
leaves the diagram unchanged, exactly as the per-node map does. -/
def applyDeterministicJitter (ir : DiagramIr α) (pinnedNodeIds : List String)
    (rankdir : Rankdir) (seed : ℕ) (layoutConfig : LayoutConfig α) : DiagramIr α :=
  let baseAmplitude := clamp (layoutConfig.nodesep * (24 / 100)) 7 42
  let minorAmplitude := clamp (baseAmplitude * (58 / 100)) 4 20
  { ir with
    nodes := ir.nodes.map (fun node =>
      if node.isJunction = false ∧ node.id ∉ pinnedNodeIds then
        let nMain : α := deterministicNoise node.id seed 17
        let nMinor : α := deterministicNoise node.id seed 53
        if rankdir = .TB ∨ rankdir = .BT then
          { node with x := node.x + nMain * baseAmplitude,
                      y := node.y + nMinor * minorAmplitude }
        else
          { node with x := node.x + nMinor * minorAmplitude,
                      y := node.y + nMain * baseAmplitude }
      else node) }

/-- **C1**.  All restart randomness is the pure stable hash
`deterministicNoise`: it factors through `hashString32` applied to exactly
`(seed, salt, nodeId)`, its output always lies in `[-1, 1]`, equal inputs
give bit-identical noise, and running the jitter pass twice on identical
input (same diagram, pinned set, direction, restart seed and spacing) yields
identical output diagrams.  The embedding is a pure function — the source
uses no system randomness (`Math.random`, `Date.now`) anywhere in the
engine — so the engine run is determined by its input. -/
theorem c1_deterministic_jitter {α : Type} [LinearOrderedField α] :
    (∀ (nodeId : String) (seed salt : ℕ),
      deterministicNoise (α := α) nodeId seed salt =
        ((hashString32 (noiseKeyCodes nodeId seed salt) % 20001 : ℕ) : α) / 10000 - 1) ∧
    (∀ (nodeId : String) (seed salt : ℕ),
      -1 ≤ deterministicNoise (α := α) nodeId seed salt ∧
        deterministicNoise (α := α) nodeId seed salt ≤ 1) ∧
    (∀ (id1 id2 : String) (seed1 seed2 salt1 salt2 : ℕ),
      id1 = id2 → seed1 = seed2 → salt1 = salt2 →
      deterministicNoise (α := α) id1 seed1 salt1 =
        deterministicNoise (α := α) id2 seed2 salt2) ∧
    (∀ (ir1 ir2 : DiagramIr α) (p1 p2 : List String) (rd1 rd2 : Rankdir)
        (s1 s2 : ℕ) (c1 c2 : LayoutConfig α),
      ir1 = ir2 → p1 = p2 → rd1 = rd2 → s1 = s2 → c1 = c2 →
      applyDeterministicJitter ir1 p1 rd1 s1 c1 =
        applyDeterministicJitter ir2 p2 rd2 s2 c2) := by
  refine ⟨fun _ _ _ => rfl, ?_, ?_, ?_⟩
  · intro nodeId seed salt
    have hmod : hashString32 (noiseKeyCodes nodeId seed salt) % 20001 ≤ 20000 :=
      Nat.le_of_lt_succ (Nat.mod_lt _ (by norm_num))
    have hcast : ((hashString32 (noiseKeyCodes nodeId seed salt) % 20001 : ℕ) : α)
        ≤ 20000 := by
      calc ((hashString32 (noiseKeyCodes nodeId seed salt) % 20001 : ℕ) : α)
          ≤ ((20000 : ℕ) : α) := Nat.cast_le.mpr hmod
        _ = 20000 := by norm_num
    have hcast0 : (0 : α) ≤
        ((hashString32 (noiseKeyCodes nodeId seed salt) % 20001 : ℕ) : α) :=
      Nat.cast_nonneg _
    unfold deterministicNoise
    constructor
    · have : (0 : α) / 10000 ≤
          ((hashString32 (noiseKeyCodes nodeId seed salt) % 20001 : ℕ) : α) / 10000 :=
        div_le_div_of_nonneg_right hcast0 (by norm_num) |>.trans_eq rfl
      nlinarith
    · nlinarith
  · intro id1 id2 seed1 seed2 salt1 salt2 h1 h2 h3
    rw [h1, h2, h3]
  · intro ir1 ir2 p1 p2 rd1 rd2 s1 s2 c1 c2 h1 h2 h3 h4 h5
    rw [h1, h2, h3, h4, h5]

/-- Witness for C1: concrete evaluations of the stable hash and an
application of the determinism theorem at node id `a`, seed 1, salts 17/53. -/
theorem c1_witness :
    hashString32 (noiseKeyCodes "a" 1 17) % 20001 = 1676 ∧
    (-1 ≤ deterministicNoise (α := ℚ) "a" 1 17 ∧
      deterministicNoise (α := ℚ) "a" 1 17 ≤ 1) ∧
    deterministicNoise (α := ℚ) "a" 1 53 = deterministicNoise (α := ℚ) "a" 1 53 :=
  ⟨by decide, (c1_deterministic_jitter (α := ℚ)).2.1 "a" 1 17,
    (c1_deterministic_jitter (α := ℚ)).2.2.1 "a" "a" 1 1 53 53 rfl rfl rfl⟩

/-! ### layout.ts: edge side anchors and route construction (claims C3, C6) -/

/-- layout.ts `sideNormal`. -/
def sideNormal (side : EdgeSide) : Pt α :=
  match side with
  | .T => ⟨0, -1⟩
  | .L => ⟨-1, 0⟩
  | .B => ⟨0, 1⟩
  | .R => ⟨1, 0⟩

/-- layout.ts `sideAnchor`: the midpoint of the chosen side of the node's
rectangle. -/
def sideAnchor (node : IrNode α) (side : EdgeSide) : Pt α :=
  match side with
  | .T => ⟨node.x + node.width / 2, node.y⟩
  | .L => ⟨node.x, node.y + node.height / 2⟩
  | .B => ⟨node.x + node.width / 2, node.y + node.height⟩
  | .R => ⟨node.x + node.width, node.y + node.height / 2⟩

/-- layout.ts `sideOutwardAnchor`. -/
def sideOutwardAnchor (node : IrNode α) (side : EdgeSide) (distance : α) : Pt α :=
  let anchor := sideAnchor node side
  let normal := sideNormal side
  ⟨anchor.x + normal.x * distance, anchor.y + normal.y * distance⟩

/-- Squared Euclidean distance.  The source only uses `Math.hypot` between
route points inside comparisons against `1e-3`, and over an ordered field
`hypot p q > 1e-3` holds iff `distSq p q > 1e-6`, so the embedding compares
squares. -/
def distSq (p q : Pt α) : α :=
  (p.x - q.x) ^ 2 + (p.y - q.y) ^ 2

/-- One step of the duplicate-removal loop of layout.ts `simplifyPolyline`:
keep the point iff it is farther than `1e-3` from the last kept point. -/
def dedupStep (deduped : List (Pt α)) (p : Pt α) : List (Pt α) :=
  match deduped.getLast? with
  | none => deduped ++ [p]
  | some prev => if 1 / 1000000 < distSq prev p then deduped ++ [p] else deduped

/-- The duplicate-removal phase of layout.ts `simplifyPolyline`. -/
def dedupPoints (points : List (Pt α)) : List (Pt α) :=
  points.foldl dedupStep []

/-- One step of the collinearity-removal loop of layout.ts
`simplifyPolyline`: `bc` is the pair `(deduped[i], deduped[i+1])` and the
cross-product area is measured against the last kept point. -/
def collinearStep (acc : List (Pt α)) (bc : Pt α × Pt α) : List (Pt α) :=
  match acc.getLast? with
  | none => acc
  | some a =>
    if 1 / 1000 < |(bc.1.x - a.x) * (bc.2.y - a.y) - (bc.1.y - a.y) * (bc.2.x - a.x)| then
      acc ++ [bc.1]
    else acc

/-- layout.ts `simplifyPolyline`: drop near-duplicate points, then drop
collinear interior points, always keeping the first and last point. -/
def simplifyPolyline (points : List (Pt α)) : List (Pt α) :=
  if points.length ≤ 2 then points
  else
    let deduped := dedupPoints points
    if deduped.length ≤ 2 then deduped
    else
      (deduped.tail.zip deduped.tail.tail).foldl collinearStep [deduped.headI] ++
        deduped.getLast?.toList

/-- JavaScript truthiness of `edge.label`: `undefined` and `""` are falsy. -/
def labelTruthy : Option String → Bool
  | none => false
  | some l => !l.isEmpty

/-- The self-loop branch of layout.ts `inferEdgeSideHints`
(lines 1142-1146): a self-loop on an existing node gets default sides
`R`/`T` unless explicit hints are present.  The remaining branches of
`inferEdgeSideHints` assign sides to ordinary edges through
`chooseEdgeSides`, a Euclidean-cost optimisation (float `Math.hypot`) that
never touches self-loop edges; it is not needed by the claims settled here
and is not embedded. -/
def applySelfLoopSideHints (ir : DiagramIr α) : DiagramIr α :=
  { ir with
    edges := ir.edges.map (fun edge =>
      match mapGetNode ir.nodes edge.fromId, mapGetNode ir.nodes edge.toId with
      | some fromNode, some toNode =>
        if fromNode.id = toNode.id then
          { edge with
            style := { edge.style with
              startSide := some (edge.style.startSide.getD .R),
              endSide := some (edge.style.endSide.getD .T) } }
        else edge
      | _, _ => edge) }

/-- layout.ts `rebuildEdgeRoutesFromSideAnchors`.  A missing endpoint clears
the route and the label position; a self-loop bulges out by `loopExtent`
through a bridge corner; an ordinary edge runs anchor → stub → one or two
elbows → stub → anchor, then is simplified.  `labelPosFn` stands for
`fallbackLabelPosition`, the arc-length midpoint computation (float
`Math.hypot` arithmetic); the claims only constrain whether the label
position is set, which is independent of the function. -/
def rebuildEdgeRoutesFromSideAnchors (labelPosFn : List (Pt α) → Option (Pt α))
    (ir : DiagramIr α) : DiagramIr α :=
  { ir with
    edges := ir.edges.map (fun edge =>
      match mapGetNode ir.nodes edge.fromId, mapGetNode ir.nodes edge.toId with
      | some fromNode, some toNode =>
        let startSide := edge.style.startSide.getD .R
        let endSide := edge.style.endSide.getD .L
        if fromNode.id = toNode.id then
          let loopExtent := max 30 (min 160 (max fromNode.width fromNode.height * (95 / 100)))
          let start := sideAnchor fromNode startSide
          let endPt := sideAnchor toNode endSide
          let startOut := sideOutwardAnchor fromNode startSide loopExtent
          let endOut := sideOutwardAnchor toNode endSide loopExtent
          let bridge : Pt α :=
            if startSide = .L ∨ startSide = .R then ⟨startOut.x, endOut.y⟩
            else ⟨endOut.x, startOut.y⟩
          let points := simplifyPolyline [start, startOut, bridge, endOut, endPt]
          { edge with points := points,
                      labelPosition := if labelTruthy edge.label then labelPosFn points else none }
        else
          let start := sideAnchor fromNode startSide
          let endPt := sideAnchor toNode endSide
          let startOut := sideOutwardAnchor fromNode startSide
            (max 12 (min 56 (min fromNode.width fromNode.height * (32 / 100))))
          let endOut := sideOutwardAnchor toNode endSide
            (max 12 (min 56 (min toNode.width toNode.height * (32 / 100))))
          let startIsHorizontal := startSide = .L ∨ startSide = .R
          let endIsHorizontal := endSide = .L ∨ endSide = .R
          let middlePoints : List (Pt α) :=
            if (startIsHorizontal ↔ endIsHorizontal) then
              if startIsHorizontal then
                [⟨(startOut.x + endOut.x) / 2, startOut.y⟩,
                 ⟨(startOut.x + endOut.x) / 2, endOut.y⟩]
              else
                [⟨startOut.x, (startOut.y + endOut.y) / 2⟩,
                 ⟨endOut.x, (startOut.y + endOut.y) / 2⟩]
            else if startIsHorizontal then [⟨endOut.x, startOut.y⟩]
            else [⟨startOut.x, endOut.y⟩]
          let points := simplifyPolyline ([start, startOut] ++ middlePoints ++ [endOut, endPt])
          { edge with points := points,
                      labelPosition := if labelTruthy edge.label then labelPosFn points else none }
      | _, _ => { edge with points := [], labelPosition := none }) }

/-- A point on the boundary of a rectangle (exact membership; the spec's
floating tolerance only widens this). -/
def onRectBoundary (p : Pt α) (r : Rect4 α) : Prop :=
  (r.minX ≤ p.x ∧ p.x ≤ r.maxX ∧ (p.y = r.minY ∨ p.y = r.maxY)) ∨
  (r.minY ≤ p.y ∧ p.y ≤ r.maxY ∧ (p.x = r.minX ∨ p.x = r.maxX))

instance (p : Pt α) (r : Rect4 α) : Decidable (onRectBoundary p r) := by
  unfold onRectBoundary; infer_instance

/-! Lemmas about the polyline simplification. -/

theorem foldl_append_only_spec {β γ : Type} (f : List β → γ → List β)
    (hf : ∀ acc x, f acc x = acc ∨ ∃ y, f acc x = acc ++ [y]) :
    ∀ (l : List γ) (acc : List β), acc ≠ [] →
      (l.foldl f acc).head? = acc.head? ∧ l.foldl f acc ≠ [] := by
  intro l
  induction l with
  | nil => intro acc h; exact ⟨rfl, h⟩
  | cons x xs ih =>
    intro acc h
    simp only [List.foldl_cons]
    rcases hf acc x with h1 | ⟨y, h1⟩
    · rw [h1]; exact ih acc h
    · rw [h1]
      obtain ⟨hh, hn⟩ := ih (acc ++ [y]) (by simp)
      refine ⟨?_, hn⟩
      rw [hh]
      cases acc with
      | nil => cases h rfl
      | cons b t => simp

theorem dedupStep_append_only (acc : List (Pt α)) (p : Pt α) :
    dedupStep acc p = acc ∨ ∃ y, dedupStep acc p = acc ++ [y] := by
  unfold dedupStep
  cases h : acc.getLast? with
  | none => exact Or.inr ⟨p, rfl⟩
  | some prev =>
    by_cases h2 : 1 / 1000000 < distSq prev p
    · exact Or.inr ⟨p, by simp only []; rw [if_pos h2]⟩
    · exact Or.inl (by simp only []; rw [if_neg h2])

theorem collinearStep_append_only (acc : List (Pt α)) (bc : Pt α × Pt α) :
    collinearStep acc bc = acc ∨ ∃ y, collinearStep acc bc = acc ++ [y] := by
  unfold collinearStep
  cases h : acc.getLast? with
  | none => exact Or.inl rfl
  | some a =>
    by_cases h2 : 1 / 1000 <
        |(bc.1.x - a.x) * (bc.2.y - a.y) - (bc.1.y - a.y) * (bc.2.x - a.x)|
    · exact Or.inr ⟨bc.1, by simp only []; rw [if_pos h2]⟩
    · exact Or.inl (by simp only []; rw [if_neg h2])

theorem dedupStep_last (acc : List (Pt α)) (p : Pt α) :
    (dedupStep acc p).getLast? = some p ∨
    (dedupStep acc p = acc ∧
      ∃ prev, acc.getLast? = some prev ∧ distSq prev p ≤ 1 / 1000000) := by
  unfold dedupStep
  cases h : acc.getLast? with
  | none => left; simp
  | some prev =>
    by_cases h2 : 1 / 1000000 < distSq prev p
    · left
      simp only []
      rw [if_pos h2]
      simp
    · right
      exact ⟨by simp only []; rw [if_neg h2], prev, rfl, not_lt.mp h2⟩

/-- Scalar core of the separation argument. -/
theorem sep_scalar (A B T : α) (hA : A ≤ 1 / 1000000) (hA0 : 0 ≤ A)
    (hB : 144 ≤ B) (hC : T ^ 2 ≤ A * B) : 1 / 1000000 < A + B + 2 * T := by
  by_cases hT : 0 ≤ T
  · linarith
  · by_contra hcon
    push_neg at hcon
    have hB0 : (0 : α) ≤ B := by linarith
    have h1 : B - 1 / 1000000 ≤ -(2 * T) := by linarith
    have h2 : (0 : α) ≤ B - 1 / 1000000 := by linarith
    have h3 : (B - 1 / 1000000) * (B - 1 / 1000000) ≤ (-(2 * T)) * (-(2 * T)) :=
      mul_self_le_mul_self h2 h1
    have h4 : (-(2 * T)) * (-(2 * T)) = 4 * T ^ 2 := by ring
    have h5 : A * B ≤ 1 / 1000000 * B := mul_le_mul_of_nonneg_right hA hB0
    have hBB : 144 * B ≤ B * B := mul_le_mul_of_nonneg_right hB hB0
    have hBc : (144 : α) * 144 ≤ 144 * B := by
      have := mul_le_mul_of_nonneg_left hB (by norm_num : (0 : α) ≤ 144)
      linarith
    nlinarith [h3, h4, h5, hBB, hBc, hC]

/-- Vector form of the separation core. -/
theorem sep_core (pp qq rr ss : α) (hA : pp ^ 2 + qq ^ 2 ≤ 1 / 1000000)
    (hB : 144 ≤ rr ^ 2 + ss ^ 2) :
    1 / 1000000 < (pp + rr) ^ 2 + (qq + ss) ^ 2 := by
  have hA0 : (0 : α) ≤ pp ^ 2 + qq ^ 2 := by positivity
  have hC : (pp * rr + qq * ss) ^ 2 ≤ (pp ^ 2 + qq ^ 2) * (rr ^ 2 + ss ^ 2) := by
    nlinarith [sq_nonneg (pp * ss - qq * rr)]
  have h := sep_scalar (pp ^ 2 + qq ^ 2) (rr ^ 2 + ss ^ 2) (pp * rr + qq * ss)
    hA hA0 hB hC
  calc (1 : α) / 1000000
      < (pp ^ 2 + qq ^ 2) + (rr ^ 2 + ss ^ 2) + 2 * (pp * rr + qq * ss) := h
    _ = (pp + rr) ^ 2 + (qq + ss) ^ 2 := by ring

/-- Triangle-style separation: a point within the dedup tolerance of `a`
stays farther than the tolerance from any `z` at stub distance from `a`. -/
theorem distSq_far_of_near {u a z : Pt α} (hnear : distSq u a ≤ 1 / 1000000)
    (hfar : 144 ≤ distSq a z) : 1 / 1000000 < distSq u z := by
  obtain ⟨ux, uy⟩ := u
  obtain ⟨ax, ay⟩ := a
  obtain ⟨zx, zy⟩ := z
  simp only [distSq] at hnear hfar ⊢
  have hA : (ax - ux) ^ 2 + (ay - uy) ^ 2 ≤ 1 / 1000000 := by
    calc (ax - ux) ^ 2 + (ay - uy) ^ 2
        = (ux - ax) ^ 2 + (uy - ay) ^ 2 := by ring
      _ ≤ 1 / 1000000 := hnear
  have hB : 144 ≤ (zx - ax) ^ 2 + (zy - ay) ^ 2 := by
    calc (144 : α) ≤ (ax - zx) ^ 2 + (ay - zy) ^ 2 := hfar
      _ = (zx - ax) ^ 2 + (zy - ay) ^ 2 := by ring
  have h := sep_core (ax - ux) (ay - uy) (zx - ax) (zy - ay) hA hB
  calc (1 : α) / 1000000
      < (ax - ux + (zx - ax)) ^ 2 + (ay - uy + (zy - ay)) ^ 2 := h
    _ = (ux - zx) ^ 2 + (uy - zy) ^ 2 := by ring

theorem dedupPoints_cons (p : Pt α) (l : List (Pt α)) :
    dedupPoints (p :: l) = l.foldl dedupStep [p] := rfl

theorem dedupStep_of_far {acc : List (Pt α)} {w p : Pt α}
    (hw : acc.getLast? = some w) (hfar : 1 / 1000000 < distSq w p) :
    dedupStep acc p = acc ++ [p] := by
  unfold dedupStep
  rw [hw]
  simp only []
  rw [if_pos hfar]

/-- Head, last and length of `simplifyPolyline` on any route of the shape
`anchor :: (stub-and-elbows ++ [outward-stub, anchor])` with the final stub
at distance at least 12: the first and last points always survive. -/
theorem simplifyPolyline_spec (p0 : Pt α) (l0 : List (Pt α)) (a z : Pt α)
    (hfar : 144 ≤ distSq a z) :
    (simplifyPolyline (p0 :: (l0 ++ [a, z]))).head? = some p0 ∧
    (simplifyPolyline (p0 :: (l0 ++ [a, z]))).getLast? = some z ∧
    2 ≤ (simplifyPolyline (p0 :: (l0 ++ [a, z]))).length := by
  have hD1spec := foldl_append_only_spec dedupStep dedupStep_append_only l0 [p0] (by simp)
  set D1 := l0.foldl dedupStep [p0] with hD1
  have hD1head : D1.head? = some p0 := by rw [hD1spec.1]; rfl
  have hD1ne : D1 ≠ [] := hD1spec.2
  obtain ⟨w, hw, hwz⟩ : ∃ w, (dedupStep D1 a).getLast? = some w ∧
      1 / 1000000 < distSq w z := by
    rcases dedupStep_last D1 a with h | ⟨heq, prev, hprev, hnear⟩
    · exact ⟨a, h, lt_of_lt_of_le (by norm_num) hfar⟩
    · exact ⟨prev, by rw [heq]; exact hprev, distSq_far_of_near hnear hfar⟩
  have hD2ne : dedupStep D1 a ≠ [] := by
    intro h
    rw [h] at hw
    cases hw
  have hD2head : (dedupStep D1 a).head? = some p0 := by
    rcases dedupStep_append_only D1 a with h | ⟨y, h⟩ <;> rw [h]
    · exact hD1head
    · rw [← hD1head]
      cases hD : D1 with
      | nil => exact absurd hD hD1ne
      | cons b t => simp
  have hstep3 : dedupStep (dedupStep D1 a) z = dedupStep D1 a ++ [z] :=
    dedupStep_of_far hw hwz
  have hded : dedupPoints (p0 :: (l0 ++ [a, z])) = dedupStep D1 a ++ [z] := by
    have hsplit : p0 :: (l0 ++ [a, z]) = (((p0 :: l0) ++ [a]) ++ [z]) := by simp
    rw [hsplit]
    unfold dedupPoints
    rw [List.foldl_append, List.foldl_append]
    simp only [List.foldl_cons, List.foldl_nil]
    rw [show dedupStep [] p0 = [p0] from rfl, ← hD1, hstep3]
  have hdedhead : (dedupStep D1 a ++ [z]).head? = some p0 := by
    rw [← hD2head]
    cases hD : dedupStep D1 a with
    | nil => exact absurd hD hD2ne
    | cons b t => simp [hD]
  have hdedlast : (dedupStep D1 a ++ [z]).getLast? = some z := by simp
  have hdedlen : 2 ≤ (dedupStep D1 a ++ [z]).length := by
    have : 1 ≤ (dedupStep D1 a).length := List.length_pos.mpr hD2ne
    simp only [List.length_append, List.length_cons, List.length_nil]
    omega
  have hlen : ¬(p0 :: (l0 ++ [a, z])).length ≤ 2 := by
    simp only [List.length_cons, List.length_append]
    omega
  unfold simplifyPolyline
  rw [if_neg hlen]
  dsimp only
  rw [hded]
  by_cases hlen2 : (dedupStep D1 a ++ [z]).length ≤ 2
  · rw [if_pos hlen2]
    exact ⟨hdedhead, hdedlast, hdedlen⟩
  · rw [if_neg hlen2]
    obtain ⟨t, hT⟩ : ∃ t, dedupStep D1 a = p0 :: t := by
      cases hD : dedupStep D1 a with
      | nil => exact absurd hD hD2ne
      | cons b t =>
        rw [hD] at hD2head
        simp only [List.head?_cons, Option.some_inj] at hD2head
        exact ⟨t, by rw [hD2head]⟩
    rw [hT]
    simp only [List.cons_append, List.tail_cons, List.headI_cons]
    have hgl : (p0 :: (t ++ [z])).getLast? = some z := by
      rw [← List.cons_append]
      exact List.getLast?_concat _
    rw [hgl]
    have hbody := foldl_append_only_spec collinearStep collinearStep_append_only
      ((t ++ [z]).zip (t ++ [z]).tail) [p0] (by simp)
    refine ⟨?_, ?_, ?_⟩
    · cases hB : ((t ++ [z]).zip (t ++ [z]).tail).foldl collinearStep [p0] with
      | nil => exact absurd hB hbody.2
      | cons b bs =>
        rw [hB] at hbody
        simp only [List.head?_cons, Option.some_inj] at hbody
        rw [List.cons_append, List.head?_cons, hbody.1]
    · exact List.getLast?_concat _
    · have h1 : 1 ≤ (((t ++ [z]).zip (t ++ [z]).tail).foldl collinearStep [p0]).length :=
        List.length_pos.mpr hbody.2
      simp only [List.length_append]
      simp only [Option.toList, List.length_cons, List.length_nil]
      omega

theorem sq_twelve_le {d : α} (hd : 12 ≤ d) : 144 ≤ d ^ 2 := by nlinarith

theorem distSq_outward (node : IrNode α) (side : EdgeSide) (d : α) :
    distSq (sideOutwardAnchor node side d) (sideAnchor node side) = d ^ 2 := by
  cases side <;> simp [sideOutwardAnchor, sideNormal, sideAnchor, distSq]

theorem sideAnchor_onBoundary (node : IrNode α) (side : EdgeSide)
    (hw : 0 ≤ node.width) (hh : 0 ≤ node.height) :
    onRectBoundary (sideAnchor node side) (nodeRect node) := by
  cases side with
  | T =>
    left
    exact ⟨by dsimp [sideAnchor, nodeRect]; linarith,
           by dsimp [sideAnchor, nodeRect]; linarith, Or.inl rfl⟩
  | B =>
    left
    exact ⟨by dsimp [sideAnchor, nodeRect]; linarith,
           by dsimp [sideAnchor, nodeRect]; linarith, Or.inr rfl⟩
  | L =>
    right
    exact ⟨by dsimp [sideAnchor, nodeRect]; linarith,
           by dsimp [sideAnchor, nodeRect]; linarith, Or.inl rfl⟩
  | R =>
    right
    exact ⟨by dsimp [sideAnchor, nodeRect]; linarith,
           by dsimp [sideAnchor, nodeRect]; linarith, Or.inr rfl⟩

theorem mapGetNode_mem_aux (id : String) :
    ∀ (nodes : List (IrNode α)) (acc : Option (IrNode α)) (n : IrNode α),
      nodes.foldl (fun acc n => if n.id = id then some n else acc) acc = some n →
      n ∈ nodes ∨ acc = some n := by
  intro nodes
  induction nodes with
  | nil => intro acc n h; exact Or.inr h
  | cons m ms ih =>
    intro acc n h
    simp only [List.foldl_cons] at h
    rcases ih _ n h with hmem | hacc
    · exact Or.inl (List.mem_cons_of_mem _ hmem)
    · by_cases hm : m.id = id
      · rw [if_pos hm, Option.some_inj] at hacc
        exact Or.inl (hacc ▸ List.mem_cons_self _ _)
      · rw [if_neg hm] at hacc
        exact Or.inr hacc

theorem mapGetNode_mem {nodes : List (IrNode α)} {id : String} {n : IrNode α}
    (h : mapGetNode nodes id = some n) : n ∈ nodes := by
  rcases mapGetNode_mem_aux id nodes none n h with hm | hn
  · exact hm
  · cases hn

/-- End behaviour of `simplifyPolyline` on a five-point self-loop route whose
last leg is an outward stub of length at least 12. -/
theorem route5_spec (s b c : Pt α) (node : IrNode α) (side : EdgeSide) (d : α)
    (hd : 12 ≤ d) :
    (simplifyPolyline [s, b, c, sideOutwardAnchor node side d, sideAnchor node side]).head?
        = some s ∧
    (simplifyPolyline [s, b, c, sideOutwardAnchor node side d, sideAnchor node side]).getLast?
        = some (sideAnchor node side) ∧
    2 ≤ (simplifyPolyline [s, b, c, sideOutwardAnchor node side d, sideAnchor node side]).length := by
  have h := simplifyPolyline_spec s [b, c] (sideOutwardAnchor node side d) (sideAnchor node side)
    (by rw [distSq_outward]; exact sq_twelve_le hd)
  simpa using h

/-- End behaviour of `simplifyPolyline` on an ordinary route
anchor → stub → elbows → stub → anchor with a final stub of length at
least 12. -/
theorem routeN_spec (s b : Pt α) (mp : List (Pt α)) (node : IrNode α) (side : EdgeSide)
    (d : α) (hd : 12 ≤ d) :
    (simplifyPolyline ([s, b] ++ mp ++ [sideOutwardAnchor node side d, sideAnchor node side])).head?
        = some s ∧
    (simplifyPolyline ([s, b] ++ mp ++ [sideOutwardAnchor node side d, sideAnchor node side])).getLast?
        = some (sideAnchor node side) ∧
    2 ≤ (simplifyPolyline
          ([s, b] ++ mp ++ [sideOutwardAnchor node side d, sideAnchor node side])).length := by
  have h := simplifyPolyline_spec s (b :: mp) (sideOutwardAnchor node side d)
    (sideAnchor node side) (by rw [distSq_outward]; exact sq_twelve_le hd)
  simpa using h

/-- C3: after `rebuildEdgeRoutesFromSideAnchors`, an edge whose endpoint ids
do not both resolve to nodes gets the empty route and no label position
(no error); every edge with a non-empty route has at least two points, and
its first and last points lie on the boundary of the resolved from-node and
to-node rectangles respectively (nodes of non-negative size). -/
theorem c3_route_validity (labelPosFn : List (Pt α) → Option (Pt α)) (ir : DiagramIr α)
    (hdim : ∀ n ∈ ir.nodes, 0 ≤ n.width ∧ 0 ≤ n.height) :
    ∀ e' ∈ (rebuildEdgeRoutesFromSideAnchors labelPosFn ir).edges,
      ((mapGetNode ir.nodes e'.fromId = none ∨ mapGetNode ir.nodes e'.toId = none) →
        e'.points = [] ∧ e'.labelPosition = none) ∧
      (e'.points ≠ [] →
        2 ≤ e'.points.length ∧
        ∃ fromNode toNode,
          mapGetNode ir.nodes e'.fromId = some fromNode ∧
          mapGetNode ir.nodes e'.toId = some toNode ∧
          ∃ p q, e'.points.head? = some p ∧ e'.points.getLast? = some q ∧
            onRectBoundary p (nodeRect fromNode) ∧ onRectBoundary q (nodeRect toNode)) := by
  intro e' he'
  simp only [rebuildEdgeRoutesFromSideAnchors, List.mem_map] at he'
  obtain ⟨e, he, rfl⟩ := he'
  cases hF : mapGetNode ir.nodes e.fromId with
  | none =>
    cases hT : mapGetNode ir.nodes e.toId with
    | none => exact ⟨fun _ => ⟨rfl, rfl⟩, fun hne => absurd rfl hne⟩
    | some toNode => exact ⟨fun _ => ⟨rfl, rfl⟩, fun hne => absurd rfl hne⟩
  | some fromNode =>
    cases hT : mapGetNode ir.nodes e.toId with
    | none => exact ⟨fun _ => ⟨rfl, rfl⟩, fun hne => absurd rfl hne⟩
    | some toNode =>
      obtain ⟨hFw, hFh⟩ := hdim _ (mapGetNode_mem hF)
      obtain ⟨hTw, hTh⟩ := hdim _ (mapGetNode_mem hT)
      simp only []
      by_cases hself : fromNode.id = toNode.id
      · rw [if_pos hself]
        refine ⟨fun h => ?_, fun hne => ?_⟩
        · rcases h with h | h
          · rw [show ({ e with points := _, labelPosition := _ } : IrEdge α).fromId = e.fromId
              from rfl, hF] at h
            cases h
          · rw [show ({ e with points := _, labelPosition := _ } : IrEdge α).toId = e.toId
              from rfl, hT] at h
            cases h
        · have hd : (12 : α) ≤ max 30 (min 160 (max fromNode.width fromNode.height * (95 / 100))) :=
            le_trans (by norm_num) (le_max_left _ _)
          exact ⟨(route5_spec _ _ _ _ _ _ hd).2.2, fromNode, toNode, hF, hT,
            sideAnchor fromNode (e.style.startSide.getD EdgeSide.R),
            sideAnchor toNode (e.style.endSide.getD EdgeSide.L),
            (route5_spec _ _ _ _ _ _ hd).1, (route5_spec _ _ _ _ _ _ hd).2.1,
            sideAnchor_onBoundary fromNode _ hFw hFh,
            sideAnchor_onBoundary toNode _ hTw hTh⟩
      · rw [if_neg hself]
        refine ⟨fun h => ?_, fun hne => ?_⟩
        · rcases h with h | h
          · rw [show ({ e with points := _, labelPosition := _ } : IrEdge α).fromId = e.fromId
              from rfl, hF] at h
            cases h
          · rw [show ({ e with points := _, labelPosition := _ } : IrEdge α).toId = e.toId
              from rfl, hT] at h
            cases h
        · have hd : (12 : α) ≤ max 12 (min 56 (min toNode.width toNode.height * (32 / 100))) :=
            le_max_left _ _
          exact ⟨(routeN_spec _ _ _ _ _ _ hd).2.2, fromNode, toNode, hF, hT,
            sideAnchor fromNode (e.style.startSide.getD EdgeSide.R),
            sideAnchor toNode (e.style.endSide.getD EdgeSide.L),
            (routeN_spec _ _ _ _ _ _ hd).1, (routeN_spec _ _ _ _ _ _ hd).2.1,
            sideAnchor_onBoundary fromNode _ hFw hFh,
            sideAnchor_onBoundary toNode _ hTw hTh⟩

def c3wEdgeStyle : EdgeStyle ℚ := ⟨none, none, 12⟩

def c3wNodeA : IrNode ℚ := ⟨"a", "A", false, none, 120, 60, 0, 0, wNodeStyle⟩

def c3wNodeB : IrNode ℚ := ⟨"b", "B", false, none, 100, 50, 300, 200, wNodeStyle⟩

def c3wEdgeGood : IrEdge ℚ := ⟨"e1", "a", "b", none, [], none, c3wEdgeStyle⟩

def c3wEdgeBad : IrEdge ℚ := ⟨"e2", "a", "zz", none, [], none, c3wEdgeStyle⟩

def c3wIr : DiagramIr ℚ :=
  ⟨.TB, wLayout, [c3wNodeA, c3wNodeB], [c3wEdgeGood, c3wEdgeBad], [], ⟨0, 0, 0, 0, 0, 0⟩⟩

theorem c3_witness :
    (∀ n ∈ c3wIr.nodes, 0 ≤ n.width ∧ 0 ≤ n.height) ∧
    ∀ e' ∈ (rebuildEdgeRoutesFromSideAnchors (fun _ => none) c3wIr).edges,
      ((mapGetNode c3wIr.nodes e'.fromId = none ∨ mapGetNode c3wIr.nodes e'.toId = none) →
        e'.points = [] ∧ e'.labelPosition = none) ∧
      (e'.points ≠ [] →
        2 ≤ e'.points.length ∧
        ∃ fromNode toNode,
          mapGetNode c3wIr.nodes e'.fromId = some fromNode ∧
          mapGetNode c3wIr.nodes e'.toId = some toNode ∧
          ∃ p q, e'.points.head? = some p ∧ e'.points.getLast? = some q ∧
            onRectBoundary p (nodeRect fromNode) ∧ onRectBoundary q (nodeRect toNode)) := by
  have hdim : ∀ n ∈ c3wIr.nodes, 0 ≤ n.width ∧ 0 ≤ n.height := by
    intro n hn
    simp only [c3wIr, c3wNodeA, c3wNodeB, List.mem_cons, List.not_mem_nil, or_false] at hn
    rcases hn with rfl | rfl <;> norm_num
  exact ⟨hdim, c3_route_validity (fun _ => none) c3wIr hdim⟩

theorem dedupStep_nil (p : Pt α) : dedupStep ([] : List (Pt α)) p = [p] := rfl

theorem collinearStep_keep {acc : List (Pt α)} {a : Pt α} {bc : Pt α × Pt α}
    (ha : acc.getLast? = some a)
    (harea : 1 / 1000 < |(bc.1.x - a.x) * (bc.2.y - a.y) - (bc.1.y - a.y) * (bc.2.x - a.x)|) :
    collinearStep acc bc = acc ++ [bc.1] := by
  unfold collinearStep
  rw [ha]
  simp only []
  rw [if_pos harea]

set_option maxHeartbeats 1000000 in
/-- On the default R/T self-loop route, `simplifyPolyline` keeps all five
points: every leg is longer than the duplicate tolerance and every corner
turns, so nothing is dropped. -/
theorem loop_route_exact (x y w h d : α) (hw : 0 ≤ w) (hh : 0 ≤ h) (hd : 30 ≤ d) :
    simplifyPolyline [(⟨x + w, y + h / 2⟩ : Pt α), ⟨x + w + d, y + h / 2⟩,
        ⟨x + w + d, y - d⟩, ⟨x + w / 2, y - d⟩, ⟨x + w / 2, y⟩] =
      [⟨x + w, y + h / 2⟩, ⟨x + w + d, y + h / 2⟩, ⟨x + w + d, y - d⟩,
        ⟨x + w / 2, y - d⟩, ⟨x + w / 2, y⟩] := by
  have hd0 : (0 : α) < d := lt_of_lt_of_le (by norm_num) hd
  have h12 : (1 : α) / 1000000 < distSq ⟨x + w, y + h / 2⟩ ⟨x + w + d, y + h / 2⟩ := by
    simp only [distSq]
    nlinarith
  have h23 : (1 : α) / 1000000 < distSq ⟨x + w + d, y + h / 2⟩ ⟨x + w + d, y - d⟩ := by
    simp only [distSq]
    nlinarith
  have h34 : (1 : α) / 1000000 < distSq ⟨x + w + d, y - d⟩ ⟨x + w / 2, y - d⟩ := by
    simp only [distSq]
    nlinarith
  have h45 : (1 : α) / 1000000 < distSq ⟨x + w / 2, y - d⟩ ⟨x + w / 2, y⟩ := by
    simp only [distSq]
    nlinarith
  have s2 : dedupStep [(⟨x + w, y + h / 2⟩ : Pt α)] ⟨x + w + d, y + h / 2⟩ =
      [⟨x + w, y + h / 2⟩, ⟨x + w + d, y + h / 2⟩] := by
    rw [dedupStep_of_far (by simp) h12]
    simp
  have s3 : dedupStep [(⟨x + w, y + h / 2⟩ : Pt α), ⟨x + w + d, y + h / 2⟩] ⟨x + w + d, y - d⟩ =
      [⟨x + w, y + h / 2⟩, ⟨x + w + d, y + h / 2⟩, ⟨x + w + d, y - d⟩] := by
    rw [dedupStep_of_far (by simp) h23]
    simp
  have s4 : dedupStep [(⟨x + w, y + h / 2⟩ : Pt α), ⟨x + w + d, y + h / 2⟩, ⟨x + w + d, y - d⟩]
      ⟨x + w / 2, y - d⟩ =
      [⟨x + w, y + h / 2⟩, ⟨x + w + d, y + h / 2⟩, ⟨x + w + d, y - d⟩, ⟨x + w / 2, y - d⟩] := by
    rw [dedupStep_of_far (by simp) h34]
    simp
  have s5 : dedupStep [(⟨x + w, y + h / 2⟩ : Pt α), ⟨x + w + d, y + h / 2⟩, ⟨x + w + d, y - d⟩,
      ⟨x + w / 2, y - d⟩] ⟨x + w / 2, y⟩ =
      [⟨x + w, y + h / 2⟩, ⟨x + w + d, y + h / 2⟩, ⟨x + w + d, y - d⟩, ⟨x + w / 2, y - d⟩,
        ⟨x + w / 2, y⟩] := by
    rw [dedupStep_of_far (by simp) h45]
    simp
  have hded : dedupPoints [(⟨x + w, y + h / 2⟩ : Pt α), ⟨x + w + d, y + h / 2⟩,
      ⟨x + w + d, y - d⟩, ⟨x + w / 2, y - d⟩, ⟨x + w / 2, y⟩] =
      [⟨x + w, y + h / 2⟩, ⟨x + w + d, y + h / 2⟩, ⟨x + w + d, y - d⟩, ⟨x + w / 2, y - d⟩,
        ⟨x + w / 2, y⟩] := by
    simp only [dedupPoints, List.foldl_cons, List.foldl_nil]
    rw [dedupStep_nil, s2, s3, s4, s5]
  have c1 : collinearStep [(⟨x + w, y + h / 2⟩ : Pt α)]
      (⟨x + w + d, y + h / 2⟩, ⟨x + w + d, y - d⟩) =
      [⟨x + w, y + h / 2⟩, ⟨x + w + d, y + h / 2⟩] := by
    have harea : (1 : α) / 1000 < |(x + w + d - (x + w)) * (y - d - (y + h / 2)) -
        (y + h / 2 - (y + h / 2)) * (x + w + d - (x + w))| := by
      have hE : (x + w + d - (x + w)) * (y - d - (y + h / 2)) -
          (y + h / 2 - (y + h / 2)) * (x + w + d - (x + w)) = -(d * (d + h / 2)) := by ring
      rw [hE, abs_neg, abs_of_nonneg (by nlinarith)]
      nlinarith
    rw [@collinearStep_keep α _ [⟨x + w, y + h / 2⟩] ⟨x + w, y + h / 2⟩
      (⟨x + w + d, y + h / 2⟩, ⟨x + w + d, y - d⟩) (by simp) harea]
    simp
  have c2 : collinearStep [(⟨x + w, y + h / 2⟩ : Pt α), ⟨x + w + d, y + h / 2⟩]
      (⟨x + w + d, y - d⟩, ⟨x + w / 2, y - d⟩) =
      [⟨x + w, y + h / 2⟩, ⟨x + w + d, y + h / 2⟩, ⟨x + w + d, y - d⟩] := by
    have harea : (1 : α) / 1000 < |(x + w + d - (x + w + d)) * (y - d - (y + h / 2)) -
        (y - d - (y + h / 2)) * (x + w / 2 - (x + w + d))| := by
      have hE : (x + w + d - (x + w + d)) * (y - d - (y + h / 2)) -
          (y - d - (y + h / 2)) * (x + w / 2 - (x + w + d)) =
          -((d + h / 2) * (w / 2 + d)) := by ring
      rw [hE, abs_neg, abs_of_nonneg (by nlinarith)]
      nlinarith
    rw [@collinearStep_keep α _ [⟨x + w, y + h / 2⟩, ⟨x + w + d, y + h / 2⟩]
      ⟨x + w + d, y + h / 2⟩
      (⟨x + w + d, y - d⟩, ⟨x + w / 2, y - d⟩) (by simp) harea]
    simp
  have c3 : collinearStep [(⟨x + w, y + h / 2⟩ : Pt α), ⟨x + w + d, y + h / 2⟩,
        ⟨x + w + d, y - d⟩] (⟨x + w / 2, y - d⟩, ⟨x + w / 2, y⟩) =
      [⟨x + w, y + h / 2⟩, ⟨x + w + d, y + h / 2⟩, ⟨x + w + d, y - d⟩, ⟨x + w / 2, y - d⟩] := by
    have harea : (1 : α) / 1000 < |(x + w / 2 - (x + w + d)) * (y - (y - d)) -
        (y - d - (y - d)) * (x + w / 2 - (x + w + d))| := by
      have hE : (x + w / 2 - (x + w + d)) * (y - (y - d)) -
          (y - d - (y - d)) * (x + w / 2 - (x + w + d)) = -((w / 2 + d) * d) := by ring
      rw [hE, abs_neg, abs_of_nonneg (by nlinarith)]
      nlinarith
    rw [@collinearStep_keep α _ [⟨x + w, y + h / 2⟩, ⟨x + w + d, y + h / 2⟩,
        ⟨x + w + d, y - d⟩] ⟨x + w + d, y - d⟩
      (⟨x + w / 2, y - d⟩, ⟨x + w / 2, y⟩) (by simp) harea]
    simp
  unfold simplifyPolyline
  rw [if_neg (by simp)]
  simp only []
  rw [hded]
  rw [if_neg (by simp)]
  simp only [List.headI_cons, List.tail_cons, List.zip_cons_cons, List.zip_nil_right,
    List.foldl_cons, List.foldl_nil]
  rw [c1, c2, c3]
  simp

/-- The legs of the default R/T self-loop route are all longer than the
duplicate tolerance. -/
theorem loop_route_chain (x y w h d : α) (hw : 0 ≤ w) (hh : 0 ≤ h) (hd : 30 ≤ d) :
    List.Chain' (fun p q => 1 / 1000000 < distSq p q)
      [(⟨x + w, y + h / 2⟩ : Pt α), ⟨x + w + d, y + h / 2⟩, ⟨x + w + d, y - d⟩,
        ⟨x + w / 2, y - d⟩, ⟨x + w / 2, y⟩] := by
  have hd0 : (0 : α) < d := lt_of_lt_of_le (by norm_num) hd
  refine List.chain'_cons.mpr ⟨?_, List.chain'_cons.mpr ⟨?_, List.chain'_cons.mpr ⟨?_,
    List.chain'_cons.mpr ⟨?_, List.chain'_singleton _⟩⟩⟩⟩ <;>
    simp only [distSq] <;> nlinarith

/-- C6: a self-loop edge on an existing node of positive size, with no
explicit side hints, is routed (default hints, then rebuild) into exactly
five points; the first and last points lie strictly inside two different
sides of the node's rectangle (right and top), and no segment of the route
is shorter than the duplicate tolerance. -/
theorem c6_self_loop_route (labelPosFn : List (Pt α) → Option (Pt α)) (ir : DiagramIr α)
    (n : IrNode α) (i : Nat) (hi : i < ir.edges.length)
    (hself : ir.edges[i].fromId = ir.edges[i].toId)
    (hss : ir.edges[i].style.startSide = none)
    (hes : ir.edges[i].style.endSide = none)
    (hnode : mapGetNode ir.nodes ir.edges[i].fromId = some n)
    (hw : 0 < n.width) (hh : 0 < n.height) :
    ∃ hi' : i <
        (rebuildEdgeRoutesFromSideAnchors labelPosFn (applySelfLoopSideHints ir)).edges.length,
      ((rebuildEdgeRoutesFromSideAnchors labelPosFn
          (applySelfLoopSideHints ir)).edges[i].points.length = 5 ∧
       (rebuildEdgeRoutesFromSideAnchors labelPosFn
          (applySelfLoopSideHints ir)).edges[i].points.head?
            = some (sideAnchor n EdgeSide.R) ∧
       (rebuildEdgeRoutesFromSideAnchors labelPosFn
          (applySelfLoopSideHints ir)).edges[i].points.getLast?
            = some (sideAnchor n EdgeSide.T) ∧
       List.Chain' (fun p q => 1 / 1000000 < distSq p q)
         (rebuildEdgeRoutesFromSideAnchors labelPosFn
            (applySelfLoopSideHints ir)).edges[i].points) ∧
      (sideAnchor n EdgeSide.R).x = (nodeRect n).maxX ∧
      (nodeRect n).minY < (sideAnchor n EdgeSide.R).y ∧
      (sideAnchor n EdgeSide.R).y < (nodeRect n).maxY ∧
      (sideAnchor n EdgeSide.T).y = (nodeRect n).minY ∧
      (nodeRect n).minX < (sideAnchor n EdgeSide.T).x ∧
      (sideAnchor n EdgeSide.T).x < (nodeRect n).maxX := by
  have hi2 : i < (applySelfLoopSideHints ir).edges.length := by
    simpa [applySelfLoopSideHints] using hi
  have hi' : i <
      (rebuildEdgeRoutesFromSideAnchors labelPosFn (applySelfLoopSideHints ir)).edges.length := by
    simpa [rebuildEdgeRoutesFromSideAnchors, applySelfLoopSideHints] using hi
  have hT : mapGetNode ir.nodes ir.edges[i].toId = some n := hself ▸ hnode
  have hg : (applySelfLoopSideHints ir).edges[i] =
      { ir.edges[i] with style := { ir.edges[i].style with
          startSide := some EdgeSide.R, endSide := some EdgeSide.T } } := by
    simp only [applySelfLoopSideHints, List.getElem_map]
    rw [hnode, hT]
    simp only []
    simp only [if_true]
    rw [hss, hes]
    simp only [Option.getD_none]
  set dd := max 30 (min 160 (max n.width n.height * (95 / 100))) with hdd
  have hd30 : (30 : α) ≤ dd := le_max_left _ _
  have hA_R : sideAnchor n EdgeSide.R = (⟨n.x + n.width, n.y + n.height / 2⟩ : Pt α) := rfl
  have hA_T : sideAnchor n EdgeSide.T = (⟨n.x + n.width / 2, n.y⟩ : Pt α) := rfl
  have hO_R : sideOutwardAnchor n EdgeSide.R dd = ⟨n.x + n.width + dd, n.y + n.height / 2⟩ := by
    simp only [sideOutwardAnchor, sideAnchor, sideNormal, Pt.mk.injEq]
    constructor <;> ring
  have hO_T : sideOutwardAnchor n EdgeSide.T dd = ⟨n.x + n.width / 2, n.y - dd⟩ := by
    simp only [sideOutwardAnchor, sideAnchor, sideNormal, Pt.mk.injEq]
    constructor <;> ring
  have hroute : (rebuildEdgeRoutesFromSideAnchors labelPosFn
      (applySelfLoopSideHints ir)).edges[i].points =
      [(⟨n.x + n.width, n.y + n.height / 2⟩ : Pt α),
        ⟨n.x + n.width + dd, n.y + n.height / 2⟩,
        ⟨n.x + n.width + dd, n.y - dd⟩,
        ⟨n.x + n.width / 2, n.y - dd⟩,
        ⟨n.x + n.width / 2, n.y⟩] := by
    simp only [rebuildEdgeRoutesFromSideAnchors, List.getElem_map]
    rw [hg]
    simp only [applySelfLoopSideHints]
    rw [hnode, hT]
    simp only [Option.getD_some, if_true]
    simp only [or_true, if_true]
    rw [← hdd, hO_R, hO_T]
    simp only []
    rw [hA_R, hA_T]
    exact loop_route_exact n.x n.y n.width n.height dd (le_of_lt hw) (le_of_lt hh) hd30
  refine ⟨hi', ⟨?_, ?_, ?_, ?_⟩, rfl, ?_, ?_, rfl, ?_, ?_⟩
  · rw [hroute]
    rfl
  · rw [hroute, hA_R]
    rfl
  · rw [hroute, hA_T]
    rfl
  · rw [hroute]
    exact loop_route_chain n.x n.y n.width n.height dd (le_of_lt hw) (le_of_lt hh) hd30
  · dsimp [sideAnchor, nodeRect]
    linarith
  · dsimp [sideAnchor, nodeRect]
    linarith
  · dsimp [sideAnchor, nodeRect]
    linarith
  · dsimp [sideAnchor, nodeRect]
    linarith

def c6wNode : IrNode ℚ := ⟨"a", "A", false, none, 120, 60, 0, 0, wNodeStyle⟩

def c6wEdge : IrEdge ℚ := ⟨"e", "a", "a", none, [], none, ⟨none, none, 12⟩⟩

def c6wIr : DiagramIr ℚ :=
  ⟨.TB, wLayout, [c6wNode], [c6wEdge], [], ⟨0, 0, 0, 0, 0, 0⟩⟩

theorem c6_witness :
    (0 : ℚ) < c6wNode.width ∧
    ∃ hi' : 0 <
        (rebuildEdgeRoutesFromSideAnchors (fun _ => none)
          (applySelfLoopSideHints c6wIr)).edges.length,
      ((rebuildEdgeRoutesFromSideAnchors (fun _ => none)
          (applySelfLoopSideHints c6wIr)).edges[0].points.length = 5 ∧
       (rebuildEdgeRoutesFromSideAnchors (fun _ => none)
          (applySelfLoopSideHints c6wIr)).edges[0].points.head?
            = some (sideAnchor c6wNode EdgeSide.R) ∧
       (rebuildEdgeRoutesFromSideAnchors (fun _ => none)
          (applySelfLoopSideHints c6wIr)).edges[0].points.getLast?
            = some (sideAnchor c6wNode EdgeSide.T) ∧
       List.Chain' (fun p q : Pt ℚ => 1 / 1000000 < distSq p q)
         (rebuildEdgeRoutesFromSideAnchors (fun _ => none)
            (applySelfLoopSideHints c6wIr)).edges[0].points) ∧
      (sideAnchor c6wNode EdgeSide.R).x = (nodeRect c6wNode).maxX ∧
      (nodeRect c6wNode).minY < (sideAnchor c6wNode EdgeSide.R).y ∧
      (sideAnchor c6wNode EdgeSide.R).y < (nodeRect c6wNode).maxY ∧
      (sideAnchor c6wNode EdgeSide.T).y = (nodeRect c6wNode).minY ∧
      (nodeRect c6wNode).minX < (sideAnchor c6wNode EdgeSide.T).x ∧
      (sideAnchor c6wNode EdgeSide.T).x < (nodeRect c6wNode).maxX :=
  ⟨by norm_num [c6wNode],
   c6_self_loop_route (fun _ => none) c6wIr c6wNode 0 (by simp [c6wIr])
     rfl rfl rfl rfl (by norm_num [c6wNode]) (by norm_num [c6wNode])⟩

/-! ### layout.ts: frame effect of the layout pipeline on node geometry (claim C4) -/

/-- A pass of the layout pipeline, modelled by its mutation vocabulary.
Every assignment to a node anywhere in layout.ts or geometry.ts is
`node.x = …`, `node.y = …`, `node.x += …` or `node.y += …` (dagre
read-back, junction placement, restart optimisation, collision pushes,
compaction, skew and quadrant shifts, jitter, aspect fitting, layout-state
restore); `width`/`height` assignments only ever target subgraphs, and the
node list itself is never grown, shrunk or reordered.  A `LayoutPass`
therefore models an arbitrary pipeline pass: new positions for the nodes
(computed from the whole pre-state) plus arbitrary rewrites of the edges,
subgraphs and bounds. -/
structure LayoutPass (α : Type) where
  posFn : DiagramIr α → IrNode α → Pt α
  edgeFn : DiagramIr α → List (IrEdge α)
  subFn : DiagramIr α → List (IrSubgraph α)
  boundsFn : DiagramIr α → IrBounds α

/-- Run one modelled layout pass. -/
def LayoutPass.run (p : LayoutPass α) (ir : DiagramIr α) : DiagramIr α :=
  { ir with
    nodes := ir.nodes.map (fun n => { n with x := (p.posFn ir n).x, y := (p.posFn ir n).y }),
    edges := p.edgeFn ir,
    subgraphs := p.subFn ir,
    bounds := p.boundsFn ir }

/-- The dagre position read-back of layout.ts `applyLayout`: `pos` stands
for `graph.node(·)` after `dagre.layout`; a node dagre does not know keeps
its position, a known node is recentred from its dagre centre point using
its own (unchanged) width and height. -/
def applyLayoutPositions (pos : String → Option (Pt α)) (ir : DiagramIr α) : DiagramIr α :=
  { ir with
    nodes := ir.nodes.map (fun node =>
      match pos node.id with
      | none => node
      | some p => { node with x := p.x - node.width / 2, y := p.y - node.height / 2 }) }

/-- The per-node data that layout must never touch: everything except the
position. -/
def nodeFrame (ir : DiagramIr α) : List (String × String × Bool × Option String × α × α) :=
  ir.nodes.map (fun n => (n.id, n.label, n.isJunction, n.subgraphId, n.width, n.height))

theorem nodeFrame_run (p : LayoutPass α) (ir : DiagramIr α) :
    nodeFrame (p.run ir) = nodeFrame ir := by
  simp [LayoutPass.run, nodeFrame, List.map_map, Function.comp]

/-- C4: the layout pipeline only repositions nodes, never resizes them.
Any composition of passes from the pipeline's mutation vocabulary
preserves every node's id, label, junction flag, subgraph membership,
width and height; so do, concretely, the dagre read-back and each embedded
pass (side hints, route rebuild, deterministic jitter, subgraph-bounds and
global-bounds recomputation). -/
theorem c4_layout_frame_effect [FloorRing α] :
    (∀ (passes : List (LayoutPass α)) (ir : DiagramIr α),
        nodeFrame (passes.foldl (fun acc p => p.run acc) ir) = nodeFrame ir) ∧
    (∀ (pos : String → Option (Pt α)) (ir : DiagramIr α),
        nodeFrame (applyLayoutPositions pos ir) = nodeFrame ir) ∧
    (∀ ir : DiagramIr α, nodeFrame (applySelfLoopSideHints ir) = nodeFrame ir) ∧
    (∀ (labelPosFn : List (Pt α) → Option (Pt α)) (ir : DiagramIr α),
        nodeFrame (rebuildEdgeRoutesFromSideAnchors labelPosFn ir) = nodeFrame ir) ∧
    (∀ (ir : DiagramIr α) (pinned : List String) (rd : Rankdir) (seed : ℕ)
        (cfg : LayoutConfig α),
        nodeFrame (applyDeterministicJitter ir pinned rd seed cfg) = nodeFrame ir) ∧
    (∀ ir : DiagramIr α, nodeFrame (recomputeSubgraphBounds ir) = nodeFrame ir) ∧
    (∀ ir : DiagramIr α, nodeFrame (recomputeBounds ir) = nodeFrame ir) := by
  refine ⟨?_, ?_, ?_, ?_, ?_, ?_, ?_⟩
  · intro passes
    induction passes with
    | nil => intro ir; rfl
    | cons p ps ih =>
      intro ir
      simp only [List.foldl_cons]
      rw [ih (p.run ir), nodeFrame_run]
  · intro pos ir
    simp only [applyLayoutPositions, nodeFrame, List.map_map]
    apply List.map_congr_left
    intro n _
    simp only [Function.comp]
    cases pos n.id <;> rfl
  · intro ir
    simp only [applySelfLoopSideHints, nodeFrame]
  · intro labelPosFn ir
    simp only [rebuildEdgeRoutesFromSideAnchors, nodeFrame]
  · intro ir pinned rd seed cfg
    simp only [applyDeterministicJitter, nodeFrame, List.map_map]
    apply List.map_congr_left
    intro n _
    simp only [Function.comp]
    by_cases h1 : n.isJunction = false ∧ n.id ∉ pinned
    · rw [if_pos h1]
      by_cases h2 : rd = Rankdir.TB ∨ rd = Rankdir.BT
      · rw [if_pos h2]
      · rw [if_neg h2]
    · rw [if_neg h1]
  · intro ir
    simp only [recomputeSubgraphBounds, nodeFrame]
  · intro ir
    simp only [recomputeBounds, nodeFrame]
    split <;> rfl

/-! ### readability.ts: the standalone readability scorer (claim C5) -/

section Readability

variable [FloorRing α]

/-- readability.ts `SegmentRef`. -/
structure SegmentRef (α : Type) where
  edgeId : String
  fromId : String
  toId : String
  x1 : α
  y1 : α
  x2 : α
  y2 : α
deriving DecidableEq, Repr

/-- readability.ts `Rect` (`x`/`y`/`w`/`h`, unlike the min/max `Rect4` of
the geometry embedding). -/
structure Rect (α : Type) where
  x : α
  y : α
  w : α
  h : α
deriving DecidableEq, Repr

/-- readability.ts `ReadabilityMetrics`.  Count metrics are integer-valued
JS numbers and are carried as `ℕ`. -/
structure ReadabilityMetrics (α : Type) where
  nodeOverlapArea : α
  subgraphOverlapArea : α
  nodeOutOfSubgraphCount : ℕ
  edgeCrossings : ℕ
  edgeThroughNodeCount : ℕ
  edgeLabelNodeOverlapCount : ℕ
  edgeLabelLabelOverlapCount : ℕ
  edgeLabelDistanceMean : α
  lowContrastCount : ℕ
  textOverflowRiskCount : ℕ
  totalEdgeBends : ℕ
  directionalBackflowPenalty : α
  occupancyRatio : α
  occupancyPenalty : α
deriving DecidableEq, Repr

/-- readability.ts `ReadabilityEvaluation`. -/
structure ReadabilityEvaluation (α : Type) where
  penalty : α
  score : α
  metrics : ReadabilityMetrics α
deriving DecidableEq, Repr

/-- readability.ts `orientation` (`by` is a Lean keyword, so the fourth
argument is `byy`). -/
def orientation (ax ay bx byy cx cy : α) : α :=
  (bx - ax) * (cy - ay) - (byy - ay) * (cx - ax)

/-- readability.ts `segmentsCross`. -/
def segmentsCross (a b : SegmentRef α) : Bool :=
  let o1 := orientation a.x1 a.y1 a.x2 a.y2 b.x1 b.y1
  let o2 := orientation a.x1 a.y1 a.x2 a.y2 b.x2 b.y2
  let o3 := orientation b.x1 b.y1 b.x2 b.y2 a.x1 a.y1
  let o4 := orientation b.x1 b.y1 b.x2 b.y2 a.x2 a.y2
  if |o1| < 1 / 1000000 ∨ |o2| < 1 / 1000000 ∨ |o3| < 1 / 1000000 ∨ |o4| < 1 / 1000000 then
    false
  else
    (decide (0 < o1) != decide (0 < o2)) && (decide (0 < o3) != decide (0 < o4))

/-- readability.ts `directionalPenalty` (`from` is a Lean keyword, so the
endpoints are `f`/`t`). -/
def directionalPenalty (f t : Pt α) (rankdir : Rankdir) : α :=
  let minForward : α := 22
  match rankdir with
  | .TB => if minForward ≤ t.y - f.y then 0 else minForward - (t.y - f.y)
  | .BT => if minForward ≤ f.y - t.y then 0 else minForward - (f.y - t.y)
  | .LR => if minForward ≤ t.x - f.x then 0 else minForward - (t.x - f.x)
  | .RL => if minForward ≤ f.x - t.x then 0 else minForward - (f.x - t.x)

/-- readability.ts `expandedOverlapArea`. -/
def expandedOverlapArea (a b : Rect α) (gap : α) : α :=
  let ax0 := a.x - gap
  let ay0 := a.y - gap
  let ax1 := a.x + a.w + gap
  let ay1 := a.y + a.h + gap
  let bx0 := b.x - gap
  let by0 := b.y - gap
  let bx1 := b.x + b.w + gap
  let by1 := b.y + b.h + gap
  let ox := max 0 (min ax1 bx1 - max ax0 bx0)
  let oy := max 0 (min ay1 by1 - max ay0 by0)
  ox * oy

/-- readability.ts `rectOverlapArea`. -/
def rectOverlapArea (a b : Rect α) : α :=
  let ox := max 0 (min (a.x + a.w) (b.x + b.w) - max a.x b.x)
  let oy := max 0 (min (a.y + a.h) (b.y + b.h) - max a.y b.y)
  ox * oy

/-- readability.ts `segmentToPointDistance`.  `sqrtFn` stands for the float
square root: `Math.hypot (dx, dy)` is modelled as `sqrtFn (dx ^ 2 + dy ^ 2)`. -/
def segmentToPointDistance (sqrtFn : α → α) (seg : SegmentRef α) (p : Pt α) : α :=
  let vx := seg.x2 - seg.x1
  let vy := seg.y2 - seg.y1
  let wx := p.x - seg.x1
  let wy := p.y - seg.y1
  let c1 := vx * wx + vy * wy
  if c1 ≤ 0 then sqrtFn ((p.x - seg.x1) ^ 2 + (p.y - seg.y1) ^ 2)
  else
    let c2 := vx * vx + vy * vy
    if c2 ≤ 1 / 1000000 then sqrtFn ((p.x - seg.x1) ^ 2 + (p.y - seg.y1) ^ 2)
    else
      let t := min 1 (max 0 (c1 / c2))
      let px := seg.x1 + vx * t
      let py := seg.y1 + vy * t
      sqrtFn ((p.x - px) ^ 2 + (p.y - py) ^ 2)

/-- JavaScript `String.prototype.trim` on the characters this repository
feeds it (whitespace via the same class as geometry's title wrapping). -/
def jsTrim (s : String) : String :=
  String.mk (((s.data.dropWhile isJsWhitespace).reverse.dropWhile isJsWhitespace).reverse)

/-- The value of one hexadecimal digit, as matched by the
`[0-9a-fA-F]` class of readability.ts `parseHexColor`. -/
def hexVal (c : Char) : Option ℕ :=
  if '0' ≤ c ∧ c ≤ '9' then some (c.toNat - 48)
  else if 'a' ≤ c ∧ c ≤ 'f' then some (c.toNat - 87)
  else if 'A' ≤ c ∧ c ≤ 'F' then some (c.toNat - 55)
  else none

/-- readability.ts `parseHexColor`: trim, drop one leading `#`, and accept
exactly six hex digits.  The styles of this IR are always present, so the
`input ?? ""` branch is not reachable. -/
def parseHexColor (input : String) : Option (ℕ × ℕ × ℕ) :=
  let raw := jsTrim input
  let raw := if raw.startsWith "#" then raw.drop 1 else raw
  match raw.data with
  | [c1, c2, c3, c4, c5, c6] =>
    match hexVal c1, hexVal c2, hexVal c3, hexVal c4, hexVal c5, hexVal c6 with
    | some h1, some h2, some h3, some h4, some h5, some h6 =>
      some (h1 * 16 + h2, h3 * 16 + h4, h5 * 16 + h6)
    | _, _, _, _, _, _ => none
  | _ => none

/-- readability.ts `linearizeSrgb`.  `powFn` stands for the float power
`(·) ** 2.4`. -/
def linearizeSrgb (powFn : α → α) (v : ℕ) : α :=
  let x := (v : α) / 255
  if x ≤ 3928 / 100000 then x / (1292 / 100)
  else powFn ((x + 55 / 1000) / (1055 / 1000))

/-- readability.ts `luminance`. -/
def luminance (powFn : α → α) (rgb : ℕ × ℕ × ℕ) : α :=
  2126 / 10000 * linearizeSrgb powFn rgb.1 + 7152 / 10000 * linearizeSrgb powFn rgb.2.1 +
    722 / 10000 * linearizeSrgb powFn rgb.2.2

/-- readability.ts `contrastRatio`. -/
def contrastRatio (powFn : α → α) (fg bg : String) : α :=
  match parseHexColor fg, parseHexColor bg with
  | some f, some b =>
    let l1 := luminance powFn f
    let l2 := luminance powFn b
    (max l1 l2 + 1 / 20) / (min l1 l2 + 1 / 20)
  | _, _ => 9 / 2

/-- readability.ts `estimateTextBoxPx`.  JS `Array.from(text).length`
counts code points, as `String.length` does. -/
def estimateTextBoxPx (text : String) (fontSize maxWidth : α) : α × α :=
  let chars : ℕ := max 1 text.length
  let charW := max 4 (fontSize * (56 / 100))
  let rawW := (chars : α) * charW + 10
  let w := clamp rawW 32 (max 32 maxWidth)
  let cols : ℤ := max 1 ⌊w / charW⌋
  let rows : ℤ := max 1 ⌈(chars : α) / (cols : α)⌉
  let h := (rows : α) * fontSize * (128 / 100) + 8
  (w, h)

end Readability

section Readability

variable [FloorRing α]

/-- Ordered pairs `(l[i], l[j])` with `i < j`, as enumerated by the nested
`for` loops of readability.ts. -/
def listPairs {β : Type} : List β → List (β × β)
  | [] => []
  | x :: xs => (xs.map (fun y => (x, y))) ++ listPairs xs

/-- readability.ts `collectSegments`: the non-degenerate segments of every
route, in edge order; `Math.hypot < 1e-3` is compared as squares. -/
def collectSegments (ir : DiagramIr α) : List (SegmentRef α) :=
  ir.edges.foldl (fun acc edge =>
    if edge.points.length < 2 then acc
    else
      acc ++ (edge.points.zip edge.points.tail).filterMap (fun pq =>
        if distSq pq.1 pq.2 < 1 / 1000000 then none
        else some ⟨edge.id, edge.fromId, edge.toId, pq.1.x, pq.1.y, pq.2.x, pq.2.y⟩)) []

/-- The non-junction nodes scored by readability.ts `evaluateReadability`. -/
def readableNodes (ir : DiagramIr α) : List (IrNode α) :=
  ir.nodes.filter (fun n => !n.isJunction)

/-- A node's rectangle in readability.ts `Rect` form. -/
def nodeRectOf (n : IrNode α) : Rect α := ⟨n.x, n.y, n.width, n.height⟩

/-- A subgraph's rectangle in readability.ts `Rect` form. -/
def subRectOf (s : IrSubgraph α) : Rect α := ⟨s.x, s.y, s.width, s.height⟩

/-- `nodeOverlapArea`: summed pairwise overlap of non-junction node
rectangles expanded by 2. -/
def nodeOverlapAreaOf (ir : DiagramIr α) : α :=
  (listPairs (readableNodes ir)).foldl
    (fun acc p => acc + expandedOverlapArea (nodeRectOf p.1) (nodeRectOf p.2) 2) 0

/-- `subgraphOverlapArea`: summed pairwise overlap of subgraph rectangles. -/
def subgraphOverlapAreaOf (ir : DiagramIr α) : α :=
  (listPairs ir.subgraphs).foldl
    (fun acc p => acc + rectOverlapArea (subRectOf p.1) (subRectOf p.2)) 0

/-- `nodeOutOfSubgraphCount`: nodes whose (truthy) subgraph resolves and
whose rectangle is not inside it with margin 2. -/
def nodeOutOfSubgraphCountOf (ir : DiagramIr α) : ℕ :=
  (readableNodes ir).countP (fun node =>
    match parentKey node.subgraphId with
    | none => false
    | some sid =>
      match mapGetSub ir.subgraphs sid with
      | none => false
      | some sg =>
        !(decide (sg.x - 2 ≤ node.x ∧ sg.y - 2 ≤ node.y ∧
          node.x + node.width ≤ sg.x + sg.width + 2 ∧
          node.y + node.height ≤ sg.y + sg.height + 2)))

/-- `edgeCrossings`: crossing segment pairs from unrelated edges. -/
def edgeCrossingsOf (ir : DiagramIr α) : ℕ :=
  (listPairs (collectSegments ir)).countP (fun p =>
    if p.1.edgeId = p.2.edgeId ∨ p.1.fromId = p.2.fromId ∨ p.1.fromId = p.2.toId ∨
        p.1.toId = p.2.fromId ∨ p.1.toId = p.2.toId then false
    else segmentsCross p.1 p.2)

/-- `edgeThroughNodeCount`: segments whose midpoint sits inside some
unrelated node's 3-expanded rectangle (the `break` makes it an existence
test per segment). -/
def edgeThroughNodeCountOf (ir : DiagramIr α) : ℕ :=
  (collectSegments ir).countP (fun seg =>
    (readableNodes ir).any (fun node =>
      if node.id = seg.fromId ∨ node.id = seg.toId then false
      else
        decide (node.x - 3 ≤ (seg.x1 + seg.x2) / 2 ∧
          (seg.x1 + seg.x2) / 2 ≤ node.x + node.width + 3 ∧
          node.y - 3 ≤ (seg.y1 + seg.y2) / 2 ∧
          (seg.y1 + seg.y2) / 2 ≤ node.y + node.height + 3)))

/-- The edges whose labels are laid out: truthy label and a label position. -/
def labelEdges (ir : DiagramIr α) : List (IrEdge α) :=
  ir.edges.filter (fun e => labelTruthy e.label && e.labelPosition.isSome)

/-- The clamped label font of an edge: `edge.style.fontSize || 11` treats
the falsy `0` as absent. -/
def labelFont (e : IrEdge α) : α :=
  clamp (if e.style.fontSize = 0 then 11 else e.style.fontSize) 8 24

/-- An edge label's rectangle, centred on the label position. -/
def labelRectOf (e : IrEdge α) (pos : Pt α) : Rect α :=
  let box := estimateTextBoxPx (e.label.getD "") (labelFont e) 220
  ⟨pos.x - box.1 / 2, pos.y - box.2 / 2, box.1, box.2⟩

/-- `edgeLabelNodeOverlapCount`: labelled edges whose label rectangle
overlaps some node other than its endpoints. -/
def edgeLabelNodeOverlapCountOf (ir : DiagramIr α) : ℕ :=
  (labelEdges ir).countP (fun e =>
    match e.labelPosition with
    | none => false
    | some pos =>
      (readableNodes ir).any (fun node =>
        if node.id = e.fromId ∨ node.id = e.toId then false
        else decide (0 < rectOverlapArea (labelRectOf e pos) (nodeRectOf node))))

/-- The label rectangles, in edge order. -/
def labelRectsOf (ir : DiagramIr α) : List (Rect α) :=
  (labelEdges ir).filterMap (fun e => e.labelPosition.map (labelRectOf e))

/-- `edgeLabelLabelOverlapCount`: overlapping pairs of label rectangles. -/
def edgeLabelLabelOverlapCountOf (ir : DiagramIr α) : ℕ :=
  (listPairs (labelRectsOf ir)).countP (fun p => decide (0 < rectOverlapArea p.1 p.2))

/-- Per labelled edge, the minimum distance from the label position to the
edge's own segments (skipped when the edge has no segments; the
`Number.isFinite` guard always passes then). -/
def labelMinDists (sqrtFn : α → α) (ir : DiagramIr α) : List α :=
  (labelEdges ir).filterMap (fun e =>
    match e.labelPosition with
    | none => none
    | some pos =>
      match (collectSegments ir).filter (fun s => s.edgeId = e.id) with
      | [] => none
      | s :: rest =>
        some (rest.foldl (fun m seg => min m (segmentToPointDistance sqrtFn seg pos))
          (segmentToPointDistance sqrtFn s pos)))

/-- `edgeLabelDistanceMean`. -/
def edgeLabelDistanceMeanOf (sqrtFn : α → α) (ir : DiagramIr α) : α :=
  let l := labelMinDists sqrtFn ir
  if l.length = 0 then 0 else l.foldl (· + ·) 0 / (l.length : α)

/-- `lowContrastCount` over non-junction nodes and all subgraphs. -/
def lowContrastCountOf (powFn : α → α) (ir : DiagramIr α) : ℕ :=
  (readableNodes ir).countP
      (fun n => decide (contrastRatio powFn n.style.text n.style.fill < 9 / 2)) +
    ir.subgraphs.countP
      (fun s => decide (contrastRatio powFn s.style.text s.style.fill < 9 / 2))

/-- `textOverflowRiskCount`. -/
def textOverflowRiskCountOf (ir : DiagramIr α) : ℕ :=
  (readableNodes ir).countP (fun n =>
    if n.label.isEmpty then false
    else
      decide (n.height * (98 / 100) < (estimateTextBoxPx n.label
          (clamp n.style.fontSize 8 24) (max 48 (n.width - 10))).2 ∨
        n.width * (102 / 100) < (estimateTextBoxPx n.label
          (clamp n.style.fontSize 8 24) (max 48 (n.width - 10))).1))

/-- `totalEdgeBends`: `max(0, points.length - 2)` summed (truncated `ℕ`
subtraction is that maximum). -/
def totalEdgeBendsOf (ir : DiagramIr α) : ℕ :=
  ir.edges.foldl (fun acc e => acc + (e.points.length - 2)) 0

/-- `directionalBackflowPenalty`: summed over edges whose endpoints
resolve, measured between node centres. -/
def directionalBackflowPenaltyOf (ir : DiagramIr α) : α :=
  ir.edges.foldl (fun acc e =>
    match mapGetNode ir.nodes e.fromId, mapGetNode ir.nodes e.toId with
    | some f, some t =>
      acc + directionalPenalty ⟨f.x + f.width / 2, f.y + f.height / 2⟩
        ⟨t.x + t.width / 2, t.y + t.height / 2⟩ (toRankdir ir.direction)
    | _, _ => acc) 0

/-- `occupancyRatio`. -/
def occupancyRatioOf (ir : DiagramIr α) : α :=
  ((readableNodes ir).foldl (fun acc n => acc + n.width * n.height) 0) /
    max 1 (ir.bounds.width * ir.bounds.height)

/-- `occupancyPenalty`. -/
def occupancyPenaltyOf (ir : DiagramIr α) : α :=
  if 16 / 100 < occupancyRatioOf ir then occupancyRatioOf ir - 16 / 100
  else (16 / 100 - occupancyRatioOf ir) * (18 / 100)

/-- The weighted penalty sum of readability.ts `evaluateReadability`. -/
def readabilityPenalty (m : ReadabilityMetrics α) : α :=
  m.nodeOverlapArea * (88 / 10) + m.subgraphOverlapArea * 26 +
    (m.nodeOutOfSubgraphCount : α) * 780 + (m.edgeCrossings : α) * 1300 +
    (m.edgeThroughNodeCount : α) * 520 + (m.edgeLabelNodeOverlapCount : α) * 460 +
    (m.edgeLabelLabelOverlapCount : α) * 560 + max 0 (m.edgeLabelDistanceMean - 20) * 12 +
    (m.lowContrastCount : α) * 210 + (m.textOverflowRiskCount : α) * 300 +
    (m.totalEdgeBends : α) * 20 + m.directionalBackflowPenalty * (45 / 10) +
    m.occupancyPenalty * 2400

/-- readability.ts `evaluateReadability`.  The scorer only reads the
diagram (readability.ts contains no assignment to `ir` or its members), so
it embeds as a pure function; `sqrtFn`, `powFn` and `logFn` stand for the
float `Math.hypot`, `(·) ** 2.4` and `Math.log10`. -/
def evaluateReadability (sqrtFn powFn logFn : α → α) (ir : DiagramIr α) :
    ReadabilityEvaluation α :=
  let metrics : ReadabilityMetrics α :=
    ⟨nodeOverlapAreaOf ir, subgraphOverlapAreaOf ir, nodeOutOfSubgraphCountOf ir,
      edgeCrossingsOf ir, edgeThroughNodeCountOf ir, edgeLabelNodeOverlapCountOf ir,
      edgeLabelLabelOverlapCountOf ir, edgeLabelDistanceMeanOf sqrtFn ir,
      lowContrastCountOf powFn ir, textOverflowRiskCountOf ir, totalEdgeBendsOf ir,
      directionalBackflowPenaltyOf ir, occupancyRatioOf ir, occupancyPenaltyOf ir⟩
  let penalty := readabilityPenalty metrics
  { penalty := penalty, score := clamp (100 - logFn (1 + penalty) * 18) 0 100,
    metrics := metrics }

end Readability

section Readability

variable [FloorRing α]

/-- C5: for every diagram and every choice of the float collaborators, the
scorer returns the penalty, the full metrics breakdown, and a score equal
to `100 − 18·log10(1 + penalty)` clamped to `[0, 100]`; it is a pure
function of the diagram (repeated calls on equal diagrams return identical
results, and no part of the diagram is written). -/
theorem c5_readability_scorer (sqrtFn powFn logFn : α → α) (ir : DiagramIr α) :
    (evaluateReadability sqrtFn powFn logFn ir).score =
      clamp (100 - logFn (1 + (evaluateReadability sqrtFn powFn logFn ir).penalty) * 18)
        0 100 ∧
    0 ≤ (evaluateReadability sqrtFn powFn logFn ir).score ∧
    (evaluateReadability sqrtFn powFn logFn ir).score ≤ 100 ∧
    (evaluateReadability sqrtFn powFn logFn ir).penalty =
      readabilityPenalty (evaluateReadability sqrtFn powFn logFn ir).metrics ∧
    (evaluateReadability sqrtFn powFn logFn ir).metrics =
      ⟨nodeOverlapAreaOf ir, subgraphOverlapAreaOf ir, nodeOutOfSubgraphCountOf ir,
        edgeCrossingsOf ir, edgeThroughNodeCountOf ir, edgeLabelNodeOverlapCountOf ir,
        edgeLabelLabelOverlapCountOf ir, edgeLabelDistanceMeanOf sqrtFn ir,
        lowContrastCountOf powFn ir, textOverflowRiskCountOf ir, totalEdgeBendsOf ir,
        directionalBackflowPenaltyOf ir, occupancyRatioOf ir, occupancyPenaltyOf ir⟩ ∧
    ∀ ir' : DiagramIr α, ir' = ir →
      evaluateReadability sqrtFn powFn logFn ir' = evaluateReadability sqrtFn powFn logFn ir := by
  have hscore : (evaluateReadability sqrtFn powFn logFn ir).score =
      clamp (100 - logFn (1 + (evaluateReadability sqrtFn powFn logFn ir).penalty) * 18)
        0 100 := rfl
  refine ⟨hscore, ?_, ?_, rfl, rfl, ?_⟩
  · rw [hscore]
    exact le_min (by norm_num) (le_max_left _ _)
  · rw [hscore]
    exact min_le_left _ _
  · intro ir' h
    rw [h]

end Readability

def c5wIr : DiagramIr ℚ :=
  ⟨.TB, ⟨90, 60, 30, 30, 30⟩, [], [], [], ⟨0, 0, 0, 0, 0, 0⟩⟩

theorem c5_witness :
    evaluateReadability (α := ℚ) id id id c5wIr = evaluateReadability id id id c5wIr ∧
    0 ≤ (evaluateReadability (α := ℚ) id id id c5wIr).score ∧
    (evaluateReadability (α := ℚ) id id id c5wIr).score ≤ 100 :=
  ⟨(c5_readability_scorer id id id c5wIr).2.2.2.2.2 c5wIr rfl,
   (c5_readability_scorer id id id c5wIr).2.1,
   (c5_readability_scorer id id id c5wIr).2.2.1⟩

/-! ### layout.ts: speculative corrections and layout-state snapshots (claim C7) -/

/-- layout.ts `LayoutState` (the snapshot taken by `captureLayoutState`). -/
structure LayoutState (α : Type) where
  nodePositions : List (String × Pt α)
  edgeRoutes : List (String × (List (Pt α) × Option (Pt α)))
  edgeSides : List (String × (Option EdgeSide × Option EdgeSide))
  subgraphBounds : List (String × Rect α)
  bounds : IrBounds α
deriving DecidableEq, Repr

/-- JavaScript `Map.get` over an insertion list of key/value pairs (later
insertions win), shared by the snapshot maps. -/
def mapGetAssoc {δ : Type} (l : List (String × δ)) (id : String) : Option δ :=
  l.foldl (fun acc p => if p.1 = id then some p.2 else acc) none

/-- layout.ts `captureLayoutState`. -/
def captureLayoutState (ir : DiagramIr α) : LayoutState α :=
  ⟨ir.nodes.map (fun n => (n.id, ⟨n.x, n.y⟩)),
   ir.edges.map (fun e => (e.id, (e.points, e.labelPosition))),
   ir.edges.map (fun e => (e.id, (e.style.startSide, e.style.endSide))),
   ir.subgraphs.map (fun s => (s.id, ⟨s.x, s.y, s.width, s.height⟩)),
   ir.bounds⟩

/-- layout.ts `restoreLayoutState`. -/
def restoreLayoutState (ir : DiagramIr α) (st : LayoutState α) : DiagramIr α :=
  { ir with
    nodes := ir.nodes.map (fun n =>
      match mapGetAssoc st.nodePositions n.id with
      | none => n
      | some p => { n with x := p.x, y := p.y }),
    edges := ir.edges.map (fun e =>
      let e1 := match mapGetAssoc st.edgeRoutes e.id with
        | none => e
        | some r => { e with points := r.1, labelPosition := r.2 }
      match mapGetAssoc st.edgeSides e.id with
      | none => e1
      | some sides => { e1 with style := { e1.style with
          startSide := sides.1, endSide := sides.2 } }),
    subgraphs := ir.subgraphs.map (fun s =>
      match mapGetAssoc st.subgraphBounds s.id with
      | none => s
      | some b => { s with x := b.x, y := b.y, width := b.w, height := b.h }),
    bounds := st.bounds }

/-- A node's fields that `restoreLayoutState` does not overwrite. -/
def nodeSkel (n : IrNode α) : String × String × Bool × Option String × α × α × NodeStyle α :=
  (n.id, n.label, n.isJunction, n.subgraphId, n.width, n.height, n.style)

/-- An edge's fields that `restoreLayoutState` does not overwrite. -/
def edgeSkel (e : IrEdge α) : String × String × String × Option String × α :=
  (e.id, e.fromId, e.toId, e.label, e.style.fontSize)

/-- A subgraph's fields that `restoreLayoutState` does not overwrite. -/
def subSkel (s : IrSubgraph α) :
    String × String × Option String × List String × SubgraphStyle α :=
  (s.id, s.title, s.parentId, s.nodeIds, s.style)

/-- Two diagrams with the same skeleton: they differ at most in node
positions, edge routes and sides, subgraph rectangles and bounds — exactly
what a layout-state snapshot restores. -/
def sameSkeleton (a b : DiagramIr α) : Prop :=
  a.direction = b.direction ∧ a.layout = b.layout ∧
  a.nodes.map nodeSkel = b.nodes.map nodeSkel ∧
  a.edges.map edgeSkel = b.edges.map edgeSkel ∧
  a.subgraphs.map subSkel = b.subgraphs.map subSkel

theorem sameSkeleton_refl (a : DiagramIr α) : sameSkeleton a a :=
  ⟨rfl, rfl, rfl, rfl, rfl⟩

theorem sameSkeleton_trans {a b c : DiagramIr α}
    (h1 : sameSkeleton a b) (h2 : sameSkeleton b c) : sameSkeleton a c :=
  ⟨h1.1.trans h2.1, h1.2.1.trans h2.2.1, h1.2.2.1.trans h2.2.2.1,
   h1.2.2.2.1.trans h2.2.2.2.1, h1.2.2.2.2.trans h2.2.2.2.2⟩

theorem foldl_assoc_no_match {δ : Type} (id : String) :
    ∀ (l : List (String × δ)) (acc : Option δ), (∀ p ∈ l, p.1 ≠ id) →
      l.foldl (fun acc p => if p.1 = id then some p.2 else acc) acc = acc := by
  intro l
  induction l with
  | nil => intro acc _; rfl
  | cons q rest ih =>
    intro acc h
    simp only [List.foldl_cons]
    rw [if_neg (h q (List.mem_cons_self _ _))]
    exact ih acc (fun p hp => h p (List.mem_cons_of_mem _ hp))

theorem mapGetAssoc_map_of_nodup {γ δ : Type} (key : γ → String) (val : γ → δ) :
    ∀ (xs : List γ), (xs.map key).Nodup →
      ∀ x ∈ xs, mapGetAssoc (xs.map fun y => (key y, val y)) (key x) = some (val x) := by
  intro xs
  induction xs with
  | nil => intro _ x hx; cases hx
  | cons z rest ih =>
    intro hnodup x hx
    have hnodup' : (rest.map key).Nodup := (List.nodup_cons.mp hnodup).2
    have hznotin : key z ∉ rest.map key := (List.nodup_cons.mp hnodup).1
    rcases List.mem_cons.mp hx with rfl | hx2
    · unfold mapGetAssoc
      simp only [List.map_cons, List.foldl_cons, if_pos rfl]
      exact foldl_assoc_no_match (key x) (rest.map fun y => (key y, val y)) (some (val x))
        (by
          intro p hp
          obtain ⟨y, hy, rfl⟩ := List.mem_map.mp hp
          intro hkey
          exact hznotin (hkey ▸ List.mem_map_of_mem key hy))
    · have hne : key z ≠ key x := by
        intro hkey
        exact hznotin (hkey ▸ List.mem_map_of_mem key hx2)
      unfold mapGetAssoc
      simp only [List.map_cons, List.foldl_cons, if_neg hne]
      exact ih hnodup' x hx2

theorem restore_nodes_eq (snap : List (String × Pt α)) :
    ∀ (ns' ns : List (IrNode α)), ns'.map nodeSkel = ns.map nodeSkel →
      (∀ n ∈ ns, mapGetAssoc snap n.id = some (⟨n.x, n.y⟩ : Pt α)) →
      ns'.map (fun n =>
        match mapGetAssoc snap n.id with
        | none => n
        | some p => { n with x := p.x, y := p.y }) = ns := by
  intro ns'
  induction ns' with
  | nil =>
    intro ns h _
    rw [List.map_nil] at h
    rw [List.map_nil, List.map_eq_nil_iff.mp h.symm]
  | cons n' rest ih =>
    intro ns h hlook
    cases ns with
    | nil => simp at h
    | cons n ns2 =>
      simp only [List.map_cons, List.cons.injEq] at h
      obtain ⟨hhead, htail⟩ := h
      simp only [List.map_cons]
      refine congrArg₂ _ ?_ (ih ns2 htail (fun m hm => hlook m (List.mem_cons_of_mem _ hm)))
      obtain ⟨id1, lb1, j1, sg1, w1, h1, x1, y1, st1⟩ := n'
      obtain ⟨id2, lb2, j2, sg2, w2, h2, x2, y2, st2⟩ := n
      simp only [nodeSkel, Prod.mk.injEq] at hhead
      obtain ⟨e1, e2, e3, e4, e5, e6, e7⟩ := hhead
      subst e1 e2 e3 e4 e5 e6 e7
      rw [hlook _ (List.mem_cons_self _ _)]

theorem restore_subs_eq (snap : List (String × Rect α)) :
    ∀ (ss' ss : List (IrSubgraph α)), ss'.map subSkel = ss.map subSkel →
      (∀ s ∈ ss, mapGetAssoc snap s.id = some (⟨s.x, s.y, s.width, s.height⟩ : Rect α)) →
      ss'.map (fun s =>
        match mapGetAssoc snap s.id with
        | none => s
        | some b => { s with x := b.x, y := b.y, width := b.w, height := b.h }) = ss := by
  intro ss'
  induction ss' with
  | nil =>
    intro ss h _
    rw [List.map_nil] at h
    rw [List.map_nil, List.map_eq_nil_iff.mp h.symm]
  | cons s' rest ih =>
    intro ss h hlook
    cases ss with
    | nil => simp at h
    | cons s ss2 =>
      simp only [List.map_cons, List.cons.injEq] at h
      obtain ⟨hhead, htail⟩ := h
      simp only [List.map_cons]
      refine congrArg₂ _ ?_ (ih ss2 htail (fun m hm => hlook m (List.mem_cons_of_mem _ hm)))
      obtain ⟨id1, t1, p1, nid1, x1, y1, w1, h1, st1⟩ := s'
      obtain ⟨id2, t2, p2, nid2, x2, y2, w2, h2, st2⟩ := s
      simp only [subSkel, Prod.mk.injEq] at hhead
      obtain ⟨e1, e2, e3, e4, e5⟩ := hhead
      subst e1 e2 e3 e4 e5
      rw [hlook _ (List.mem_cons_self _ _)]

theorem restore_edges_eq (snapR : List (String × (List (Pt α) × Option (Pt α))))
    (snapS : List (String × (Option EdgeSide × Option EdgeSide))) :
    ∀ (es' es : List (IrEdge α)), es'.map edgeSkel = es.map edgeSkel →
      (∀ e ∈ es, mapGetAssoc snapR e.id = some (e.points, e.labelPosition)) →
      (∀ e ∈ es, mapGetAssoc snapS e.id = some (e.style.startSide, e.style.endSide)) →
      es'.map (fun e =>
        let e1 := match mapGetAssoc snapR e.id with
          | none => e
          | some r => { e with points := r.1, labelPosition := r.2 }
        match mapGetAssoc snapS e.id with
        | none => e1
        | some sides => { e1 with style := { e1.style with
            startSide := sides.1, endSide := sides.2 } }) = es := by
  intro es'
  induction es' with
  | nil =>
    intro es h _ _
    rw [List.map_nil] at h
    rw [List.map_nil, List.map_eq_nil_iff.mp h.symm]
  | cons e' rest ih =>
    intro es h hlookR hlookS
    cases es with
    | nil => simp at h
    | cons e es2 =>
      simp only [List.map_cons, List.cons.injEq] at h
      obtain ⟨hhead, htail⟩ := h
      simp only [List.map_cons]
      refine congrArg₂ _ ?_ (ih es2 htail (fun m hm => hlookR m (List.mem_cons_of_mem _ hm))
        (fun m hm => hlookS m (List.mem_cons_of_mem _ hm)))
      obtain ⟨id1, f1, t1, lb1, pts1, lp1, st1⟩ := e'
      obtain ⟨id2, f2, t2, lb2, pts2, lp2, st2⟩ := e
      obtain ⟨ss1, es1, fs1⟩ := st1
      obtain ⟨ss2, es2x, fs2⟩ := st2
      simp only [edgeSkel, Prod.mk.injEq] at hhead
      obtain ⟨e1, e2, e3, e4, e5⟩ := hhead
      subst e1 e2 e3 e4 e5
      rw [hlookR _ (List.mem_cons_self _ _), hlookS _ (List.mem_cons_self _ _)]

/-- Restoring a snapshot onto any diagram with the same skeleton as the
snapshotted one recovers that diagram exactly (ids must be unique for the
JS maps to be faithful). -/
theorem restoreLayoutState_captureLayoutState {ir' ir : DiagramIr α}
    (hskel : sameSkeleton ir' ir)
    (hn : (ir.nodes.map (fun n => n.id)).Nodup)
    (he : (ir.edges.map (fun e => e.id)).Nodup)
    (hs : (ir.subgraphs.map (fun s => s.id)).Nodup) :
    restoreLayoutState ir' (captureLayoutState ir) = ir := by
  obtain ⟨hdir, hlay, hns, hes, hss⟩ := hskel
  obtain ⟨d, l, ns, es, ss, b⟩ := ir
  obtain ⟨d', l', ns', es', ss', b'⟩ := ir'
  simp only [restoreLayoutState, captureLayoutState, DiagramIr.mk.injEq]
  simp only at hdir hlay hns hes hss hn he hs
  refine ⟨hdir, hlay, ?_, ?_, ?_, trivial⟩
  · exact restore_nodes_eq _ ns' ns hns
      (fun n hn2 => mapGetAssoc_map_of_nodup (fun m => m.id)
        (fun m => (⟨m.x, m.y⟩ : Pt α)) ns hn n hn2)
  · exact restore_edges_eq _ _ es' es hes
      (fun e he2 => mapGetAssoc_map_of_nodup (fun m => m.id)
        (fun m => (m.points, m.labelPosition)) es he e he2)
      (fun e he2 => mapGetAssoc_map_of_nodup (fun m => m.id)
        (fun m => (m.style.startSide, m.style.endSide)) es he e he2)
  · exact restore_subs_eq _ ss' ss hss
      (fun s hs2 => mapGetAssoc_map_of_nodup (fun m => m.id)
        (fun m => (⟨m.x, m.y, m.width, m.height⟩ : Rect α)) ss hs s hs2)

section Corrections

variable [FloorRing α]

/-- The per-quadrant area accumulation shared by layout.ts
`reduceDiagonalSkew` and `rebalanceQuadrantCoverage` (`computeState` /
`computeCorrAndImbalance`): quadrant `(ny >= cy ? 2 : 0) + (nx >= cx ? 1 : 0)`
of each non-junction node's centre, accumulating `width * height`. -/
def quadrantAreasOf (ir : DiagramIr α) : α × α × α × α :=
  let cx := (ir.bounds.minX + ir.bounds.maxX) / 2
  let cy := (ir.bounds.minY + ir.bounds.maxY) / 2
  (readableNodes ir).foldl (fun acc n =>
    let nx := n.x + n.width / 2
    let ny := n.y + n.height / 2
    if cy ≤ ny then
      if cx ≤ nx then (acc.1, acc.2.1, acc.2.2.1, acc.2.2.2 + n.width * n.height)
      else (acc.1, acc.2.1, acc.2.2.1 + n.width * n.height, acc.2.2.2)
    else
      if cx ≤ nx then (acc.1, acc.2.1 + n.width * n.height, acc.2.2.1, acc.2.2.2)
      else (acc.1 + n.width * n.height, acc.2.1, acc.2.2.1, acc.2.2.2)) (0, 0, 0, 0)

/-- The quadrant imbalance `(max - min) / mean` of both corrections. -/
def quadrantImbalanceOf (ir : DiagramIr α) : α :=
  let q := quadrantAreasOf ir
  let total := q.1 + q.2.1 + q.2.2.1 + q.2.2.2
  let mean := if 0 < total then total / 4 else 0
  if 0 < mean then
    (max (max q.1 q.2.1) (max q.2.2.1 q.2.2.2) -
      min (min q.1 q.2.1) (min q.2.2.1 q.2.2.2)) / mean
  else 0

/-- `computeCorrAndImbalance` of layout.ts `reduceDiagonalSkew`: the
centre-position correlation (via `sqrtFn`, standing for `Math.sqrt`) and
the quadrant imbalance. -/
def skewCorrImbalance (sqrtFn : α → α) (ir : DiagramIr α) : α × α :=
  let nodes := readableNodes ir
  let meanX := (nodes.foldl (fun acc n => acc + (n.x + n.width / 2)) 0) / (nodes.length : α)
  let meanY := (nodes.foldl (fun acc n => acc + (n.y + n.height / 2)) 0) / (nodes.length : α)
  let varX := nodes.foldl (fun acc n => acc + (n.x + n.width / 2 - meanX) ^ 2) 0
  let varY := nodes.foldl (fun acc n => acc + (n.y + n.height / 2 - meanY) ^ 2) 0
  let cov := nodes.foldl
    (fun acc n => acc + (n.x + n.width / 2 - meanX) * (n.y + n.height / 2 - meanY)) 0
  let corr := if 1 / 1000000 < varX ∧ 1 / 1000000 < varY then cov / sqrtFn (varX * varY) else 0
  (corr, quadrantImbalanceOf ir)

/-- The objective of `reduceDiagonalSkew`:
`scoreLayoutQuality + imbalance * 2600 + |corr| * 900`. -/
def skewObjective (sqrtFn : α → α) (scoreFn : DiagramIr α → α) (ir : DiagramIr α) : α :=
  scoreFn ir + (skewCorrImbalance sqrtFn ir).2 * 2600 + |(skewCorrImbalance sqrtFn ir).1| * 900

/-- The node shift of one skew-correction attempt. -/
def skewMove (rankdir : Rankdir) (corr cx cy spanX spanY amplitude : α)
    (ir : DiagramIr α) : DiagramIr α :=
  { ir with
    nodes := ir.nodes.map (fun node =>
      if node.isJunction then node
      else if rankdir = .TB ∨ rankdir = .BT then
        { node with y := node.y + -corr * ((node.x + node.width / 2 - cx) / spanX) * amplitude }
      else
        { node with x := node.x + -corr * ((node.y + node.height / 2 - cy) / spanY) * amplitude }) }

/-- The attempt loop of `reduceDiagonalSkew`: restore the snapshot, shift,
run the constraint/side/route passes (`passFn` stands for
`enforceSpatialConstraints`, `inferEdgeSideHints` and
`rebuildEdgeRoutesFromSideAnchors`), recompute bounds, and accept only a
strictly smaller objective with a relative corr/imbalance improvement. -/
def skewAttempts (sqrtFn : α → α) (scoreFn : DiagramIr α → α)
    (passFn : DiagramIr α → DiagramIr α) (rankdir : Rankdir) (beforeState : LayoutState α)
    (beforeCorr beforeImb beforeObjective cx cy spanX spanY baseAmplitude : α) :
    List α → DiagramIr α → DiagramIr α × Bool
  | [], ir => (restoreLayoutState ir beforeState, false)
  | s :: rest, ir =>
    let irR := restoreLayoutState ir beforeState
    let irM := recomputeBounds (recomputeSubgraphBounds
      (passFn (skewMove rankdir beforeCorr cx cy spanX spanY (baseAmplitude * s) irR)))
    let after := skewCorrImbalance sqrtFn irM
    if (|after.1| + 1 / 1000000 < |beforeCorr| * (9 / 10) ∨
          after.2 + 1 / 1000000 < beforeImb * (9 / 10)) ∧
        scoreFn irM + after.2 * 2600 + |after.1| * 900 + 1 / 1000000 < beforeObjective then
      (irM, true)
    else
      skewAttempts sqrtFn scoreFn passFn rankdir beforeState beforeCorr beforeImb
        beforeObjective cx cy spanX spanY baseAmplitude rest irM

/-- layout.ts `reduceDiagonalSkew`, returning the final diagram and the
accept flag (the source mutates `ir` and returns the flag). -/
def reduceDiagonalSkew (sqrtFn : α → α) (scoreFn : DiagramIr α → α)
    (passFn : DiagramIr α → DiagramIr α) (rankdir : Rankdir) (ir0 : DiagramIr α) :
    DiagramIr α × Bool :=
  if (readableNodes ir0).length < 8 then (ir0, false)
  else
    let ir := recomputeBounds (recomputeSubgraphBounds ir0)
    let before := skewCorrImbalance sqrtFn ir
    if |before.1| < 42 / 100 ∨ before.2 < 125 / 100 then (ir, false)
    else
      let beforeState := captureLayoutState ir
      let beforeObjective := skewObjective sqrtFn scoreFn ir
      let cx := (ir.bounds.minX + ir.bounds.maxX) / 2
      let cy := (ir.bounds.minY + ir.bounds.maxY) / 2
      let spanX := max 1 ir.bounds.width
      let spanY := max 1 ir.bounds.height
      let baseAmplitude := clamp (min ir.bounds.width ir.bounds.height * (7 / 100)) 20 120 *
        clamp |before.1| (45 / 100) 1
      skewAttempts sqrtFn scoreFn passFn rankdir beforeState before.1 before.2 beforeObjective
        cx cy spanX spanY baseAmplitude [1, 62 / 100, 38 / 100] ir

/-- The per-node shift of one quadrant-rebalance attempt. -/
def rebalanceDelta (pressureX pressureY baseShift scale cx cy spanX spanY : α)
    (node : IrNode α) : α × α :=
  let nx := node.x + node.width / 2
  let ny := node.y + node.height / 2
  let weightX := clamp (65 / 100 + (|nx - cx| / spanX) * (28 / 10)) (65 / 100) (19 / 10)
  let weightY := clamp (65 / 100 + (|ny - cy| / spanY) * (28 / 10)) (65 / 100) (19 / 10)
  let dx := if 0 < pressureX ∧ nx < cx then pressureX * baseShift * scale * weightX
    else if pressureX < 0 ∧ cx < nx then pressureX * baseShift * scale * weightX
    else 0
  let dy := if 0 < pressureY ∧ ny < cy then pressureY * baseShift * scale * weightY
    else if pressureY < 0 ∧ cy < ny then pressureY * baseShift * scale * weightY
    else 0
  (dx, dy)

/-- The node-shift loop of one quadrant-rebalance attempt, with its
`moved` flag (a node moves only when its shift exceeds `0.01`). -/
def rebalanceMove (pressureX pressureY baseShift scale cx cy spanX spanY : α)
    (ir : DiagramIr α) : DiagramIr α × Bool :=
  ({ ir with
      nodes := ir.nodes.map (fun node =>
        if node.isJunction then node
        else
          let d := rebalanceDelta pressureX pressureY baseShift scale cx cy spanX spanY node
          if 1 / 100 < |d.1| ∨ 1 / 100 < |d.2| then
            { node with x := node.x + d.1, y := node.y + d.2 }
          else node) },
   (readableNodes ir).any (fun node =>
     let d := rebalanceDelta pressureX pressureY baseShift scale cx cy spanX spanY node
     decide (1 / 100 < |d.1| ∨ 1 / 100 < |d.2|)))

/-- The objective of `rebalanceQuadrantCoverage`:
`scoreLayoutQuality + imbalance * 2800`. -/
def rebalanceObjective (scoreFn : DiagramIr α → α) (ir : DiagramIr α) : α :=
  scoreFn ir + quadrantImbalanceOf ir * 2800

/-- The scale loop of `rebalanceQuadrantCoverage`: restore, shift, skip a
scale that moved nothing, otherwise run the passes, recompute, and accept
when the imbalance improved below `0.88×` and the objective stayed within
`1.08×` of the pre-correction objective (which may be worse). -/
def rebalanceAttempts (scoreFn : DiagramIr α → α) (passFn : DiagramIr α → DiagramIr α)
    (beforeState : LayoutState α)
    (beforeImb beforeObjective pressureX pressureY baseShift cx cy spanX spanY : α) :
    List α → DiagramIr α → DiagramIr α × Bool
  | [], ir => (restoreLayoutState ir beforeState, false)
  | s :: rest, ir =>
    let irR := restoreLayoutState ir beforeState
    let m := rebalanceMove pressureX pressureY baseShift s cx cy spanX spanY irR
    if m.2 = false then
      rebalanceAttempts scoreFn passFn beforeState beforeImb beforeObjective pressureX
        pressureY baseShift cx cy spanX spanY rest irR
    else
      let irM := recomputeBounds (recomputeSubgraphBounds (passFn m.1))
      if quadrantImbalanceOf irM + 1 / 1000000 < beforeImb * (88 / 100) ∧
          rebalanceObjective scoreFn irM ≤ beforeObjective * (108 / 100) then
        (irM, true)
      else
        rebalanceAttempts scoreFn passFn beforeState beforeImb beforeObjective pressureX
          pressureY baseShift cx cy spanX spanY rest irM

/-- layout.ts `rebalanceQuadrantCoverage`, returning the final diagram and
the accept flag. -/
def rebalanceQuadrantCoverage (scoreFn : DiagramIr α → α)
    (passFn : DiagramIr α → DiagramIr α) (ir0 : DiagramIr α) : DiagramIr α × Bool :=
  if (readableNodes ir0).length < 8 then (ir0, false)
  else
    let ir := recomputeBounds (recomputeSubgraphBounds ir0)
    let q := quadrantAreasOf ir
    let beforeImb := quadrantImbalanceOf ir
    if beforeImb < 13 / 10 then (ir, false)
    else
      let leftArea := q.1 + q.2.2.1
      let rightArea := q.2.1 + q.2.2.2
      let topArea := q.1 + q.2.1
      let bottomArea := q.2.2.1 + q.2.2.2
      let totalArea := leftArea + rightArea
      if totalArea ≤ 0 then (ir, false)
      else
        let pressureX := clamp ((leftArea - rightArea) / totalArea) (-(9 / 10)) (9 / 10)
        let pressureY := clamp ((topArea - bottomArea) / totalArea) (-(9 / 10)) (9 / 10)
        if |pressureX| < 8 / 100 ∧ |pressureY| < 8 / 100 then (ir, false)
        else
          let beforeState := captureLayoutState ir
          let beforeObjective := rebalanceObjective scoreFn ir
          let cx := (ir.bounds.minX + ir.bounds.maxX) / 2
          let cy := (ir.bounds.minY + ir.bounds.maxY) / 2
          let spanX := max 1 ir.bounds.width
          let spanY := max 1 ir.bounds.height
          let baseShift := clamp (min ir.bounds.width ir.bounds.height * (4 / 100)) 14 64
          rebalanceAttempts scoreFn passFn beforeState beforeImb beforeObjective pressureX
            pressureY baseShift cx cy spanX spanY [1, 62 / 100, 36 / 100] ir

end Corrections

theorem map_skel_of_pointwise {γ δ : Type} (f : γ → γ) (sk : γ → δ)
    (h : ∀ x, sk (f x) = sk x) (l : List γ) : (l.map f).map sk = l.map sk := by
  rw [List.map_map]
  exact List.map_congr_left (fun x _ => h x)

theorem sameSkeleton_restoreLayoutState (ir : DiagramIr α) (st : LayoutState α) :
    sameSkeleton (restoreLayoutState ir st) ir := by
  refine ⟨rfl, rfl, ?_, ?_, ?_⟩
  · exact map_skel_of_pointwise _ _ (fun n => by
      cases mapGetAssoc st.nodePositions n.id <;> rfl) _
  · exact map_skel_of_pointwise _ _ (fun e => by
      cases mapGetAssoc st.edgeRoutes e.id <;> cases mapGetAssoc st.edgeSides e.id <;> rfl) _
  · exact map_skel_of_pointwise _ _ (fun s => by
      cases mapGetAssoc st.subgraphBounds s.id <;> rfl) _

section Corrections

variable [FloorRing α]

theorem sameSkeleton_recomputeSubgraphBounds (ir : DiagramIr α) :
    sameSkeleton (recomputeSubgraphBounds ir) ir := by
  refine ⟨rfl, rfl, rfl, rfl, ?_⟩
  show (applyComputedBounds ir.subgraphs (runSubgraphBounds ir.nodes ir.subgraphs)).map subSkel
    = ir.subgraphs.map subSkel
  generalize runSubgraphBounds ir.nodes ir.subgraphs = computed
  induction ir.subgraphs with
  | nil => rfl
  | cons s rest ih =>
    simp only [applyComputedBounds, List.map_cons, ih, List.cons.injEq, and_true]
    by_cases h : ∀ t ∈ rest, t.id ≠ s.id
    · rw [if_pos h]
      unfold subgraphWithBounds
      cases (computed.lookup s.id).join <;> rfl
    · rw [if_neg h]

theorem sameSkeleton_recomputeBounds (ir : DiagramIr α) :
    sameSkeleton (recomputeBounds ir) ir := by
  unfold recomputeBounds
  simp only []
  split <;> exact ⟨rfl, rfl, rfl, rfl, rfl⟩

theorem sameSkeleton_skewMove (rankdir : Rankdir) (corr cx cy spanX spanY amplitude : α)
    (ir : DiagramIr α) :
    sameSkeleton (skewMove rankdir corr cx cy spanX spanY amplitude ir) ir := by
  refine ⟨rfl, rfl, ?_, rfl, rfl⟩
  exact map_skel_of_pointwise _ _ (fun n => by
    by_cases h1 : n.isJunction
    · rw [if_pos h1]
    · rw [if_neg h1]
      by_cases h2 : rankdir = Rankdir.TB ∨ rankdir = Rankdir.BT
      · rw [if_pos h2]
        rfl
      · rw [if_neg h2]
        rfl) _

theorem sameSkeleton_rebalanceMove (pressureX pressureY baseShift scale cx cy spanX spanY : α)
    (ir : DiagramIr α) :
    sameSkeleton
      (rebalanceMove pressureX pressureY baseShift scale cx cy spanX spanY ir).1 ir := by
  refine ⟨rfl, rfl, ?_, rfl, rfl⟩
  exact map_skel_of_pointwise _ _ (fun n => by
    by_cases h1 : n.isJunction
    · rw [if_pos h1]
    · rw [if_neg h1]
      simp only []
      by_cases h2 : 1 / 100 <
          |(rebalanceDelta pressureX pressureY baseShift scale cx cy spanX spanY n).1| ∨
          1 / 100 <
          |(rebalanceDelta pressureX pressureY baseShift scale cx cy spanX spanY n).2|
      · rw [if_pos h2]
        rfl
      · rw [if_neg h2]) _

end Corrections

theorem ids_eq_of_skel_nodes {a b : DiagramIr α} (h : sameSkeleton a b) :
    a.nodes.map (fun n => n.id) = b.nodes.map (fun n => n.id) := by
  have h3 := congrArg (List.map (fun p => p.1)) h.2.2.1
  rw [List.map_map, List.map_map] at h3
  exact h3

theorem ids_eq_of_skel_edges {a b : DiagramIr α} (h : sameSkeleton a b) :
    a.edges.map (fun e => e.id) = b.edges.map (fun e => e.id) := by
  have h3 := congrArg (List.map (fun p => p.1)) h.2.2.2.1
  rw [List.map_map, List.map_map] at h3
  exact h3

theorem ids_eq_of_skel_subs {a b : DiagramIr α} (h : sameSkeleton a b) :
    a.subgraphs.map (fun s => s.id) = b.subgraphs.map (fun s => s.id) := by
  have h3 := congrArg (List.map (fun p => p.1)) h.2.2.2.2
  rw [List.map_map, List.map_map] at h3
  exact h3

section Corrections

variable [FloorRing α]

theorem skewAttempts_spec (sqrtFn : α → α) (scoreFn : DiagramIr α → α)
    (passFn : DiagramIr α → DiagramIr α) (rankdir : Rankdir) (irB : DiagramIr α)
    (beforeCorr beforeImb beforeObjective cx cy spanX spanY baseAmplitude : α)
    (hpass : ∀ x, sameSkeleton (passFn x) x)
    (hn : (irB.nodes.map (fun n => n.id)).Nodup)
    (he : (irB.edges.map (fun e => e.id)).Nodup)
    (hs : (irB.subgraphs.map (fun s => s.id)).Nodup) :
    ∀ (scales : List α) (ir : DiagramIr α), sameSkeleton ir irB →
      ((skewAttempts sqrtFn scoreFn passFn rankdir (captureLayoutState irB) beforeCorr
          beforeImb beforeObjective cx cy spanX spanY baseAmplitude scales ir).2 = true →
        skewObjective sqrtFn scoreFn
            (skewAttempts sqrtFn scoreFn passFn rankdir (captureLayoutState irB) beforeCorr
              beforeImb beforeObjective cx cy spanX spanY baseAmplitude scales ir).1 +
          1 / 1000000 < beforeObjective) ∧
      ((skewAttempts sqrtFn scoreFn passFn rankdir (captureLayoutState irB) beforeCorr
          beforeImb beforeObjective cx cy spanX spanY baseAmplitude scales ir).2 = false →
        (skewAttempts sqrtFn scoreFn passFn rankdir (captureLayoutState irB) beforeCorr
          beforeImb beforeObjective cx cy spanX spanY baseAmplitude scales ir).1 = irB) := by
  intro scales
  induction scales with
  | nil =>
    intro ir hskel
    constructor
    · intro h
      simp [skewAttempts] at h
    · intro _
      simp only [skewAttempts]
      exact restoreLayoutState_captureLayoutState hskel hn he hs
  | cons sc rest ih =>
    intro ir hskel
    have hrestore : restoreLayoutState ir (captureLayoutState irB) = irB :=
      restoreLayoutState_captureLayoutState hskel hn he hs
    simp only [skewAttempts]
    rw [hrestore]
    have hskelM : sameSkeleton (recomputeBounds (recomputeSubgraphBounds
        (passFn (skewMove rankdir beforeCorr cx cy spanX spanY (baseAmplitude * sc) irB))))
        irB :=
      sameSkeleton_trans (sameSkeleton_recomputeBounds _)
        (sameSkeleton_trans (sameSkeleton_recomputeSubgraphBounds _)
          (sameSkeleton_trans (hpass _) (sameSkeleton_skewMove _ _ _ _ _ _ _ _)))
    by_cases hacc : (|(skewCorrImbalance sqrtFn (recomputeBounds (recomputeSubgraphBounds
          (passFn (skewMove rankdir beforeCorr cx cy spanX spanY (baseAmplitude * sc)
            irB))))).1| + 1 / 1000000 < |beforeCorr| * (9 / 10) ∨
        (skewCorrImbalance sqrtFn (recomputeBounds (recomputeSubgraphBounds
          (passFn (skewMove rankdir beforeCorr cx cy spanX spanY (baseAmplitude * sc)
            irB))))).2 + 1 / 1000000 < beforeImb * (9 / 10)) ∧
        scoreFn (recomputeBounds (recomputeSubgraphBounds
          (passFn (skewMove rankdir beforeCorr cx cy spanX spanY (baseAmplitude * sc) irB)))) +
          (skewCorrImbalance sqrtFn (recomputeBounds (recomputeSubgraphBounds
            (passFn (skewMove rankdir beforeCorr cx cy spanX spanY (baseAmplitude * sc)
              irB))))).2 * 2600 +
          |(skewCorrImbalance sqrtFn (recomputeBounds (recomputeSubgraphBounds
            (passFn (skewMove rankdir beforeCorr cx cy spanX spanY (baseAmplitude * sc)
              irB))))).1| * 900 + 1 / 1000000 < beforeObjective
    · rw [if_pos hacc]
      constructor
      · intro _
        exact hacc.2
      · intro h
        simp at h
    · rw [if_neg hacc]
      exact ih _ hskelM

theorem rebalanceAttempts_spec (scoreFn : DiagramIr α → α)
    (passFn : DiagramIr α → DiagramIr α) (irB : DiagramIr α)
    (beforeImb beforeObjective pressureX pressureY baseShift cx cy spanX spanY : α)
    (hpass : ∀ x, sameSkeleton (passFn x) x)
    (hn : (irB.nodes.map (fun n => n.id)).Nodup)
    (he : (irB.edges.map (fun e => e.id)).Nodup)
    (hs : (irB.subgraphs.map (fun s => s.id)).Nodup) :
    ∀ (scales : List α) (ir : DiagramIr α), sameSkeleton ir irB →
      ((rebalanceAttempts scoreFn passFn (captureLayoutState irB) beforeImb beforeObjective
          pressureX pressureY baseShift cx cy spanX spanY scales ir).2 = true →
        quadrantImbalanceOf
            (rebalanceAttempts scoreFn passFn (captureLayoutState irB) beforeImb
              beforeObjective pressureX pressureY baseShift cx cy spanX spanY scales ir).1 +
            1 / 1000000 < beforeImb * (88 / 100) ∧
        rebalanceObjective scoreFn
            (rebalanceAttempts scoreFn passFn (captureLayoutState irB) beforeImb
              beforeObjective pressureX pressureY baseShift cx cy spanX spanY scales ir).1 ≤
          beforeObjective * (108 / 100)) ∧
      ((rebalanceAttempts scoreFn passFn (captureLayoutState irB) beforeImb beforeObjective
          pressureX pressureY baseShift cx cy spanX spanY scales ir).2 = false →
        (rebalanceAttempts scoreFn passFn (captureLayoutState irB) beforeImb beforeObjective
          pressureX pressureY baseShift cx cy spanX spanY scales ir).1 = irB) := by
  intro scales
  induction scales with
  | nil =>
    intro ir hskel
    constructor
    · intro h
      simp [rebalanceAttempts] at h
    · intro _
      simp only [rebalanceAttempts]
      exact restoreLayoutState_captureLayoutState hskel hn he hs
  | cons sc rest ih =>
    intro ir hskel
    have hrestore : restoreLayoutState ir (captureLayoutState irB) = irB :=
      restoreLayoutState_captureLayoutState hskel hn he hs
    simp only [rebalanceAttempts]
    rw [hrestore]
    by_cases hmv : (rebalanceMove pressureX pressureY baseShift sc cx cy spanX spanY irB).2
        = false
    · rw [if_pos hmv]
      exact ih _ (sameSkeleton_refl irB)
    · rw [if_neg hmv]
      have hskelM : sameSkeleton (recomputeBounds (recomputeSubgraphBounds
          (passFn (rebalanceMove pressureX pressureY baseShift sc cx cy spanX spanY irB).1)))
          irB :=
        sameSkeleton_trans (sameSkeleton_recomputeBounds _)
          (sameSkeleton_trans (sameSkeleton_recomputeSubgraphBounds _)
            (sameSkeleton_trans (hpass _)
              (sameSkeleton_rebalanceMove _ _ _ _ _ _ _ _ _)))
      by_cases hacc : quadrantImbalanceOf (recomputeBounds (recomputeSubgraphBounds
            (passFn (rebalanceMove pressureX pressureY baseShift sc cx cy spanX spanY
              irB).1))) + 1 / 1000000 < beforeImb * (88 / 100) ∧
          rebalanceObjective scoreFn (recomputeBounds (recomputeSubgraphBounds
            (passFn (rebalanceMove pressureX pressureY baseShift sc cx cy spanX spanY
              irB).1))) ≤ beforeObjective * (108 / 100)
      · rw [if_pos hacc]
        constructor
        · intro _
          exact hacc
        · intro h
          simp at h
      · rw [if_neg hacc]
        exact ih _ hskelM

end Corrections

section Corrections

variable [FloorRing α]

theorem reduceDiagonalSkew_spec (sqrtFn : α → α) (scoreFn : DiagramIr α → α)
    (passFn : DiagramIr α → DiagramIr α) (rankdir : Rankdir) (ir0 : DiagramIr α)
    (hpass : ∀ x, sameSkeleton (passFn x) x)
    (hn : (ir0.nodes.map (fun n => n.id)).Nodup)
    (he : (ir0.edges.map (fun e => e.id)).Nodup)
    (hs : (ir0.subgraphs.map (fun s => s.id)).Nodup) :
    ((reduceDiagonalSkew sqrtFn scoreFn passFn rankdir ir0).2 = true →
      skewObjective sqrtFn scoreFn (reduceDiagonalSkew sqrtFn scoreFn passFn rankdir ir0).1 +
        1 / 1000000 <
        skewObjective sqrtFn scoreFn (recomputeBounds (recomputeSubgraphBounds ir0))) ∧
    ((reduceDiagonalSkew sqrtFn scoreFn passFn rankdir ir0).2 = false →
      (reduceDiagonalSkew sqrtFn scoreFn passFn rankdir ir0).1 = ir0 ∨
      (reduceDiagonalSkew sqrtFn scoreFn passFn rankdir ir0).1 =
        recomputeBounds (recomputeSubgraphBounds ir0)) := by
  have hskelB : sameSkeleton (recomputeBounds (recomputeSubgraphBounds ir0)) ir0 :=
    sameSkeleton_trans (sameSkeleton_recomputeBounds _)
      (sameSkeleton_recomputeSubgraphBounds _)
  have hnB : ((recomputeBounds (recomputeSubgraphBounds ir0)).nodes.map
      (fun n => n.id)).Nodup := by rw [ids_eq_of_skel_nodes hskelB]; exact hn
  have heB : ((recomputeBounds (recomputeSubgraphBounds ir0)).edges.map
      (fun e => e.id)).Nodup := by rw [ids_eq_of_skel_edges hskelB]; exact he
  have hsB : ((recomputeBounds (recomputeSubgraphBounds ir0)).subgraphs.map
      (fun s => s.id)).Nodup := by rw [ids_eq_of_skel_subs hskelB]; exact hs
  unfold reduceDiagonalSkew
  by_cases h8 : (readableNodes ir0).length < 8
  · rw [if_pos h8]
    exact ⟨fun h => by simp at h, fun _ => Or.inl rfl⟩
  · rw [if_neg h8]
    simp only []
    by_cases hguard : |(skewCorrImbalance sqrtFn
        (recomputeBounds (recomputeSubgraphBounds ir0))).1| < 42 / 100 ∨
        (skewCorrImbalance sqrtFn (recomputeBounds (recomputeSubgraphBounds ir0))).2 < 125 / 100
    · rw [if_pos hguard]
      exact ⟨fun h => by simp at h, fun _ => Or.inr rfl⟩
    · rw [if_neg hguard]
      have h := skewAttempts_spec sqrtFn scoreFn passFn rankdir
        (recomputeBounds (recomputeSubgraphBounds ir0))
        (skewCorrImbalance sqrtFn (recomputeBounds (recomputeSubgraphBounds ir0))).1
        (skewCorrImbalance sqrtFn (recomputeBounds (recomputeSubgraphBounds ir0))).2
        (skewObjective sqrtFn scoreFn (recomputeBounds (recomputeSubgraphBounds ir0)))
        (((recomputeBounds (recomputeSubgraphBounds ir0)).bounds.minX +
          (recomputeBounds (recomputeSubgraphBounds ir0)).bounds.maxX) / 2)
        (((recomputeBounds (recomputeSubgraphBounds ir0)).bounds.minY +
          (recomputeBounds (recomputeSubgraphBounds ir0)).bounds.maxY) / 2)
        (max 1 (recomputeBounds (recomputeSubgraphBounds ir0)).bounds.width)
        (max 1 (recomputeBounds (recomputeSubgraphBounds ir0)).bounds.height)
        (clamp (min (recomputeBounds (recomputeSubgraphBounds ir0)).bounds.width
            (recomputeBounds (recomputeSubgraphBounds ir0)).bounds.height * (7 / 100)) 20 120 *
          clamp |(skewCorrImbalance sqrtFn
            (recomputeBounds (recomputeSubgraphBounds ir0))).1| (45 / 100) 1)
        hpass hnB heB hsB [1, 62 / 100, 38 / 100]
        (recomputeBounds (recomputeSubgraphBounds ir0)) (sameSkeleton_refl _)
      exact ⟨h.1, fun hf => Or.inr (h.2 hf)⟩

theorem rebalanceQuadrantCoverage_spec (scoreFn : DiagramIr α → α)
    (passFn : DiagramIr α → DiagramIr α) (ir0 : DiagramIr α)
    (hpass : ∀ x, sameSkeleton (passFn x) x)
    (hn : (ir0.nodes.map (fun n => n.id)).Nodup)
    (he : (ir0.edges.map (fun e => e.id)).Nodup)
    (hs : (ir0.subgraphs.map (fun s => s.id)).Nodup) :
    ((rebalanceQuadrantCoverage scoreFn passFn ir0).2 = true →
      quadrantImbalanceOf (rebalanceQuadrantCoverage scoreFn passFn ir0).1 + 1 / 1000000 <
        quadrantImbalanceOf (recomputeBounds (recomputeSubgraphBounds ir0)) * (88 / 100) ∧
      rebalanceObjective scoreFn (rebalanceQuadrantCoverage scoreFn passFn ir0).1 ≤
        rebalanceObjective scoreFn (recomputeBounds (recomputeSubgraphBounds ir0)) *
          (108 / 100)) ∧
    ((rebalanceQuadrantCoverage scoreFn passFn ir0).2 = false →
      (rebalanceQuadrantCoverage scoreFn passFn ir0).1 = ir0 ∨
      (rebalanceQuadrantCoverage scoreFn passFn ir0).1 =
        recomputeBounds (recomputeSubgraphBounds ir0)) := by
  have hskelB : sameSkeleton (recomputeBounds (recomputeSubgraphBounds ir0)) ir0 :=
    sameSkeleton_trans (sameSkeleton_recomputeBounds _)
      (sameSkeleton_recomputeSubgraphBounds _)
  have hnB : ((recomputeBounds (recomputeSubgraphBounds ir0)).nodes.map
      (fun n => n.id)).Nodup := by rw [ids_eq_of_skel_nodes hskelB]; exact hn
  have heB : ((recomputeBounds (recomputeSubgraphBounds ir0)).edges.map
      (fun e => e.id)).Nodup := by rw [ids_eq_of_skel_edges hskelB]; exact he
  have hsB : ((recomputeBounds (recomputeSubgraphBounds ir0)).subgraphs.map
      (fun s => s.id)).Nodup := by rw [ids_eq_of_skel_subs hskelB]; exact hs
  set irB := recomputeBounds (recomputeSubgraphBounds ir0) with hirB
  unfold rebalanceQuadrantCoverage
  rw [← hirB]
  by_cases h8 : (readableNodes ir0).length < 8
  · rw [if_pos h8]
    exact ⟨fun h => by simp at h, fun _ => Or.inl rfl⟩
  · rw [if_neg h8]
    simp only []
    by_cases hg1 : quadrantImbalanceOf irB < 13 / 10
    · rw [if_pos hg1]
      exact ⟨fun h => by simp at h, fun _ => Or.inr rfl⟩
    · rw [if_neg hg1]
      by_cases hg2 : (quadrantAreasOf irB).1 + (quadrantAreasOf irB).2.2.1 +
          ((quadrantAreasOf irB).2.1 + (quadrantAreasOf irB).2.2.2) ≤ 0
      · rw [if_pos hg2]
        exact ⟨fun h => by simp at h, fun _ => Or.inr rfl⟩
      · rw [if_neg hg2]
        by_cases hg3 : |clamp (((quadrantAreasOf irB).1 + (quadrantAreasOf irB).2.2.1 -
              ((quadrantAreasOf irB).2.1 + (quadrantAreasOf irB).2.2.2)) /
              ((quadrantAreasOf irB).1 + (quadrantAreasOf irB).2.2.1 +
                ((quadrantAreasOf irB).2.1 + (quadrantAreasOf irB).2.2.2)))
              (-(9 / 10)) (9 / 10)| < 8 / 100 ∧
            |clamp (((quadrantAreasOf irB).1 + (quadrantAreasOf irB).2.1 -
              ((quadrantAreasOf irB).2.2.1 + (quadrantAreasOf irB).2.2.2)) /
              ((quadrantAreasOf irB).1 + (quadrantAreasOf irB).2.2.1 +
                ((quadrantAreasOf irB).2.1 + (quadrantAreasOf irB).2.2.2)))
              (-(9 / 10)) (9 / 10)| < 8 / 100
        · rw [if_pos hg3]
          exact ⟨fun h => by simp at h, fun _ => Or.inr rfl⟩
        · rw [if_neg hg3]
          have h := rebalanceAttempts_spec scoreFn passFn irB
            (quadrantImbalanceOf irB) (rebalanceObjective scoreFn irB)
            (clamp (((quadrantAreasOf irB).1 + (quadrantAreasOf irB).2.2.1 -
              ((quadrantAreasOf irB).2.1 + (quadrantAreasOf irB).2.2.2)) /
              ((quadrantAreasOf irB).1 + (quadrantAreasOf irB).2.2.1 +
                ((quadrantAreasOf irB).2.1 + (quadrantAreasOf irB).2.2.2)))
              (-(9 / 10)) (9 / 10))
            (clamp (((quadrantAreasOf irB).1 + (quadrantAreasOf irB).2.1 -
              ((quadrantAreasOf irB).2.2.1 + (quadrantAreasOf irB).2.2.2)) /
              ((quadrantAreasOf irB).1 + (quadrantAreasOf irB).2.2.1 +
                ((quadrantAreasOf irB).2.1 + (quadrantAreasOf irB).2.2.2)))
              (-(9 / 10)) (9 / 10))
            (clamp (min irB.bounds.width irB.bounds.height * (4 / 100)) 14 64)
            ((irB.bounds.minX + irB.bounds.maxX) / 2) ((irB.bounds.minY + irB.bounds.maxY) / 2)
            (max 1 irB.bounds.width) (max 1 irB.bounds.height)
            hpass hnB heB hsB [1, 62 / 100, 36 / 100] irB (sameSkeleton_refl _)
          exact ⟨h.1, fun hf => Or.inr (h.2 hf)⟩

end Corrections

section Corrections

variable [FloorRing α]

/-- C7 (amended): both speculative corrections snapshot the (bounds-
recomputed) pre-correction state and either accept or restore it exactly.
The skew correction accepts only a strictly smaller objective
(`score + imbalance·2600 + |corr|·900`).  The quadrant correction differs
from the spec: it accepts when the imbalance improves below `0.88×` its
previous value while the objective stays within `1.08×` of the
pre-correction objective — the accepted objective may be strictly worse.
On rejection each correction returns the diagram unchanged (an early
guard) or restored exactly to the snapshot. -/
theorem c7_corrections_accept_or_restore (sqrtFn : α → α) (scoreFn : DiagramIr α → α)
    (passFn : DiagramIr α → DiagramIr α) (rankdir : Rankdir) (ir0 : DiagramIr α)
    (hpass : ∀ x, sameSkeleton (passFn x) x)
    (hn : (ir0.nodes.map (fun n => n.id)).Nodup)
    (he : (ir0.edges.map (fun e => e.id)).Nodup)
    (hs : (ir0.subgraphs.map (fun s => s.id)).Nodup) :
    ((reduceDiagonalSkew sqrtFn scoreFn passFn rankdir ir0).2 = true →
      skewObjective sqrtFn scoreFn (reduceDiagonalSkew sqrtFn scoreFn passFn rankdir ir0).1 +
        1 / 1000000 <
        skewObjective sqrtFn scoreFn (recomputeBounds (recomputeSubgraphBounds ir0))) ∧
    ((reduceDiagonalSkew sqrtFn scoreFn passFn rankdir ir0).2 = false →
      (reduceDiagonalSkew sqrtFn scoreFn passFn rankdir ir0).1 = ir0 ∨
      (reduceDiagonalSkew sqrtFn scoreFn passFn rankdir ir0).1 =
        recomputeBounds (recomputeSubgraphBounds ir0)) ∧
    ((rebalanceQuadrantCoverage scoreFn passFn ir0).2 = true →
      quadrantImbalanceOf (rebalanceQuadrantCoverage scoreFn passFn ir0).1 + 1 / 1000000 <
        quadrantImbalanceOf (recomputeBounds (recomputeSubgraphBounds ir0)) * (88 / 100) ∧
      rebalanceObjective scoreFn (rebalanceQuadrantCoverage scoreFn passFn ir0).1 ≤
        rebalanceObjective scoreFn (recomputeBounds (recomputeSubgraphBounds ir0)) *
          (108 / 100)) ∧
    ((rebalanceQuadrantCoverage scoreFn passFn ir0).2 = false →
      (rebalanceQuadrantCoverage scoreFn passFn ir0).1 = ir0 ∨
      (rebalanceQuadrantCoverage scoreFn passFn ir0).1 =
        recomputeBounds (recomputeSubgraphBounds ir0)) := by
  obtain ⟨h1, h2⟩ := reduceDiagonalSkew_spec sqrtFn scoreFn passFn rankdir ir0 hpass hn he hs
  obtain ⟨h3, h4⟩ := rebalanceQuadrantCoverage_spec scoreFn passFn ir0 hpass hn he hs
  exact ⟨h1, h2, h3, h4⟩

end Corrections

def c7wIr : DiagramIr ℚ :=
  ⟨.TB, ⟨90, 60, 30, 30, 30⟩, [], [], [], ⟨0, 0, 0, 0, 0, 0⟩⟩

theorem c7_witness :
    (∀ x : DiagramIr ℚ, sameSkeleton ((fun y => y) x) x) ∧
    ((rebalanceQuadrantCoverage (fun _ => (0 : ℚ)) (fun y => y) c7wIr).2 = false →
      (rebalanceQuadrantCoverage (fun _ => (0 : ℚ)) (fun y => y) c7wIr).1 = c7wIr ∨
      (rebalanceQuadrantCoverage (fun _ => (0 : ℚ)) (fun y => y) c7wIr).1 =
        recomputeBounds (recomputeSubgraphBounds c7wIr)) :=
  ⟨fun x => sameSkeleton_refl x,
   (c7_corrections_accept_or_restore (fun q => q) (fun _ => (0 : ℚ)) (fun y => y)
      Rankdir.TB c7wIr (fun x => sameSkeleton_refl x) (by decide) (by decide)
      (by decide)).2.2.2⟩

def c7ceStyle : NodeStyle ℚ := ⟨"FFFFFF", "000000", "000000", 14⟩

def c7ceNode (id : String) (x y : ℚ) : IrNode ℚ := ⟨id, id, false, none, 10, 10, x, y, c7ceStyle⟩

def c7ceIr : DiagramIr ℚ :=
  ⟨.TB, ⟨90, 60, 30, 30, 30⟩,
   [c7ceNode "a" 0 0, c7ceNode "b" 15 0, c7ceNode "c" 30 0, c7ceNode "d" 0 15,
    c7ceNode "e" 15 15, c7ceNode "f" 30 15, c7ceNode "g" 0 30, c7ceNode "h" 90 90],
   [], [], ⟨0, 0, 0, 0, 0, 0⟩⟩

def c7ceAfter : DiagramIr ℚ :=
  ⟨.TB, ⟨90, 60, 30, 30, 30⟩,
   [c7ceNode "a" 0 0, c7ceNode "b" 90 0, c7ceNode "c" 0 90, c7ceNode "d" 90 90,
    c7ceNode "e" 10 10, c7ceNode "f" 80 10, c7ceNode "g" 10 80, c7ceNode "h" 80 80],
   [], [], ⟨0, 0, 0, 0, 0, 0⟩⟩

def c7ceScore : DiagramIr ℚ → ℚ := fun ir => if quadrantImbalanceOf ir = 0 then 10000 else 0

def c7cePass : DiagramIr ℚ → DiagramIr ℚ := fun _ => c7ceAfter

set_option maxHeartbeats 2000000 in
/-- The quadrant correction can accept a strictly worse re-scored
objective: on this eight-node diagram the rebalance is accepted (the
imbalance drops from `7/2` to `0`) while the objective rises from `9800`
to `10000`, within the `1.08×` tolerance the source allows. -/
theorem c7_counterexample :
    (rebalanceQuadrantCoverage c7ceScore c7cePass c7ceIr).2 = true ∧
    rebalanceObjective c7ceScore (recomputeBounds (recomputeSubgraphBounds c7ceIr)) <
      rebalanceObjective c7ceScore (rebalanceQuadrantCoverage c7ceScore c7cePass c7ceIr).1 := by
  have hsub : recomputeSubgraphBounds c7ceIr = c7ceIr := rfl
  have hsubA : recomputeSubgraphBounds c7ceAfter = c7ceAfter := rfl
  have hB : recomputeBounds c7ceIr = { c7ceIr with bounds := ⟨0, 0, 100, 100, 100, 100⟩ } := by
    norm_num [recomputeBounds, mergeRect, rectUnion, nodeRect, c7ceIr, c7ceNode, c7ceStyle,
      min_def, max_def]
  have hBA : recomputeBounds c7ceAfter =
      { c7ceAfter with bounds := ⟨0, 0, 100, 100, 100, 100⟩ } := by
    norm_num [recomputeBounds, mergeRect, rectUnion, nodeRect, c7ceAfter, c7ceNode, c7ceStyle,
      min_def, max_def]
  have hImbB : quadrantImbalanceOf
      ({ c7ceIr with bounds := ⟨0, 0, 100, 100, 100, 100⟩ } : DiagramIr ℚ) = 7 / 2 := by
    norm_num [quadrantImbalanceOf, quadrantAreasOf, readableNodes, c7ceIr, c7ceNode, c7ceStyle,
      min_def, max_def]
  have hImbA : quadrantImbalanceOf
      ({ c7ceAfter with bounds := ⟨0, 0, 100, 100, 100, 100⟩ } : DiagramIr ℚ) = 0 := by
    norm_num [quadrantImbalanceOf, quadrantAreasOf, readableNodes, c7ceAfter, c7ceNode,
      c7ceStyle, min_def, max_def]
  have hQ : quadrantAreasOf
      ({ c7ceIr with bounds := ⟨0, 0, 100, 100, 100, 100⟩ } : DiagramIr ℚ) =
      (700, 0, 0, 100) := by
    norm_num [quadrantAreasOf, readableNodes, c7ceIr, c7ceNode, c7ceStyle]
  have hOB : rebalanceObjective c7ceScore
      ({ c7ceIr with bounds := ⟨0, 0, 100, 100, 100, 100⟩ } : DiagramIr ℚ) = 9800 := by
    rw [rebalanceObjective, hImbB]
    rw [show c7ceScore { c7ceIr with bounds := ⟨0, 0, 100, 100, 100, 100⟩ } = 0 from by
      rw [c7ceScore]
      simp only [hImbB]
      norm_num]
    norm_num
  have hOA : rebalanceObjective c7ceScore
      ({ c7ceAfter with bounds := ⟨0, 0, 100, 100, 100, 100⟩ } : DiagramIr ℚ) = 10000 := by
    rw [rebalanceObjective, hImbA]
    rw [show c7ceScore { c7ceAfter with bounds := ⟨0, 0, 100, 100, 100, 100⟩ } = 10000 from by
      rw [c7ceScore]
      simp only [hImbA]
      norm_num]
    norm_num
  have hmain : rebalanceQuadrantCoverage c7ceScore c7cePass c7ceIr =
      ({ c7ceAfter with bounds := ⟨0, 0, 100, 100, 100, 100⟩ }, true) := by
    unfold rebalanceQuadrantCoverage
    rw [hsub, hB]
    rw [if_neg (by norm_num [readableNodes, c7ceIr, c7ceNode, c7ceStyle] :
      ¬ (readableNodes c7ceIr).length < 8)]
    simp only [hQ, hImbB]
    norm_num [clamp, min_def, max_def]
    rw [if_neg (show ¬ |(3 / 4 : ℚ)| < 2 / 25 by
      rw [abs_of_nonneg (by norm_num : (0 : ℚ) ≤ 3 / 4)]
      norm_num)]
    simp only [rebalanceAttempts]
    rw [restoreLayoutState_captureLayoutState (sameSkeleton_refl _) (by decide) (by decide)
      (by decide)]
    rw [if_neg (show ¬ (rebalanceMove (3 / 4) (3 / 4) 14 1 50 50 100 100
        ({ c7ceIr with bounds := ⟨0, 0, 100, 100, 100, 100⟩ } : DiagramIr ℚ)).2 = false by
      norm_num [rebalanceMove, rebalanceDelta, readableNodes, c7ceIr, c7ceNode, c7ceStyle,
        clamp, min_def, max_def]
      intro h1
      rw [abs_of_nonneg (by norm_num : (0 : ℚ) ≤ 399 / 20)] at h1
      norm_num at h1)]
    simp only [c7cePass]
    rw [hsubA, hBA, hImbA, hOB]
    rw [if_pos (show (0 : ℚ) + 1 / 1000000 < 7 / 2 * (88 / 100) ∧
        rebalanceObjective c7ceScore
          ({ c7ceAfter with bounds := ⟨0, 0, 100, 100, 100, 100⟩ } : DiagramIr ℚ) ≤
          9800 * (108 / 100) by
      refine ⟨by norm_num, ?_⟩
      rw [hOA]
      norm_num)]
  refine ⟨by rw [hmain], ?_⟩
  rw [hsub, hB, hOB, hmain]
  simp only []
  rw [hOA]
  norm_num

/-! ### layout.ts: aspect-ratio tuning (claim C8) -/

/-- layout.ts `diagramAspect`. -/
def diagramAspect (ir : DiagramIr α) : α := ir.bounds.width / max 1 ir.bounds.height

/-- The candidate loop of layout.ts `tuneLayoutForAspect` (at most four
spacing steps).  `applyLayoutFn` stands for `applyLayout` (dagre plus the
whole post-processing pipeline) and `devFn` for the candidate score
`|Math.log(diagramAspect / target)|` (float log).  The embedding also
returns the list of scores of every evaluated candidate layout, in order,
so the enumeration behaviour itself can be reasoned about. -/
def tuneLoop (applyLayoutFn : DiagramIr α → α → DiagramIr α) (devFn : DiagramIr α → α → α)
    (target : α) (isVertical : Bool) :
    ℕ → DiagramIr α → α → α → (LayoutState α × α × α × α) → List α →
    DiagramIr α × (LayoutState α × α × α × α) × List α
  | 0, ir, _, _, best, scores => (ir, best, scores)
  | k + 1, ir, cN, cR, best, scores =>
    let ratio := diagramAspect ir / target
    if 106 / 100 < ratio ∨ ratio < 94 / 100 then
      let factN : α := if 106 / 100 < ratio then (if isVertical then 86 / 100 else 120 / 100)
        else (if isVertical then 116 / 100 else 88 / 100)
      let factR : α := if 106 / 100 < ratio then (if isVertical then 120 / 100 else 86 / 100)
        else (if isVertical then 88 / 100 else 116 / 100)
      let cN2 := clamp (cN * factN) 22 260
      let cR2 := clamp (cR * factR) 40 380
      let ir2 := applyLayoutFn
        { ir with layout := { ir.layout with nodesep := cN2, ranksep := cR2 } } target
      let score := devFn ir2 target
      let best2 := if score < best.2.2.2 then (captureLayoutState ir2, cN2, cR2, score)
        else best
      tuneLoop applyLayoutFn devFn target isVertical k ir2 cN2 cR2 best2 (scores ++ [score])
    else (ir, best, scores)

/-- layout.ts `tuneLayoutForAspect`: lay out once, try at most four spacing
adjustments, keep the candidate with the smallest deviation score, and
restore its snapshot and spacings.  Returns the tuned diagram, the list of
every evaluated candidate's score, and the kept score. -/
def tuneLayoutForAspect (applyLayoutFn : DiagramIr α → α → DiagramIr α)
    (devFn : DiagramIr α → α → α) (targetAspectRatio : α) (ir0 : DiagramIr α) :
    DiagramIr α × List α × α :=
  let target := clampAspect targetAspectRatio
  let isVertical := decide (toRankdir ir0.direction = Rankdir.TB ∨
    toRankdir ir0.direction = Rankdir.BT)
  let ir1 := applyLayoutFn ir0 target
  let s0 := devFn ir1 target
  let r := tuneLoop applyLayoutFn devFn target isVertical 4 ir1 ir0.layout.nodesep
    ir0.layout.ranksep (captureLayoutState ir1, ir1.layout.nodesep, ir1.layout.ranksep, s0) [s0]
  ({ restoreLayoutState r.1 r.2.1.1 with
      layout := { r.1.layout with nodesep := r.2.1.2.1, ranksep := r.2.1.2.2.1 } },
   r.2.2, r.2.1.2.2.2)

theorem tuneLoop_spec (applyLayoutFn : DiagramIr α → α → DiagramIr α)
    (devFn : DiagramIr α → α → α) (target : α) (isVertical : Bool) :
    ∀ (k : ℕ) (ir : DiagramIr α) (cN cR : α) (best : LayoutState α × α × α × α)
      (scores : List α), best.2.2.2 ∈ scores → (∀ s ∈ scores, best.2.2.2 ≤ s) →
      (tuneLoop applyLayoutFn devFn target isVertical k ir cN cR best scores).2.1.2.2.2 ∈
        (tuneLoop applyLayoutFn devFn target isVertical k ir cN cR best scores).2.2 ∧
      (∀ s ∈ (tuneLoop applyLayoutFn devFn target isVertical k ir cN cR best scores).2.2,
        (tuneLoop applyLayoutFn devFn target isVertical k ir cN cR best scores).2.1.2.2.2 ≤ s) ∧
      (tuneLoop applyLayoutFn devFn target isVertical k ir cN cR best scores).2.2.length ≤
        scores.length + k ∧
      scores.length ≤
        (tuneLoop applyLayoutFn devFn target isVertical k ir cN cR best scores).2.2.length := by
  intro k
  induction k with
  | zero =>
    intro ir cN cR best scores hmem hle
    exact ⟨hmem, hle, by simp [tuneLoop], le_refl _⟩
  | succ k ih =>
    intro ir cN cR best scores hmem hle
    rw [tuneLoop]
    by_cases hratio : 106 / 100 < diagramAspect ir / target ∨ diagramAspect ir / target < 94 / 100
    · rw [if_pos hratio]
      simp only []
      set cN2 := clamp (cN * (if 106 / 100 < diagramAspect ir / target then
        (if isVertical then (86 : α) / 100 else 120 / 100)
        else (if isVertical then 116 / 100 else 88 / 100))) 22 260 with hcN2
      set cR2 := clamp (cR * (if 106 / 100 < diagramAspect ir / target then
        (if isVertical then (120 : α) / 100 else 86 / 100)
        else (if isVertical then 88 / 100 else 116 / 100))) 40 380 with hcR2
      set ir2 := applyLayoutFn
        { ir with layout := { ir.layout with nodesep := cN2, ranksep := cR2 } } target with hir2
      by_cases hsc : devFn ir2 target < best.2.2.2
      · rw [if_pos hsc]
        have hmem2 : devFn ir2 target ∈ scores ++ [devFn ir2 target] := by simp
        have hle2 : ∀ s ∈ scores ++ [devFn ir2 target], devFn ir2 target ≤ s := by
          intro s hsmem
          rcases List.mem_append.mp hsmem with hi | hi
          · exact le_of_lt (lt_of_lt_of_le hsc (hle s hi))
          · simp only [List.mem_singleton] at hi
            rw [hi]
        have h := ih ir2 cN2 cR2 (captureLayoutState ir2, cN2, cR2, devFn ir2 target)
          (scores ++ [devFn ir2 target]) hmem2 hle2
        refine ⟨h.1, h.2.1, ?_, ?_⟩
        · refine le_trans h.2.2.1 ?_
          simp only [List.length_append, List.length_cons, List.length_nil]
          omega
        · refine le_trans ?_ h.2.2.2
          simp only [List.length_append, List.length_cons, List.length_nil]
          omega
      · rw [if_neg hsc]
        have hmem2 : best.2.2.2 ∈ scores ++ [devFn ir2 target] :=
          List.mem_append.mpr (Or.inl hmem)
        have hle2 : ∀ s ∈ scores ++ [devFn ir2 target], best.2.2.2 ≤ s := by
          intro s hsmem
          rcases List.mem_append.mp hsmem with hi | hi
          · exact hle s hi
          · simp only [List.mem_singleton] at hi
            rw [hi]
            exact le_of_not_lt hsc
        have h := ih ir2 cN2 cR2 best (scores ++ [devFn ir2 target]) hmem2 hle2
        refine ⟨h.1, h.2.1, ?_, ?_⟩
        · refine le_trans h.2.2.1 ?_
          simp only [List.length_append, List.length_cons, List.length_nil]
          omega
        · refine le_trans ?_ h.2.2.2
          simp only [List.length_append, List.length_cons, List.length_nil]
          omega
    · rw [if_neg hratio]
      exact ⟨hmem, hle, by simp, le_refl _⟩

/-- The candidates of `tuneLayoutForAspect`: at least one and at most five
full layouts are evaluated, and the kept score is the minimum of the
evaluated candidates' scores. -/
theorem tuneLayoutForAspect_spec (applyLayoutFn : DiagramIr α → α → DiagramIr α)
    (devFn : DiagramIr α → α → α) (targetAspectRatio : α) (ir0 : DiagramIr α) :
    (tuneLayoutForAspect applyLayoutFn devFn targetAspectRatio ir0).2.1.length ≤ 5 ∧
    1 ≤ (tuneLayoutForAspect applyLayoutFn devFn targetAspectRatio ir0).2.1.length ∧
    (tuneLayoutForAspect applyLayoutFn devFn targetAspectRatio ir0).2.2 ∈
      (tuneLayoutForAspect applyLayoutFn devFn targetAspectRatio ir0).2.1 ∧
    ∀ s ∈ (tuneLayoutForAspect applyLayoutFn devFn targetAspectRatio ir0).2.1,
      (tuneLayoutForAspect applyLayoutFn devFn targetAspectRatio ir0).2.2 ≤ s := by
  have h := tuneLoop_spec applyLayoutFn devFn (clampAspect targetAspectRatio)
    (decide (toRankdir ir0.direction = Rankdir.TB ∨ toRankdir ir0.direction = Rankdir.BT))
    4 (applyLayoutFn ir0 (clampAspect targetAspectRatio))
    ir0.layout.nodesep ir0.layout.ranksep
    (captureLayoutState (applyLayoutFn ir0 (clampAspect targetAspectRatio)),
      (applyLayoutFn ir0 (clampAspect targetAspectRatio)).layout.nodesep,
      (applyLayoutFn ir0 (clampAspect targetAspectRatio)).layout.ranksep,
      devFn (applyLayoutFn ir0 (clampAspect targetAspectRatio))
        (clampAspect targetAspectRatio))
    [devFn (applyLayoutFn ir0 (clampAspect targetAspectRatio))
      (clampAspect targetAspectRatio)]
    (by simp) (by
      intro s hs
      simp only [List.mem_singleton] at hs
      rw [hs])
  exact ⟨le_trans h.2.2.1 (by simp), le_trans (by simp) h.2.2.2, h.1, h.2.1⟩

/-- Modelled from the SPEC's words (row packing, spec §4.6(b)), not from
the source: every way to partition an ordered list of blocks into
contiguous non-empty rows.  The source contains no such computation; this
definition only serves to compare the spec's demanded candidate set with
what the code evaluates. -/
def rowPartitions {β : Type} : List β → List (List (List β))
  | [] => [[]]
  | x :: rest =>
    (rowPartitions rest).map (fun p => [x] :: p) ++
      (rowPartitions rest).filterMap (fun p =>
        match p with
        | [] => none
        | r :: rs => some ((x :: r) :: rs))

/-- C8 (amended): aspect fitting does not enumerate block-row partitions.
`tuneLayoutForAspect` evaluates between one and five full layouts — the
initial layout plus at most four nodesep/ranksep adjustments — and keeps
the candidate whose aspect-deviation score is smallest among those
evaluated.  The spec's row-packing enumeration (`rowPartitions`, modelled
from the spec's words) has no counterpart in the source. -/
theorem c8_aspect_tuning (applyLayoutFn : DiagramIr α → α → DiagramIr α)
    (devFn : DiagramIr α → α → α) (targetAspectRatio : α) (ir0 : DiagramIr α) :
    (tuneLayoutForAspect applyLayoutFn devFn targetAspectRatio ir0).2.1.length ≤ 5 ∧
    1 ≤ (tuneLayoutForAspect applyLayoutFn devFn targetAspectRatio ir0).2.1.length ∧
    (tuneLayoutForAspect applyLayoutFn devFn targetAspectRatio ir0).2.2 ∈
      (tuneLayoutForAspect applyLayoutFn devFn targetAspectRatio ir0).2.1 ∧
    ∀ s ∈ (tuneLayoutForAspect applyLayoutFn devFn targetAspectRatio ir0).2.1,
      (tuneLayoutForAspect applyLayoutFn devFn targetAspectRatio ir0).2.2 ≤ s :=
  tuneLayoutForAspect_spec applyLayoutFn devFn targetAspectRatio ir0

def c8ceIr : DiagramIr ℚ :=
  ⟨.TB, ⟨90, 60, 30, 30, 30⟩, [], [], [], ⟨0, 0, 0, 0, 0, 0⟩⟩

/-- The spec's row packing would lay out all eight contiguous row
partitions of four ordered blocks and keep the best; the tuner never
evaluates more than five candidate layouts, so the code cannot be
performing that enumeration. -/
theorem c8_counterexample :
    (rowPartitions ["b1", "b2", "b3", "b4"]).length = 8 ∧
    (tuneLayoutForAspect (fun ir _ => ir) (fun _ _ => (1 : ℚ)) (16 / 9) c8ceIr).2.1.length ≤ 5 ∧
    (tuneLayoutForAspect (fun ir _ => ir) (fun _ _ => (1 : ℚ)) (16 / 9) c8ceIr).2.1.length <
      (rowPartitions ["b1", "b2", "b3", "b4"]).length :=
  ⟨by decide,
   (tuneLayoutForAspect_spec _ _ _ _).1,
   lt_of_le_of_lt (tuneLayoutForAspect_spec _ _ _ _).1 (by decide)⟩

end Mmd2Pptx
